import Mathlib

/-! # thalweg: the graph of depth soundings and its shortest-path search

A shallow embedding of `src/Graph.cpp` (with the parts of `Location.cpp` it uses) and of the
text ingestion of `src/Utils.cpp` and `src/Parse.cpp`.

Conventions of the embedding:

* a C++ `double` that is read from the input (a latitude, a longitude, a depth) is the
  rational number it holds; `std::stod` rounds the text it reads to the nearest `double` and
  throws on a number beyond the range of `double`;
* a `double` that the program computes and that may be the not-a-number sentinel is a
  `Double`: either `Double.nan` or `Double.fin q` with `q` rational. The sums, differences
  and quotients that the program computes on doubles are exact in the embedding: a number of
  the embedding stands for the `double` nearest to it;
* `std::lround` returns a `long`: a rounded value outside its range is `LONG_MIN`;
* `std::unordered_map<Coordinate, V>` is a finite partial function `Coordinate → Option V`,
  `std::unordered_set<Coordinate>` is a predicate `Coordinate → Bool`;
* `unsigned` is a natural number;
* a `while` loop is a function with a fuel argument that counts the iterations allowed;
  undefined behaviour of the C++ program and running out of fuel are distinct faults;
* a `std::string` is the list of its characters, and a function that may throw returns an
  `Except` whose error names the exception.
-/

namespace thalweg

/-! ## Data model -/

/-- Modelled from the spec: `Coordinate` (`Coordinate.hpp` is not among the sources) is the
plain pair `{ latitude: float64, longitude: float64 }`; its equality is exact field
equality. -/
structure Coordinate where
  latitude : ℚ
  longitude : ℚ
deriving DecidableEq

/-- The `Location` of `Location.hpp`, as used by `Location.cpp` and `Graph.cpp`: a coordinate
and the depth sounded there. -/
structure Location where
  coord : Coordinate
  depth : ℚ
deriving DecidableEq

/-- A computed `double`: the not-a-number sentinel or an exact rational value. -/
inductive Double where
  | nan : Double
  | fin (q : ℚ) : Double
deriving DecidableEq

/-- The least value of the type `long` (64 bits). -/
def LONG_MIN : ℤ := -9223372036854775808

/-- The greatest value of the type `long` (64 bits). -/
def LONG_MAX : ℤ := 9223372036854775807

namespace Double

/-- The sum of two doubles: not-a-number is absorbing. -/
def add : Double → Double → Double
  | fin a, fin b => fin (a + b)
  | _, _ => nan

/-- The comparison `a < b` of two doubles: false as soon as one side is not-a-number. -/
def lt : Double → Double → Bool
  | fin a, fin b => decide (a < b)
  | _, _ => false

/-- The function `std::lround`, whose result is a `long`: rounding to the nearest integer,
halves away from zero. When the rounded value does not fit a `long`, and on not-a-number, C++
leaves the result unspecified; the embedding gives what the conversion instruction of x86-64
gives, `LONG_MIN`. -/
def lround : Double → ℤ
  | fin q =>
    let rounded := if 0 ≤ q then ⌊q + 1 / 2⌋ else -⌊-q + 1 / 2⌋
    if LONG_MIN ≤ rounded ∧ rounded ≤ LONG_MAX then rounded else LONG_MIN
  | nan => LONG_MIN

end Double

/-- The `Graph` of `Graph.hpp`: the samples, the resolution and the cached maximum depth. -/
structure Graph where
  data : List Location
  resolution : ℕ
  max_depth : ℚ

/-- The function `max_depth_of` (Graph.cpp:32): `std::accumulate` from `0.0` with `std::max`. -/
def max_depth_of (v : List Location) : ℚ :=
  v.foldl (fun acc val => max acc val.depth) 0

/-- The constructor `Graph::Graph` (Graph.cpp:66). -/
def Graph.new (data : List Location) (resolution : ℕ) : Graph :=
  { data := data, resolution := resolution, max_depth := max_depth_of data }

/-- The conversion of a non-negative `double` argument to the `unsigned` parameter of the
constructor: truncation toward zero. -/
def unsigned_of_double (q : ℚ) : ℕ := ⌊q⌋.toNat

/-- The method `Graph::find` (Graph.cpp:91): `std::find_if` returns the first stored location
whose coordinate equals `coord`; `none` stands for the end iterator. -/
def Graph.find (g : Graph) (coord : Coordinate) : Option Location :=
  g.data.find? (fun loc => decide (loc.coord = coord))

/-- The method `Graph::contains` (Graph.cpp:73). -/
def Graph.contains (g : Graph) (coord : Coordinate) : Bool :=
  (g.find coord).isSome

/-- The method `Graph::adjacent` (Graph.cpp:78). The function `distance_between` of
`Coordinate.cpp` is not among the sources: it is the parameter `dist`. -/
def Graph.adjacent (dist : Coordinate → Coordinate → ℚ) (g : Graph)
    (lhs rhs : Coordinate) : Bool :=
  g.contains lhs && g.contains rhs && decide (dist lhs rhs < (g.resolution : ℚ))

/-- The method `Graph::weight` (Graph.cpp:83). -/
def Graph.weight (g : Graph) (coord : Coordinate) : Double :=
  match g.find coord with
  | none => Double.nan
  | some loc => Double.fin (g.max_depth - loc.depth + 1)

/-- The coordinates of the stored locations, in order (Graph.cpp:101). -/
def Graph.coords (g : Graph) : List Coordinate :=
  g.data.map (fun loc => loc.coord)

/-- Modelled from the spec: `closest_point` (`Coordinate.cpp` is not among the sources) returns
the candidate that minimises the distance to `target`, the first such candidate in iteration
order; it is undefined on an empty candidate sequence. -/
def closest_point (dist : Coordinate → Coordinate → ℚ) (target : Coordinate) :
    List Coordinate → Option Coordinate
  | [] => none
  | c :: cs =>
    some (cs.foldl (fun best x => if dist target x < dist target best then x else best) c)

/-- A distance that meets the requirements the spec puts on `distance_between` (symmetric,
non-negative, zero from a point to itself): the sum of the absolute differences of the two
fields. It instantiates the parameter `dist` in concrete examples. -/
def grid_distance (a b : Coordinate) : ℚ :=
  |a.latitude - b.latitude| + |a.longitude - b.longitude|

/-! ## Containers -/

/-- The ways in which a run of the embedded program fails to return a value. -/
inductive Fault where
  /-- Undefined behaviour: `closest_point` over no candidates. -/
  | empty_candidates : Fault
  /-- Undefined behaviour: `pop` on an empty queue. -/
  | pop_empty : Fault
  /-- Undefined behaviour: `push` of an item already queued, or `decrease_priority` of an
  item that is not queued or to a larger priority. -/
  | heap_misuse : Fault
  /-- Undefined behaviour: the end iterator returned by `find` is dereferenced. -/
  | deref_end : Fault
  /-- The loop did not finish within the iterations allowed by the fuel. -/
  | out_of_fuel : Fault
deriving DecidableEq

/-- The alias `Map<Coordinate, V>` (Graph.cpp:26) of `std::unordered_map`. -/
abbrev Map (V : Type) := Coordinate → Option V

/-- The empty map. -/
def Map.empty {V : Type} : Map V := fun _ => none

/-- The assignment `m[k] = v`. -/
def Map.insert {V : Type} (m : Map V) (k : Coordinate) (v : V) : Map V :=
  fun x => if x = k then some v else m x

/-- The read `m[k]` of `std::unordered_map::operator[]`: an absent key is first inserted with
the value-initialised `dflt`. Returns the value read and the map afterwards. -/
def Map.index {V : Type} (m : Map V) (k : Coordinate) (dflt : V) : V × Map V :=
  match m k with
  | some v => (v, m)
  | none => (dflt, m.insert k dflt)

/-- The alias `Set<Coordinate>` (Graph.cpp:29) of `std::unordered_set`. -/
abbrev CoordSet := Coordinate → Bool

/-- The set built from a range of coordinates (Graph.cpp:106). -/
def CoordSet.of_list (l : List Coordinate) : CoordSet := fun x => decide (x ∈ l)

/-- The call `s.erase(k)`. -/
def CoordSet.erase (s : CoordSet) (k : Coordinate) : CoordSet :=
  fun x => if x = k then false else s x

/-- Modelled from the spec: `PriorityHeap<Coordinate>` (`Heap.hpp` is not among the sources),
the decrease-key priority queue. The embedding keeps the queued items with their priorities in
insertion order and abstracts from the binary-heap layout. -/
abbrev PriorityHeap := List (Coordinate × ℤ)

namespace PriorityHeap

/-- Modelled from the spec: `empty() -> bool`. -/
def empty (h : PriorityHeap) : Bool := h.isEmpty

/-- Modelled from the spec: `push(item, priority)` inserts a new item with the given priority;
it is undefined when the item is already present. -/
def push (h : PriorityHeap) (item : Coordinate) (priority : ℤ) : Except Fault PriorityHeap :=
  if h.any (fun e => decide (e.1 = item)) then .error Fault.heap_misuse
  else .ok (h ++ [(item, priority)])

/-- The entry that `pop` selects: one of minimum priority, the earliest inserted among
those. -/
def min_entry : PriorityHeap → Option (Coordinate × ℤ)
  | [] => none
  | e :: es => some (es.foldl (fun best x => if x.2 < best.2 then x else best) e)

/-- Modelled from the spec: `pop() -> K` removes and returns the item with minimum priority,
ties broken by insertion order; it is undefined on an empty queue. Returns the item and the
queue afterwards. -/
def pop (h : PriorityHeap) : Except Fault (Coordinate × PriorityHeap) :=
  match min_entry h with
  | none => .error Fault.pop_empty
  | some e => .ok (e.1, h.filter (fun x => decide (x.1 ≠ e.1)))

/-- The priority under which `item` is queued, if it is. -/
def priority_of (h : PriorityHeap) (item : Coordinate) : Option ℤ :=
  (h.find? (fun e => decide (e.1 = item))).map (fun e => e.2)

/-- Modelled from the spec: `decrease_priority(item, new_priority)` requires the item
currently present with priority ≥ `new_priority` and reduces its priority; it is undefined
otherwise. -/
def decrease_priority (h : PriorityHeap) (item : Coordinate) (new_priority : ℤ) :
    Except Fault PriorityHeap :=
  match priority_of h item with
  | none => .error Fault.heap_misuse
  | some old =>
    if new_priority ≤ old then
      .ok (h.map (fun e => if e.1 = item then (item, new_priority) else e))
    else .error Fault.heap_misuse

end PriorityHeap

/-! ## The search -/

/-- The transient state of `Graph::shortest_path` (Graph.cpp:106-115). -/
structure SearchState where
  unvisited : CoordSet
  tentative_distance : Map Double
  back_map : Map Coordinate
  next_heap : PriorityHeap

/-- The body of the `for` loop over the neighbours (Graph.cpp:128-146), for one
`neighbor` of `current`. The iterator `neighbor_iter` is taken before the assignment
`tentative_distance[neighbor] = new_distance` and compared with `end()` once more after it:
both comparisons tell whether the key was present before the assignment. -/
def relax (g : Graph) (current : Coordinate) (st : SearchState) (neighbor : Coordinate) :
    Except Fault SearchState :=
  let read := st.tentative_distance.index current (Double.fin 0)
  let distance_to_here := read.1
  let tentative_distance := read.2
  let new_distance := (g.weight neighbor).add distance_to_here
  match tentative_distance neighbor with
  | none =>
    match st.next_heap.push neighbor new_distance.lround with
    | .error e => .error e
    | .ok heap =>
      .ok { unvisited := st.unvisited
            tentative_distance := tentative_distance.insert neighbor new_distance
            back_map := st.back_map.insert neighbor current
            next_heap := heap }
  | some old =>
    if new_distance.lt old then
      match st.next_heap.decrease_priority neighbor new_distance.lround with
      | .error e => .error e
      | .ok heap =>
        .ok { unvisited := st.unvisited
              tentative_distance := tentative_distance.insert neighbor new_distance
              back_map := st.back_map.insert neighbor current
              next_heap := heap }
    else
      .ok { unvisited := st.unvisited
            tentative_distance := tentative_distance
            back_map := st.back_map
            next_heap := st.next_heap }

/-- The `for` loop over the neighbours of `current` (Graph.cpp:126-147). -/
def for_each_neighbor (g : Graph) (current : Coordinate) :
    List Coordinate → SearchState → Except Fault SearchState
  | [], st => .ok st
  | neighbor :: rest, st =>
    match relax g current st neighbor with
    | .error e => .error e
    | .ok st' => for_each_neighbor g current rest st'

/-- The predicate `is_neighbor` (Graph.cpp:121). -/
def is_neighbor (dist : Coordinate → Coordinate → ℚ) (g : Graph) (unvisited : CoordSet)
    (current coord : Coordinate) : Bool :=
  decide (current ≠ coord) && g.adjacent dist current coord && unvisited coord

/-- The `while (!next_heap.empty())` loop (Graph.cpp:117-150); `fuel` bounds the number of
evaluations of the loop condition. -/
def search_loop (dist : Coordinate → Coordinate → ℚ) (g : Graph) :
    ℕ → SearchState → Except Fault SearchState
  | 0, _ => .error Fault.out_of_fuel
  | fuel + 1, st =>
    if st.next_heap.empty then .ok st
    else
      match st.next_heap.pop with
      | .error e => .error e
      | .ok (current, heap) =>
        match for_each_neighbor g current
            (g.coords.filter (is_neighbor dist g st.unvisited current))
            { unvisited := st.unvisited
              tentative_distance := st.tentative_distance
              back_map := st.back_map
              next_heap := heap } with
        | .error e => .error e
        | .ok st' =>
          search_loop dist g fuel
            { unvisited := st'.unvisited.erase current
              tentative_distance := st'.tentative_distance
              back_map := st'.back_map
              next_heap := st'.next_heap }

/-- The value-initialised `Coordinate` that `back_map[current]` inserts for an absent key. -/
def Coordinate.zero : Coordinate := { latitude := 0, longitude := 0 }

/-- The path reconstruction (Graph.cpp:152-161); `fuel` bounds the number of evaluations of
the loop condition `current != source_on_grid`. -/
def reconstruct (g : Graph) (source_on_grid : Coordinate) :
    ℕ → Map Coordinate → Coordinate → List Location → Except Fault (List Location)
  | 0, _, _, _ => .error Fault.out_of_fuel
  | fuel + 1, back_map, current, path =>
    if current ≠ source_on_grid then
      match g.find current with
      | none => .error Fault.deref_end
      | some loc =>
        let read := back_map.index current Coordinate.zero
        reconstruct g source_on_grid fuel read.2 read.1 (loc :: path)
    else
      match g.find current with
      | none => .error Fault.deref_end
      | some loc => .ok (loc :: path)

/-- The state with which the search starts (Graph.cpp:106-115). -/
def initial_state (coords : List Coordinate) (source_on_grid : Coordinate) :
    Except Fault SearchState :=
  match PriorityHeap.push [] source_on_grid 0 with
  | .error e => .error e
  | .ok heap =>
    .ok { unvisited := CoordSet.of_list coords
          tentative_distance := Map.insert Map.empty source_on_grid (Double.fin 0)
          back_map := Map.insert Map.empty source_on_grid source_on_grid
          next_heap := heap }

/-- The method `Graph::shortest_path` (Graph.cpp:99). Each of its two `while` loops may
evaluate its condition at most `fuel` times. -/
def Graph.shortest_path (dist : Coordinate → Coordinate → ℚ) (g : Graph) (fuel : ℕ)
    (source sink : Coordinate) : Except Fault (List Location) :=
  match closest_point dist source g.coords, closest_point dist sink g.coords with
  | some source_on_grid, some sink_on_grid =>
    match initial_state g.coords source_on_grid with
    | .error e => .error e
    | .ok st =>
      match search_loop dist g fuel st with
      | .error e => .error e
      | .ok final => reconstruct g source_on_grid fuel final.back_map sink_on_grid []
  | _, _ => .error Fault.empty_candidates

/-! ## Paths and the invariant of the search -/

/-- The cost of the vertices `l` that a walk goes through after its first vertex: the sum of
their weights. -/
def Graph.cost (g : Graph) (l : List Coordinate) : Double :=
  l.foldr (fun c acc => (g.weight c).add acc) (Double.fin 0)

/-- The list `a :: l` is a walk of the adjacency graph from `a` to `b`: each vertex is
`adjacent` to the next one. -/
def Graph.is_walk (dist : Coordinate → Coordinate → ℚ) (g : Graph) (a b : Coordinate)
    (l : List Coordinate) : Prop :=
  List.Chain (fun x y => g.adjacent dist x y = true) a l ∧ (a :: l).getLast? = some b

/-- The vertex `b` is reachable from `a` through the `adjacent` relation. -/
def Graph.reachable (dist : Coordinate → Coordinate → ℚ) (g : Graph) (a b : Coordinate) : Prop :=
  ∃ l, g.is_walk dist a b l

/-- Every stored coordinate has a weight that is a number `≥ 1`. -/
def Graph.weighted (g : Graph) : Prop :=
  ∀ c, c ∈ g.coords → ∃ w, g.weight c = Double.fin w ∧ 1 ≤ w

/-- The edge from `p` to `c` has been relaxed: the tentative distance of `c` is at most that
of `p` plus the weight of `c`. -/
def EdgeOK (g : Graph) (td : Map Double) (p c : Coordinate) : Prop :=
  ∀ qp wc, td p = some (Double.fin qp) → g.weight c = Double.fin wc →
    ∃ q, td c = some (Double.fin q) ∧ q ≤ wc + qp

/-- The tentative distance of `c` is known once that of `p` is. -/
def EdgeSeen (td : Map Double) (p c : Coordinate) : Prop :=
  ∀ qp, td p = some (Double.fin qp) → ∃ q, td c = some (Double.fin q)

/-- The rounding of `q ≥ 0` fits a `long`. -/
def in_long_range (q : ℚ) : Prop := q + 1 / 2 < 9223372036854775808

/-- The number of stored coordinates that have been visited. -/
def visited_count (g : Graph) (U : CoordSet) : ℕ :=
  (g.coords.toFinset.filter (fun c => U c = false)).card

/-- Every weight of the graph is at most `W`, and the sum of as many weights as there are
stored coordinates rounds to a value that fits a `long`. -/
def Graph.bounded (g : Graph) (W : ℚ) : Prop :=
  0 ≤ W ∧ (∀ c w, g.weight c = Double.fin w → w ≤ W) ∧
    in_long_range ((g.coords.toFinset.card : ℚ) * W)

/-- The invariant that relates the parts of the search state: `U` is the set of vertices not
yet popped, `td` the tentative distances, `bm` the predecessors, `H` the queue, and `M` the
priority of the latest pop. The fields that depend on the order of the pops hold under the
condition `P`, which stands for the weights being bounded by `W` as in `Graph.bounded`. -/
structure Core (dist : Coordinate → Coordinate → ℚ) (g : Graph) (src : Coordinate)
    (P : Prop) (W : ℚ)
    (U : CoordSet) (td : Map Double) (bm : Map Coordinate) (H : PriorityHeap) (M : ℤ) :
    Prop where
  src_dist : td src = some (Double.fin 0)
  heap_nodup : (H.map Prod.fst).Nodup
  heap_sound : ∀ c pr, (c, pr) ∈ H →
    U c = true ∧ ∃ q, td c = some (Double.fin q) ∧ pr = (Double.fin q).lround
  heap_complete : ∀ c x, td c = some x → U c = true → c ∈ H.map Prod.fst
  unvisited_sub : ∀ c, U c = true → c ∈ g.coords
  dist_fin : ∀ c x, td c = some x → c ∈ g.coords ∧ ∃ q, x = Double.fin q ∧ 0 ≤ q
  visited_dist : ∀ c, c ∈ g.coords → U c = false → ∃ q, td c = some (Double.fin q)
  back : ∀ c q, td c = some (Double.fin q) → c ≠ src →
    ∃ p qp wc, bm c = some p ∧ U p = false ∧ td p = some (Double.fin qp) ∧
      g.weight c = Double.fin wc ∧ q = wc + qp ∧ p ≠ c ∧ g.adjacent dist p c = true
  vis_le : P → ∀ c q, td c = some (Double.fin q) → U c = false → (Double.fin q).lround ≤ M
  heap_ge : P → ∀ c pr, (c, pr) ∈ H → M ≤ pr
  bound_all : P → ∀ c q, td c = some (Double.fin q) → q ≤ (visited_count g U : ℚ) * W
  bound_vis : P → ∀ c q, td c = some (Double.fin q) → U c = false →
    q + W ≤ (visited_count g U : ℚ) * W

/-- The condition under which a queued vertex whose distance rounds out of the range of
`long` is not improved while the neighbours of the vertex at distance `dcur` are relaxed:
the distance `dcur` rounds out of the range as well, or the queued distance is already the
one reached through that vertex. -/
def Late (g : Graph) (td : Map Double) (H : PriorityHeap) (dcur : ℚ) : Prop :=
  ∀ n pr q wn, (n, pr) ∈ H → td n = some (Double.fin q) → g.weight n = Double.fin wn →
    in_long_range q ∨ ¬ in_long_range dcur ∨ q ≤ wn + dcur

/-- The edge from `p` to `c` has been seen, and relaxed when the condition `P` holds. -/
def Edge (P : Prop) (g : Graph) (td : Map Double) (p c : Coordinate) : Prop :=
  EdgeSeen td p c ∧ (P → EdgeOK g td p c)

/-- The invariant of the `while` loop of the search at its head: the parts of the state are
related by `Core`, and every edge that leaves a popped vertex has been seen (and relaxed,
under the condition `P`). -/
def Inv (dist : Coordinate → Coordinate → ℚ) (g : Graph) (src : Coordinate)
    (P : Prop) (W : ℚ) (st : SearchState) : Prop :=
  (∃ M, Core dist g src P W st.unvisited st.tentative_distance st.back_map st.next_heap M) ∧
    ∀ p c, st.unvisited p = false → p ≠ c → g.adjacent dist p c = true →
      Edge P g st.tentative_distance p c

/-- The weights `max_depth - depth + 1` of the samples are at most `W`, and the rounding of
`n · W`, with `n` the number of samples, fits a `long`: so does the rounding of every sum of
weights along a path that repeats no sample. -/
def bounded_depths (data : List Location) (W : ℚ) : Prop :=
  (∀ loc, loc ∈ data → max_depth_of data - loc.depth + 1 ≤ W) ∧
    in_long_range ((data.length : ℚ) * W)

/-- The number of stored coordinates that are still unvisited. -/
def remaining (g : Graph) (U : CoordSet) : ℕ :=
  (g.coords.toFinset.filter (fun c => U c = true)).card

/-- The paths that following the predecessors back to `src` yields: `BackPath dist g src c path q`
says that `path` lists the stored locations of a walk from `src` to `c` whose steps join
distinct adjacent coordinates and whose cost is `q`. -/
inductive BackPath (dist : Coordinate → Coordinate → ℚ) (g : Graph) (src : Coordinate) :
    Coordinate → List Location → ℚ → Prop where
  | base (loc : Location) : g.find src = some loc → BackPath dist g src src [loc] 0
  | step (p c : Coordinate) (path : List Location) (loc : Location) (qp wc : ℚ) :
      BackPath dist g src p path qp → g.find c = some loc → p ≠ c →
      g.adjacent dist p c = true → g.weight c = Double.fin wc →
      BackPath dist g src c (path ++ [loc]) (wc + qp)

/-- The number of stored coordinates whose tentative distance is below `q`. -/
def rank (g : Graph) (td : Map Double) (q : ℚ) : ℕ :=
  (g.coords.toFinset.filter (fun v =>
    (match td v with
      | some (Double.fin x) => decide (x < q)
      | _ => false) = true)).card

/-! ## The calls a run of the search makes -/

/-- A call that `Graph::shortest_path` makes on the graph, on its distance map or on its
queue. The queue events carry the queue as it is when the call is made. -/
inductive Event where
  /-- The call `this->weight(coord)` and what it returns. -/
  | weight_call (coord : Coordinate) (result : Double) : Event
  /-- The assignment `tentative_distance[coord] = distance`. -/
  | record (coord : Coordinate) (distance : Double) : Event
  /-- The call `next_heap.push(item, priority)`. -/
  | push (heap : PriorityHeap) (item : Coordinate) (priority : ℤ) : Event
  /-- The call `next_heap.decrease_priority(item, priority)`. -/
  | decrease_priority (heap : PriorityHeap) (item : Coordinate) (priority : ℤ) : Event

/-- The calls made by the body of the `for` loop (Graph.cpp:128-146) for one `neighbor`, in
the order of the source. -/
def relax_events (g : Graph) (current : Coordinate) (st : SearchState)
    (neighbor : Coordinate) : List Event :=
  let read := st.tentative_distance.index current (Double.fin 0)
  let new_distance := (g.weight neighbor).add read.1
  Event.weight_call neighbor (g.weight neighbor) ::
    match read.2 neighbor with
    | none =>
      [Event.record neighbor new_distance,
        Event.push st.next_heap neighbor new_distance.lround]
    | some old =>
      if new_distance.lt old then
        [Event.record neighbor new_distance,
          Event.decrease_priority st.next_heap neighbor new_distance.lround]
      else []

/-- The calls made by the `for` loop over the neighbours of `current`. -/
def for_each_neighbor_events (g : Graph) (current : Coordinate) :
    List Coordinate → SearchState → List Event
  | [], _ => []
  | neighbor :: rest, st =>
    relax_events g current st neighbor ++
      match relax g current st neighbor with
      | .error _ => []
      | .ok st' => for_each_neighbor_events g current rest st'

/-- The calls made by the `while` loop of the search within the given fuel. -/
def search_loop_events (dist : Coordinate → Coordinate → ℚ) (g : Graph) :
    ℕ → SearchState → List Event
  | 0, _ => []
  | fuel + 1, st =>
    if st.next_heap.empty then []
    else
      match st.next_heap.pop with
      | .error _ => []
      | .ok (current, heap) =>
        for_each_neighbor_events g current
            (g.coords.filter (is_neighbor dist g st.unvisited current))
            { unvisited := st.unvisited
              tentative_distance := st.tentative_distance
              back_map := st.back_map
              next_heap := heap } ++
          match for_each_neighbor g current
              (g.coords.filter (is_neighbor dist g st.unvisited current))
              { unvisited := st.unvisited
                tentative_distance := st.tentative_distance
                back_map := st.back_map
                next_heap := heap } with
          | .error _ => []
          | .ok st' =>
            search_loop_events dist g fuel
              { unvisited := st'.unvisited.erase current
                tentative_distance := st'.tentative_distance
                back_map := st'.back_map
                next_heap := st'.next_heap }

/-- The calls made by a run of `Graph::shortest_path` on weights, distance map and queue: those
of the set-up (Graph.cpp:109, 115) and those of the search loop. -/
def Graph.shortest_path_events (dist : Coordinate → Coordinate → ℚ) (g : Graph) (fuel : ℕ)
    (source sink : Coordinate) : List Event :=
  match closest_point dist source g.coords, closest_point dist sink g.coords with
  | some source_on_grid, some _ =>
    Event.record source_on_grid (Double.fin 0) :: Event.push [] source_on_grid 0 ::
      match initial_state g.coords source_on_grid with
      | .error _ => []
      | .ok st => search_loop_events dist g fuel st
  | _, _ => []

/-- The call involves no not-a-number: `weight` is called on a coordinate present in the
graph and does not return the sentinel, and a recorded distance is not the sentinel. -/
def Event.no_nan (g : Graph) : Event → Prop
  | Event.weight_call coord result => g.contains coord = true ∧ result ≠ Double.nan
  | Event.record _ distance => distance ≠ Double.nan
  | _ => True

/-- The call involves finite numbers `≥ 0` only: `weight` is called on a coordinate present in
the graph and returns a number, a recorded distance is a number `≥ 0`, and a priority given to
the queue is the rounding of a number `≥ 0` and is itself `≥ 0`. -/
def Event.finite (g : Graph) : Event → Prop
  | Event.weight_call coord result => g.contains coord = true ∧ ∃ w, result = Double.fin w
  | Event.record _ distance => ∃ q, distance = Double.fin q ∧ 0 ≤ q
  | Event.push _ _ priority =>
    (∃ q, 0 ≤ q ∧ priority = (Double.fin q).lround) ∧ 0 ≤ priority
  | Event.decrease_priority _ _ priority =>
    (∃ q, 0 ≤ q ∧ priority = (Double.fin q).lround) ∧ 0 ≤ priority

/-- The call respects the contract of the queue: `push` of an item that is not queued,
`decrease_priority` of an item that is queued, to a priority that is at most its current
one. -/
def Event.respects : Event → Prop
  | Event.push heap item _ => item ∉ heap.map Prod.fst
  | Event.decrease_priority heap item priority =>
    ∃ old, PriorityHeap.priority_of heap item = some old ∧ priority ≤ old
  | _ => True

/-- The items pushed by the calls of a trace, in order. -/
def pushed : List Event → List Coordinate
  | [] => []
  | Event.push _ item _ :: rest => item :: pushed rest
  | _ :: rest => pushed rest

/-- The calls of the trace `tr`, made from a state whose distance map is `td`, respect the
contract of the queue and involve no not-a-number, they involve finite numbers `≥ 0` only
when the condition `P` holds, and the items they push are pairwise distinct and have no
tentative distance in `td`. -/
def TraceOK (P : Prop) (g : Graph) (td : Map Double) (tr : List Event) : Prop :=
  (∀ e, e ∈ tr → e.respects ∧ e.no_nan g ∧ (P → e.finite g)) ∧ (pushed tr).Nodup ∧
    ∀ c, c ∈ pushed tr → td c = none

/-! ## Text ingestion: `Utils.cpp` and `Parse.cpp`

A `std::string` is the list of its characters. A function that may throw returns an `Except`
whose error says what was thrown; undefined behaviour of the C++ program is the error
`ParseError.undefined_behaviour`. -/

/-- What a parsing function does instead of returning a value. -/
inductive ParseError where
  /-- The `std::runtime_error` "has an unexpected number of sections". -/
  | unexpected_sections : ParseError
  /-- The `std::runtime_error` "has a degree value outside the expected bounds". -/
  | degree_bounds : ParseError
  /-- The `std::runtime_error` "has a minute value outside the expected bounds". -/
  | minute_bounds : ParseError
  /-- The `std::runtime_error` "has a second value outside the expected bounds". -/
  | second_bounds : ParseError
  /-- The `std::runtime_error` "contains unexpected direction marker". -/
  | direction_marker : ParseError
  /-- The `std::runtime_error` "is not a legal double". -/
  | not_legal_double : ParseError
  /-- The `std::invalid_argument` of `std::stoi` and `std::stod`: no conversion. -/
  | invalid_argument : ParseError
  /-- The `std::out_of_range` of `std::stoi` and `std::stod`: the number does not fit an `int`,
  or is beyond the range of `double`. -/
  | out_of_range : ParseError
  /-- Undefined behaviour: `back()` of an empty string, or the conversion to `int` of a
  `double` that no `int` represents. -/
  | undefined_behaviour : ParseError
deriving DecidableEq

/-- The result is an exception thrown by the program (and not undefined behaviour). -/
def raises {α : Type} (r : Except ParseError α) : Prop :=
  ∃ e, r = .error e ∧ e ≠ ParseError.undefined_behaviour

/-- The call `s.find(c)` of `std::string`: the index of the first occurrence of `c`; `none`
stands for `npos`. -/
def find_char : List Char → Char → Option ℕ
  | [], _ => none
  | x :: xs, c => if x = c then some 0 else (find_char xs c).map (fun i => i + 1)

/-- The `while` loop of `utils::split` (Utils.cpp:12-17) followed by the last `push_back`;
`start` and `length` are the variables of the source, `length = none` is `npos`. The fuel
bounds the number of iterations. -/
def split_loop (s : List Char) (c : Char) :
    ℕ → ℕ → Option ℕ → List (List Char) → List (List Char)
  | 0, start, _, out => out ++ [s.drop start]
  | _ + 1, start, none, out => out ++ [s.drop start]
  | fuel + 1, start, some length, out =>
    split_loop s c fuel (start + length + 1) (find_char (s.drop (start + length + 1)) c)
      (out ++ [(s.drop start).take length])

/-- The function `utils::split` (Utils.cpp:7). Every iteration of its loop moves `start`
forward, so `s.length + 1` iterations are enough. -/
def utils.split (s : List Char) (c : Char) : List (List Char) :=
  split_loop s c (s.length + 1) 0 (find_char s c) []

/-- The classification `std::isspace` in the "C" locale. -/
def is_space (c : Char) : Bool :=
  decide (c = ' ') || decide (c = Char.ofNat 9) || decide (c = Char.ofNat 10) ||
    decide (c = Char.ofNat 11) || decide (c = Char.ofNat 12) || decide (c = Char.ofNat 13)

/-- A decimal digit. -/
def is_digit (c : Char) : Bool := decide ('0' ≤ c) && decide (c ≤ '9')

/-- The number a sequence of decimal digits denotes. -/
def digits_value (ds : List Char) : ℕ :=
  ds.foldl (fun acc d => 10 * acc + (d.toNat - 48)) 0

/-- A hexadecimal digit. -/
def is_hex_digit (c : Char) : Bool :=
  is_digit c || (decide ('a' ≤ c) && decide (c ≤ 'f')) || (decide ('A' ≤ c) && decide (c ≤ 'F'))

/-- The number a sequence of hexadecimal digits denotes. -/
def hex_digits_value (ds : List Char) : ℕ :=
  ds.foldl (fun acc d =>
    16 * acc + (if is_digit d then d.toNat - 48
      else if decide ('a' ≤ d) && decide (d ≤ 'f') then d.toNat - 87 else d.toNat - 55)) 0

/-- An optional sign at the head of the text: whether it is `-`, and the text after it. -/
def take_sign (s : List Char) : Bool × List Char :=
  match s with
  | [] => (false, [])
  | c :: r => if c = '-' then (true, r) else if c = '+' then (false, r) else (false, c :: r)

/-- The function `std::stoi` in base 10: leading white space is skipped, then an optional
sign and the longest sequence of digits are read; what follows is ignored. -/
def stoi (s : List Char) : Except ParseError ℤ :=
  let signed := take_sign (s.dropWhile is_space)
  let ds := signed.2.takeWhile is_digit
  if ds = [] then .error ParseError.invalid_argument
  else
    let v : ℤ := if signed.1 then -(digits_value ds : ℤ) else (digits_value ds : ℤ)
    if -2147483648 ≤ v ∧ v ≤ 2147483647 then .ok v else .error ParseError.out_of_range

/-- The `double` that `std::stod` returns: a finite number (the exact value of the `double`),
an infinity or not-a-number. -/
inductive Parsed where
  | number (q : ℚ) : Parsed
  | infinity (negative : Bool) : Parsed
  | not_a_number : Parsed
deriving DecidableEq

/-- The digits of a number in the given base, with an optional radix point: the number they
denote and the text after them; `none` when there is no digit at all. -/
def mantissa (base : ℕ) (is_dig : Char → Bool) (value : List Char → ℕ) (s : List Char) :
    Option (ℚ × List Char) :=
  let ip := s.takeWhile is_dig
  let r1 := s.dropWhile is_dig
  let fp := match r1 with
    | [] => []
    | c :: r => if c = '.' then r.takeWhile is_dig else []
  let r2 := match r1 with
    | [] => []
    | c :: r => if c = '.' then r.dropWhile is_dig else c :: r
  if ip = [] ∧ fp = [] then none
  else some ((value ip : ℚ) + (value fp : ℚ) / (base : ℚ) ^ fp.length, r2)

/-- The exponent part at the head of the text (the marker `lo` or `up`, an optional sign,
digits): the exponent it denotes, `0` when there is none. -/
def exponent (lo up : Char) (s : List Char) : ℤ :=
  match s with
  | [] => 0
  | c :: r =>
    if c = lo ∨ c = up then
      let signed := take_sign r
      let ds := signed.2.takeWhile is_digit
      if ds = [] then 0
      else if signed.1 then -(digits_value ds : ℤ) else (digits_value ds : ℤ)
    else 0

/-- A hexadecimal floating number `0x...` at the head of the text. -/
def hex_number (s : List Char) : Option ℚ :=
  match s with
  | c0 :: c1 :: rest =>
    if c0 = '0' ∧ (c1 = 'x' ∨ c1 = 'X') then
      match mantissa 16 is_hex_digit hex_digits_value rest with
      | none => none
      | some m => some (m.1 * (2 : ℚ) ^ exponent 'p' 'P' m.2)
    else none
  | _ => none

/-- A decimal floating number at the head of the text. -/
def decimal_number (s : List Char) : Option ℚ :=
  match mantissa 10 is_digit digits_value s with
  | none => none
  | some m => some (m.1 * (10 : ℚ) ^ exponent 'e' 'E' m.2)

/-- The text starts with `inf`, in any case. -/
def is_inf (s : List Char) : Bool :=
  match s with
  | a :: b :: c :: _ =>
    (decide (a = 'i') || decide (a = 'I')) && (decide (b = 'n') || decide (b = 'N')) &&
      (decide (c = 'f') || decide (c = 'F'))
  | _ => false

/-- The text starts with `nan`, in any case. -/
def is_nan (s : List Char) : Bool :=
  match s with
  | a :: b :: c :: _ =>
    (decide (a = 'n') || decide (a = 'N')) && (decide (b = 'a') || decide (b = 'A')) &&
      (decide (c = 'n') || decide (c = 'N'))
  | _ => false

/-- Rounding to the nearest integer, a half to the even neighbour. -/
def round_half_even (x : ℚ) : ℤ :=
  if x - ⌊x⌋ < 1 / 2 then ⌊x⌋
  else if 1 / 2 < x - ⌊x⌋ then ⌊x⌋ + 1
  else if ⌊x⌋ % 2 = 0 then ⌊x⌋ else ⌊x⌋ + 1

/-- The number `a > 0` rounded to 53 significant binary digits, a half to the even neighbour:
the `double` nearest to `a` when that `double` is a normal number. -/
def nearest_normal (a : ℚ) : ℚ :=
  (round_half_even (a / (2 : ℚ) ^ (Int.log 2 a - 52)) : ℚ) * (2 : ℚ) ^ (Int.log 2 a - 52)

/-- The multiple of `2⁻¹⁰⁷⁴`, the spacing of the subnormal numbers, nearest to `a`. -/
def nearest_subnormal (a : ℚ) : ℚ :=
  (round_half_even (a / (2 : ℚ) ^ (-1074 : ℤ)) : ℚ) * (2 : ℚ) ^ (-1074 : ℤ)

/-- The conversion by `strtod` of the magnitude `a ≥ 0` that a text denotes, as `std::stod`
passes it on: the nearest `double` (a half to the even neighbour), or the `std::out_of_range`
that `std::stod` throws when `strtod` reports a range error. The range error is reported when
the rounded number is beyond the largest `double`, and when the number is below the smallest
normal `double` after rounding and is not itself a `double`. -/
def to_double (a : ℚ) : Except ParseError ℚ :=
  if a = 0 then .ok 0
  else if (2 : ℚ) ^ (1024 : ℤ) ≤ nearest_normal a then .error ParseError.out_of_range
  else if nearest_normal a < (2 : ℚ) ^ (-1022 : ℤ) then
    if nearest_subnormal a = a then .ok a else .error ParseError.out_of_range
  else .ok (nearest_normal a)

/-- The result of `std::stod` on a text that denotes the magnitude `a` after its sign. -/
def stod_number (negative : Bool) (a : ℚ) : Except ParseError Parsed :=
  match to_double a with
  | .error e => .error e
  | .ok r => .ok (Parsed.number (if negative then -r else r))

/-- The function `std::stod`: leading white space is skipped, then an optional sign and the
longest text that is an infinity, a not-a-number, a hexadecimal or a decimal floating number
are read; what follows is ignored. The number read is rounded to the nearest `double`, and
the `std::out_of_range` of a number beyond the range of `double` is thrown. -/
def stod (s : List Char) : Except ParseError Parsed :=
  let signed := take_sign (s.dropWhile is_space)
  if is_inf signed.2 then .ok (Parsed.infinity signed.1)
  else if is_nan signed.2 then .ok Parsed.not_a_number
  else
    match hex_number signed.2 with
    | some q => stod_number signed.1 q
    | none =>
      match decimal_number signed.2 with
      | some q => stod_number signed.1 q
      | none => .error ParseError.invalid_argument

/-- The conversion of a `double` to `int` in `int seconds = std::stod(...)` (Parse.cpp:32):
truncation toward zero, undefined when no `int` represents the truncated number. -/
def to_int (p : Parsed) : Except ParseError ℤ :=
  match p with
  | Parsed.number q =>
    let t : ℤ := if 0 ≤ q then ⌊q⌋ else ⌈q⌉
    if -2147483648 ≤ t ∧ t ≤ 2147483647 then .ok t
    else .error ParseError.undefined_behaviour
  | _ => .error ParseError.undefined_behaviour

/-- The function `get_dms_coord` (Parse.cpp:13). -/
def get_dms_coord (value : List Char) (bound : ℤ) (negate : Bool) : Except ParseError ℚ :=
  match utils.split value '-' with
  | [section0, section1, section2] =>
    match stoi section0 with
    | .error e => .error e
    | .ok degrees =>
      if degrees < -bound ∨ degrees > bound then .error ParseError.degree_bounds
      else
        match stoi section1 with
        | .error e => .error e
        | .ok minutes =>
          if minutes < 0 ∨ minutes > 60 then .error ParseError.minute_bounds
          else
            match stod section2 with
            | .error e => .error e
            | .ok parsed =>
              match to_int parsed with
              | .error e => .error e
              | .ok seconds =>
                if seconds < 0 ∨ seconds > 60 then .error ParseError.second_bounds
                else
                  let out : ℚ := (degrees : ℚ) + (minutes : ℚ) / 60 + (seconds : ℚ) / 3600
                  .ok (if negate then -out else out)
  | _ => .error ParseError.unexpected_sections

/-- The function `parse_dms_latitude` (Parse.cpp:56). -/
def parse_dms_latitude (latitude : List Char) : Except ParseError ℚ :=
  match latitude.getLast? with
  | none => .error ParseError.undefined_behaviour
  | some direction =>
    let trimmed := latitude.dropLast
    if direction = 'n' ∨ direction = 'N' then get_dms_coord trimmed 90 false
    else if direction = 's' ∨ direction = 'S' then get_dms_coord trimmed 90 true
    else .error ParseError.direction_marker

/-- The function `parse_dms_longitude` (Parse.cpp:73). -/
def parse_dms_longitude (longitude : List Char) : Except ParseError ℚ :=
  match longitude.getLast? with
  | none => .error ParseError.undefined_behaviour
  | some direction =>
    let trimmed := longitude.dropLast
    if direction = 'e' ∨ direction = 'E' then get_dms_coord trimmed 180 false
    else if direction = 'w' ∨ direction = 'W' then get_dms_coord trimmed 180 true
    else .error ParseError.direction_marker

/-- The function `dash_only_at_start` (Parse.cpp:41). On the empty string `value.front()` is
outside the contract of `front()`; the library reads the terminating null character of the
string there, and so does the embedding. -/
def dash_only_at_start (value : List Char) : Bool :=
  let starts_with_dash := decide (value.headD (Char.ofNat 0) = '-')
  let total := value.count '-'
  if starts_with_dash then decide (total = 1) else decide (total = 0)

/-- The function `parse_depth` (Parse.cpp:90). -/
def parse_depth (value : List Char) : Except ParseError Parsed :=
  let all_legal := value.all (fun c =>
    decide (c = '-') || decide (c = '.') || (decide ('0' ≤ c) && decide (c ≤ '9')))
  let only_one_decimal := decide (value.count '.' ≤ 1)
  if !all_legal || !only_one_decimal || !dash_only_at_start value then
    .error ParseError.not_legal_double
  else stod value

/-- What `utils::split` computes, by recursion on the text: the sections between the
occurrences of `c`. -/
def split_spec (c : Char) : List Char → List (List Char)
  | [] => [[]]
  | x :: xs =>
    if x = c then [] :: split_spec c xs
    else
      match split_spec c xs with
      | [] => [[x]]
      | h :: t => (x :: h) :: t

/-- A decimal numeral without sign: a non-empty sequence of digits. -/
def is_numeral (ds : List Char) : Prop := ds ≠ [] ∧ ∀ c, c ∈ ds → is_digit c = true

/-- The text `D-M-S` of a coordinate in degrees, minutes and seconds followed by a hemisphere
marker; `frac` is what follows the whole seconds. -/
def dms_text (ds ms ss frac : List Char) (marker : Char) : List Char :=
  ds ++ '-' :: (ms ++ '-' :: (ss ++ frac)) ++ [marker]

/-- The decimal degrees that the numerals of degrees, minutes and whole seconds denote. -/
def dms_value (ds ms ss : List Char) : ℚ :=
  (digits_value ds : ℚ) + (digits_value ms : ℚ) / 60 + (digits_value ss : ℚ) / 3600

/-- A plain decimal numeral: only the characters `-`, `.` and digits, at most one `.`, a `-`
only as the first character, and at least one digit. -/
def is_plain_numeral (value : List Char) : Prop :=
  (∀ c, c ∈ value → c = '-' ∨ c = '.' ∨ is_digit c = true) ∧ value.count '.' ≤ 1 ∧
    '-' ∉ value.tail ∧ ∃ c, c ∈ value ∧ is_digit c = true


/-- The text of a plain decimal numeral starts with the sign `-`. -/
def plain_negative (value : List Char) : Bool :=
  match value with
  | c :: _ => decide (c = '-')
  | [] => false

/-- The text of a plain decimal numeral after its sign. -/
def plain_body (value : List Char) : List Char :=
  match value with
  | c :: rest => if c = '-' then rest else c :: rest
  | [] => []

/-- The magnitude that the text `body` of a plain decimal numeral without sign denotes: the
digits before the point, and the digits after it as a decimal fraction. -/
def plain_magnitude (body : List Char) : ℚ :=
  (digits_value (body.takeWhile is_digit) : ℚ) +
    (digits_value ((body.dropWhile is_digit).drop 1) : ℚ) /
      (10 : ℚ) ^ ((body.dropWhile is_digit).drop 1).length
/-! ## Example graphs -/

/-- The graph with one sample at the origin and resolution `1`. -/
def origin_graph : Graph := Graph.new [{ coord := Coordinate.zero, depth := 10 }] 1

/-- The graph with two samples stored at one coordinate, of depths `5` and `3`. -/
def twin_graph : Graph :=
  Graph.new [{ coord := Coordinate.zero, depth := 5 }, { coord := Coordinate.zero, depth := 3 }] 1


/-- The coordinate one degree of latitude north of the origin. -/
def Coordinate.north : Coordinate := { latitude := 1, longitude := 0 }

/-- The samples of `pair_graph`. -/
def pair_data : List Location :=
  [{ coord := Coordinate.zero, depth := 5 }, { coord := Coordinate.north, depth := 3 }]

/-- The graph with a sample of depth `5` at the origin and one of depth `3` next to it. -/
def pair_graph : Graph := Graph.new pair_data 2

/-- A coordinate five degrees of longitude east of the origin. -/
def Coordinate.far : Coordinate := { latitude := 0, longitude := 5 }

/-- Two samples farther apart than the resolution `1`: two clusters of one sample each. -/
def split_data : List Location :=
  [{ coord := Coordinate.zero, depth := 10 }, { coord := Coordinate.far, depth := 10 }]

/-- The coordinate two degrees of latitude north of the origin. -/
def Coordinate.north2 : Coordinate := { latitude := 2, longitude := 0 }

/-- Three samples of depths `10`, `50`, `10` at the coordinates `c1`, `c2`, `c3`. -/
def chain_data (c1 c2 c3 : Coordinate) : List Location :=
  [{ coord := c1, depth := 10 }, { coord := c2, depth := 50 }, { coord := c3, depth := 10 }]

/-- The coordinates `c1`, `c2`, `c3` are collinear and spaced at distance `1`, in this order:
the distance between the `i`-th and the `j`-th is `|i - j|`. -/
def collinear_unit (dist : Coordinate → Coordinate → ℚ) (c1 c2 c3 : Coordinate) : Prop :=
  dist c1 c1 = 0 ∧ dist c1 c2 = 1 ∧ dist c1 c3 = 2 ∧
  dist c2 c1 = 1 ∧ dist c2 c2 = 0 ∧ dist c2 c3 = 1 ∧
  dist c3 c1 = 2 ∧ dist c3 c2 = 1 ∧ dist c3 c3 = 0

/-- A sample list whose only depth is negative. -/
def negative_data : List Location := [{ coord := Coordinate.zero, depth := -5 }]


/-- The coordinate one degree of longitude east of the origin. -/
def Coordinate.east : Coordinate := { latitude := 0, longitude := 1 }

/-- The coordinate one degree north and one degree east of the origin. -/
def Coordinate.north_east : Coordinate := { latitude := 1, longitude := 1 }

/-- Four samples on the corners of a unit square: two of depth `10¹⁹` (the origin and its
northern neighbour) and two of depth `0` (the eastern neighbour and the opposite corner). -/
def abyss_data : List Location :=
  [{ coord := Coordinate.zero, depth := 10000000000000000000 },
   { coord := Coordinate.north, depth := 10000000000000000000 },
   { coord := Coordinate.east, depth := 0 },
   { coord := Coordinate.north_east, depth := 0 }]
/-! ## Membership queries -/

theorem find_some_mem (g : Graph) (c : Coordinate) (loc : Location) :
    g.find c = some loc → loc ∈ g.data ∧ loc.coord = c := by
  intro h
  unfold Graph.find at h
  have h1 := List.mem_of_find?_eq_some h
  have h2 := List.find?_some h
  exact ⟨h1, by simpa using h2⟩

theorem contains_iff_mem_coords (g : Graph) (c : Coordinate) :
    g.contains c = true ↔ c ∈ g.coords := by
  unfold Graph.contains Graph.find Graph.coords
  rw [List.find?_isSome]
  simp

theorem contains_iff_find (g : Graph) (c : Coordinate) :
    g.contains c = true ↔ ∃ loc, g.find c = some loc := by
  unfold Graph.contains
  exact Option.isSome_iff_exists

theorem le_foldl_max (v : List Location) (a : ℚ) :
    a ≤ v.foldl (fun acc val => max acc val.depth) a ∧
      ∀ loc ∈ v, loc.depth ≤ v.foldl (fun acc val => max acc val.depth) a := by
  induction v generalizing a with
  | nil => simp
  | cons x xs ih =>
    simp only [List.foldl_cons, List.mem_cons, forall_eq_or_imp]
    obtain ⟨h1, h2⟩ := ih (max a x.depth)
    exact ⟨le_trans (le_max_left _ _) h1, le_trans (le_max_right _ _) h1, h2⟩

theorem depth_le_max_depth_of (v : List Location) (loc : Location) (h : loc ∈ v) :
    loc.depth ≤ max_depth_of v :=
  (le_foldl_max v 0).2 loc h

theorem adjacent_true {dist : Coordinate → Coordinate → ℚ} {g : Graph} {lhs rhs : Coordinate}
    (h : g.adjacent dist lhs rhs = true) :
    lhs ∈ g.coords ∧ rhs ∈ g.coords ∧ dist lhs rhs < (g.resolution : ℚ) := by
  simp only [Graph.adjacent, Bool.and_eq_true, decide_eq_true_eq] at h
  exact ⟨(contains_iff_mem_coords g lhs).mp h.1.1, (contains_iff_mem_coords g rhs).mp h.1.2, h.2⟩

/-! ## Rounding -/

theorem in_long_range_of_le {a b : ℚ} (hab : a ≤ b) (hb : in_long_range b) :
    in_long_range a := by
  unfold in_long_range at hb ⊢
  linarith

theorem lround_of_range (q : ℚ) (h : 0 ≤ q) (hr : in_long_range q) :
    (Double.fin q).lround = ⌊q + 1 / 2⌋ := by
  have h0 : (0 : ℤ) ≤ ⌊q + 1 / 2⌋ := Int.floor_nonneg.mpr (by linarith)
  have h1 : ⌊q + 1 / 2⌋ < 9223372036854775808 := by
    rw [Int.floor_lt]
    exact_mod_cast hr
  simp only [Double.lround, h, if_true, LONG_MIN, LONG_MAX]
  rw [if_pos]
  constructor <;> omega

theorem lround_overflow (q : ℚ) (h : 0 ≤ q) (hr : ¬ in_long_range q) :
    (Double.fin q).lround = LONG_MIN := by
  have h1 : ¬ ⌊q + 1 / 2⌋ < 9223372036854775808 := by
    rw [Int.floor_lt]
    intro hlt
    exact hr (by unfold in_long_range; exact_mod_cast hlt)
  simp only [Double.lround, h, if_true, LONG_MIN, LONG_MAX]
  rw [if_neg]
  intro hc
  omega

theorem lround_ge_min (x : Double) : LONG_MIN ≤ x.lround := by
  cases x with
  | nan => exact le_refl _
  | fin q =>
    simp only [Double.lround]
    split_ifs with h1 h2 h3
    · exact h2.1
    · exact le_refl _
    · exact h3.1
    · exact le_refl _

theorem lround_nonneg (q : ℚ) (h : 0 ≤ q) (hr : in_long_range q) :
    0 ≤ (Double.fin q).lround := by
  rw [lround_of_range q h hr]
  exact Int.floor_nonneg.mpr (by linarith)

theorem lround_mono (a b : ℚ) (ha : 0 ≤ a) (hab : a ≤ b) (hb : in_long_range b) :
    (Double.fin a).lround ≤ (Double.fin b).lround := by
  rw [lround_of_range a ha (in_long_range_of_le hab hb),
    lround_of_range b (le_trans ha hab) hb]
  exact Int.floor_le_floor (by linarith)

theorem lround_add_weight (a w : ℚ) (ha : 0 ≤ a) (hw : 1 ≤ w) (hr : in_long_range (w + a)) :
    (Double.fin a).lround + 1 ≤ (Double.fin (w + a)).lround := by
  rw [lround_of_range a ha (in_long_range_of_le (by linarith) hr),
    lround_of_range (w + a) (by linarith) hr, ← Int.floor_add_one]
  exact Int.floor_le_floor (by linarith)

theorem lt_add_one_of_lround_le (a b : ℚ) (ha : 0 ≤ a) (hb : 0 ≤ b)
    (hra : in_long_range a) (hrb : in_long_range b)
    (h : (Double.fin a).lround ≤ (Double.fin b).lround) : a < b + 1 := by
  rw [lround_of_range a ha hra, lround_of_range b hb hrb] at h
  have h1 : a + 1 / 2 < (⌊a + 1 / 2⌋ : ℚ) + 1 := Int.lt_floor_add_one _
  have h2 : (⌊b + 1 / 2⌋ : ℚ) ≤ b + 1 / 2 := Int.floor_le _
  have h3 : (⌊a + 1 / 2⌋ : ℚ) ≤ (⌊b + 1 / 2⌋ : ℚ) := by exact_mod_cast h
  linarith

/-- The contract of `decrease_priority` on the rounded distances: a smaller distance rounds to
at most the rounding of the larger one, unless the larger one alone is out of the range of
`long`. -/
theorem lround_le_of_lt (a b : ℚ) (ha : 0 ≤ a) (hab : a ≤ b)
    (h : in_long_range b ∨ ¬ in_long_range a) :
    (Double.fin a).lround ≤ (Double.fin b).lround := by
  rcases h with h | h
  · exact lround_mono a b ha hab h
  · rw [lround_overflow a ha h]
    exact lround_ge_min _

theorem lround_zero : (Double.fin 0).lround = 0 := by
  rw [lround_of_range 0 (le_refl _) (by unfold in_long_range; norm_num), Int.floor_eq_iff]
  norm_num

/-! ## The count of the visited coordinates -/

theorem erase_apply (s : CoordSet) (k x : Coordinate) :
    s.erase k x = if x = k then false else s x := rfl

theorem visited_count_le (g : Graph) (U : CoordSet) :
    visited_count g U ≤ g.coords.toFinset.card :=
  Finset.card_filter_le _ _

theorem visited_count_erase (g : Graph) (U : CoordSet) (cur : Coordinate)
    (hV : cur ∈ g.coords) (hU : U cur = true) :
    visited_count g (U.erase cur) = visited_count g U + 1 := by
  unfold visited_count
  have h : g.coords.toFinset.filter (fun c => U.erase cur c = false)
      = insert cur (g.coords.toFinset.filter (fun c => U c = false)) := by
    ext x
    simp only [Finset.mem_filter, List.mem_toFinset, Finset.mem_insert, erase_apply]
    by_cases hx : x = cur
    · subst hx
      simp [hV]
    · simp [hx]
  rw [h, Finset.card_insert_of_not_mem]
  simp [hU]

theorem visited_count_of_list (g : Graph) :
    visited_count g (CoordSet.of_list g.coords) = 0 := by
  unfold visited_count
  rw [Finset.card_eq_zero, Finset.filter_eq_empty_iff]
  intro x hx
  simp only [List.mem_toFinset] at hx
  simp [CoordSet.of_list, hx]

/-- Under the bound on the weights, a distance that is at most as many weights as there are
visited coordinates rounds within the range of `long`. -/
theorem in_long_range_of_bound {g : Graph} {W : ℚ} (hb : g.bounded W) (U : CoordSet) {q : ℚ}
    (hq : q ≤ (visited_count g U : ℚ) * W) : in_long_range q := by
  obtain ⟨hW, -, hr⟩ := hb
  refine in_long_range_of_le (le_trans hq ?_) hr
  have : (visited_count g U : ℚ) ≤ (g.coords.toFinset.card : ℚ) := by
    exact_mod_cast visited_count_le g U
  exact mul_le_mul_of_nonneg_right this hW

/-! ## The priority queue -/

theorem min_entry_fold (es : PriorityHeap) (e : Coordinate × ℤ) :
    (es.foldl (fun best x => if x.2 < best.2 then x else best) e ∈ e :: es) ∧
      ∀ x ∈ e :: es, (es.foldl (fun best x => if x.2 < best.2 then x else best) e).2 ≤ x.2 := by
  induction es generalizing e with
  | nil => simp
  | cons y ys ih =>
    simp only [List.foldl_cons]
    obtain ⟨h1, h2⟩ := ih (if y.2 < e.2 then y else e)
    constructor
    · rcases List.mem_cons.mp h1 with h | h
      · rw [h]
        split_ifs <;> simp
      · exact List.mem_cons_of_mem _ (List.mem_cons_of_mem _ h)
    · intro x hx
      have hbest := h2 (if y.2 < e.2 then y else e) (List.mem_cons_self _ _)
      rcases List.mem_cons.mp hx with h | h
      · subst h
        refine le_trans hbest ?_
        split_ifs with hlt
        · exact le_of_lt hlt
        · exact le_refl _
      · rcases List.mem_cons.mp h with h | h
        · subst h
          refine le_trans hbest ?_
          split_ifs with hlt
          · exact le_refl _
          · exact not_lt.mp hlt
        · exact h2 x (List.mem_cons_of_mem _ h)

theorem min_entry_spec (h : PriorityHeap) (hne : h ≠ []) :
    ∃ e, PriorityHeap.min_entry h = some e ∧ e ∈ h ∧ ∀ x ∈ h, e.2 ≤ x.2 := by
  cases h with
  | nil => exact absurd rfl hne
  | cons e es => exact ⟨_, rfl, (min_entry_fold es e).1, (min_entry_fold es e).2⟩

theorem pop_spec (h : PriorityHeap) (hne : h ≠ []) :
    ∃ cur m, PriorityHeap.pop h = .ok (cur, h.filter (fun x => decide (x.1 ≠ cur))) ∧
      (cur, m) ∈ h ∧ ∀ x ∈ h, m ≤ x.2 := by
  obtain ⟨e, he, hmem, hmin⟩ := min_entry_spec h hne
  refine ⟨e.1, e.2, ?_, hmem, hmin⟩
  simp [PriorityHeap.pop, he]

theorem push_fresh (h : PriorityHeap) (item : Coordinate) (pr : ℤ)
    (hfresh : item ∉ h.map Prod.fst) :
    PriorityHeap.push h item pr = .ok (h ++ [(item, pr)]) := by
  unfold PriorityHeap.push
  rw [if_neg]
  simp only [List.any_eq_true, decide_eq_true_eq, not_exists, not_and]
  intro e he heq
  exact hfresh (List.mem_map.mpr ⟨e, he, heq⟩)

theorem priority_of_mem (h : PriorityHeap) (item : Coordinate)
    (hmem : item ∈ h.map Prod.fst) :
    ∃ old, PriorityHeap.priority_of h item = some old ∧ (item, old) ∈ h := by
  unfold PriorityHeap.priority_of
  obtain ⟨e, he, heq⟩ := List.mem_map.mp hmem
  cases hf : h.find? (fun e => decide (e.1 = item)) with
  | none =>
    have := List.find?_eq_none.mp hf e he
    simp [heq] at this
  | some e' =>
    have h1 := List.mem_of_find?_eq_some hf
    have h2 := List.find?_some hf
    simp only [decide_eq_true_eq] at h2
    refine ⟨e'.2, rfl, ?_⟩
    rw [← h2]
    exact h1

theorem decrease_keys (h : PriorityHeap) (item : Coordinate) (pr : ℤ) :
    (h.map (fun e => if e.1 = item then (item, pr) else e)).map Prod.fst = h.map Prod.fst := by
  rw [List.map_map]
  apply List.map_congr_left
  intro e _
  simp only [Function.comp]
  split_ifs with hif
  · exact hif.symm
  · rfl

theorem mem_decrease (h : PriorityHeap) (item : Coordinate) (pr : ℤ) (c : Coordinate) (p : ℤ)
    (hmem : (c, p) ∈ h.map (fun e => if e.1 = item then (item, pr) else e)) :
    (c = item ∧ p = pr) ∨ (c ≠ item ∧ (c, p) ∈ h) := by
  obtain ⟨e, he, heq⟩ := List.mem_map.mp hmem
  split_ifs at heq with hif
  · left
    simp only [Prod.mk.injEq] at heq
    exact ⟨heq.1.symm, heq.2.symm⟩
  · right
    subst heq
    exact ⟨hif, he⟩

/-! ## Maps -/

theorem index_of_some {V : Type} (m : Map V) (k : Coordinate) (dflt v : V) (h : m k = some v) :
    m.index k dflt = (v, m) := by
  simp [Map.index, h]

/-! ## Snapping -/

theorem closest_fold_mem (dist : Coordinate → Coordinate → ℚ) (target : Coordinate)
    (cs : List Coordinate) (c : Coordinate) :
    cs.foldl (fun best x => if dist target x < dist target best then x else best) c ∈ c :: cs := by
  induction cs generalizing c with
  | nil => simp
  | cons y ys ih =>
    simp only [List.foldl_cons]
    rcases List.mem_cons.mp (ih (if dist target y < dist target c then y else c)) with h | h
    · rw [h]
      split_ifs <;> simp
    · exact List.mem_cons_of_mem _ (List.mem_cons_of_mem _ h)

theorem closest_point_mem (dist : Coordinate → Coordinate → ℚ) (target c : Coordinate)
    (cs : List Coordinate) (h : closest_point dist target cs = some c) : c ∈ cs := by
  cases cs with
  | nil => simp [closest_point] at h
  | cons x xs =>
    simp only [closest_point, Option.some.injEq] at h
    rw [← h]
    exact closest_fold_mem dist target xs x

/-! ## One relaxation -/

theorem insert_apply {V : Type} (m : Map V) (k : Coordinate) (v : V) (x : Coordinate) :
    m.insert k v x = if x = k then some v else m x := rfl

theorem late_update {g : Graph} {td : Map Double} {H : PriorityHeap} {dcur : ℚ}
    (hL : Late g td H dcur) {n : Coordinate} {wn : ℚ} (hwn : g.weight n = Double.fin wn)
    (H' : PriorityHeap)
    (hin : ∀ c pr, (c, pr) ∈ H' →
      (c = n ∧ pr = (Double.fin (wn + dcur)).lround) ∨ (c ≠ n ∧ (c, pr) ∈ H)) :
    Late g (td.insert n (Double.fin (wn + dcur))) H' dcur := by
  intro c pr q wc hmem hq hwc
  rcases hin c pr hmem with ⟨hc, -⟩ | ⟨hc, hmem'⟩
  · subst hc
    rw [insert_apply, if_pos rfl] at hq
    rw [hwn] at hwc
    injection hq with hq
    injection hq with hq
    injection hwc with hwc
    subst hq hwc
    exact Or.inr (Or.inr (le_refl _))
  · rw [insert_apply, if_neg hc] at hq
    exact hL c pr q wc hmem' hq hwc

theorem core_update {dist : Coordinate → Coordinate → ℚ} {g : Graph} {src : Coordinate}
    {P : Prop} {W : ℚ}
    {U : CoordSet} {td : Map Double} {bm : Map Coordinate} {H : PriorityHeap} {M : ℤ}
    (hb : P → g.bounded W)
    (hC : Core dist g src P W U td bm H M) {cur n : Coordinate} {dcur wn : ℚ}
    (hcur : td cur = some (Double.fin dcur)) (hUcur : U cur = false)
    (hM : M = (Double.fin dcur).lround) (hd0 : 0 ≤ dcur)
    (hn1 : n ≠ cur) (hn2 : U n = true) (hadj : g.adjacent dist cur n = true)
    (hwn : g.weight n = Double.fin wn) (hwn1 : 1 ≤ wn)
    (hold : ∀ qo, td n = some (Double.fin qo) → wn + dcur < qo)
    (H' : PriorityHeap) (hnd : (H'.map Prod.fst).Nodup)
    (hin : ∀ c pr, (c, pr) ∈ H' →
      (c = n ∧ pr = (Double.fin (wn + dcur)).lround) ∨ (c ≠ n ∧ (c, pr) ∈ H))
    (hkeys : ∀ c, c ∈ H.map Prod.fst → c ∈ H'.map Prod.fst)
    (hnk : n ∈ H'.map Prod.fst) :
    Core dist g src P W U (td.insert n (Double.fin (wn + dcur))) (bm.insert n cur) H' M := by
  have hnV : n ∈ g.coords := hC.unvisited_sub n hn2
  have hnew : P → wn + dcur ≤ (visited_count g U : ℚ) * W := by
    intro hP
    have h1 := hC.bound_vis hP cur dcur hcur hUcur
    have h2 := (hb hP).2.1 n wn hwn
    linarith
  constructor
  · -- src_dist
    rw [insert_apply]
    split_ifs with h
    · exfalso
      have := hold 0 (by rw [← h]; exact hC.src_dist)
      linarith
    · exact hC.src_dist
  · exact hnd
  · -- heap_sound
    intro c pr hmem
    rcases hin c pr hmem with ⟨hc, hpr⟩ | ⟨hc, hmem'⟩
    · subst hc
      exact ⟨hn2, wn + dcur, by simp [insert_apply], hpr⟩
    · obtain ⟨h1, q, h2, h3⟩ := hC.heap_sound c pr hmem'
      exact ⟨h1, q, by simp [insert_apply, hc, h2], h3⟩
  · -- heap_complete
    intro c x hx hU
    by_cases hc : c = n
    · subst hc
      exact hnk
    · rw [insert_apply, if_neg hc] at hx
      exact hkeys c (hC.heap_complete c x hx hU)
  · exact hC.unvisited_sub
  · -- dist_fin
    intro c x hx
    by_cases hc : c = n
    · subst hc
      rw [insert_apply, if_pos rfl] at hx
      exact ⟨hnV, wn + dcur, (Option.some.inj hx).symm, by linarith⟩
    · rw [insert_apply, if_neg hc] at hx
      exact hC.dist_fin c x hx
  · -- visited_dist
    intro c hcV hU
    have hc : c ≠ n := by
      rintro rfl
      rw [hn2] at hU
      exact Bool.noConfusion hU
    obtain ⟨q, hq⟩ := hC.visited_dist c hcV hU
    exact ⟨q, by rw [insert_apply, if_neg hc]; exact hq⟩
  · -- back
    intro c q hq hsrc
    by_cases hc : c = n
    · subst hc
      rw [insert_apply, if_pos rfl] at hq
      have hq' : q = wn + dcur := by
        have := Option.some.inj hq
        injection this with this
        exact this.symm
      refine ⟨cur, dcur, wn, by simp [insert_apply], hUcur, ?_, hwn, hq', hn1.symm, hadj⟩
      rw [insert_apply, if_neg hn1.symm]
      exact hcur
    · rw [insert_apply, if_neg hc] at hq
      obtain ⟨p, qp, wc, h1, h2, h3, h4, h5, h6, h7⟩ := hC.back c q hq hsrc
      have hp : p ≠ n := by
        rintro rfl
        rw [hn2] at h2
        exact Bool.noConfusion h2
      refine ⟨p, qp, wc, ?_, h2, ?_, h4, h5, h6, h7⟩
      · rw [insert_apply, if_neg hc]
        exact h1
      · rw [insert_apply, if_neg hp]
        exact h3
  · -- vis_le
    intro hP c q hq hU
    have hc : c ≠ n := by
      rintro rfl
      rw [hn2] at hU
      exact Bool.noConfusion hU
    rw [insert_apply, if_neg hc] at hq
    exact hC.vis_le hP c q hq hU
  · -- heap_ge
    intro hP c pr hmem
    rcases hin c pr hmem with ⟨-, hpr⟩ | ⟨-, hmem'⟩
    · have := lround_add_weight dcur wn hd0 hwn1
        (in_long_range_of_bound (hb hP) U (hnew hP))
      rw [hpr, hM]
      linarith
    · exact hC.heap_ge hP c pr hmem'
  · -- bound_all
    intro hP c q hq
    by_cases hc : c = n
    · subst hc
      rw [insert_apply, if_pos rfl] at hq
      injection hq with hq
      injection hq with hq
      rw [← hq]
      exact hnew hP
    · rw [insert_apply, if_neg hc] at hq
      exact hC.bound_all hP c q hq
  · -- bound_vis
    intro hP c q hq hU
    have hc : c ≠ n := by
      rintro rfl
      rw [hn2] at hU
      exact Bool.noConfusion hU
    rw [insert_apply, if_neg hc] at hq
    exact hC.bound_vis hP c q hq hU

theorem relax_ok {dist : Coordinate → Coordinate → ℚ} {g : Graph} {src : Coordinate}
    {P : Prop} {W : ℚ}
    {U : CoordSet} {td : Map Double} {bm : Map Coordinate} {H : PriorityHeap} {M : ℤ}
    (hw : g.weighted) (hb : P → g.bounded W)
    (hC : Core dist g src P W U td bm H M) (U0 : CoordSet)
    {cur n : Coordinate} {dcur : ℚ}
    (hcur : td cur = some (Double.fin dcur)) (hUcur : U cur = false)
    (hM : M = (Double.fin dcur).lround) (hL : Late g td H dcur)
    (hn1 : n ≠ cur) (hn2 : U n = true) (hadj : g.adjacent dist cur n = true) :
    ∃ td' bm' H',
      relax g cur { unvisited := U0, tentative_distance := td, back_map := bm, next_heap := H } n
        = .ok { unvisited := U0, tentative_distance := td', back_map := bm', next_heap := H' } ∧
      Core dist g src P W U td' bm' H' M ∧ Late g td' H' dcur ∧
      (∀ c, U c = false → td' c = td c) ∧
      (∀ c x, td c = some (Double.fin x) → ∃ y, td' c = some (Double.fin y) ∧ y ≤ x) ∧
      EdgeOK g td' cur n := by
  have hnV : n ∈ g.coords := hC.unvisited_sub n hn2
  obtain ⟨wn, hwn, hwn1⟩ := hw n hnV
  have hd0 : 0 ≤ dcur := by
    obtain ⟨-, q, hq, hq0⟩ := hC.dist_fin cur _ hcur
    injection hq with hq
    rw [hq]
    exact hq0
  have hidx : td.index cur (Double.fin 0) = (Double.fin dcur, td) := index_of_some _ _ _ _ hcur
  have hvis : ∀ c, U c = false → (td.insert n (Double.fin (wn + dcur))) c = td c := by
    intro c hc
    have : c ≠ n := by
      rintro rfl
      rw [hn2] at hc
      exact Bool.noConfusion hc
    rw [insert_apply, if_neg this]
  have hedge : EdgeOK g (td.insert n (Double.fin (wn + dcur))) cur n := by
    intro qp wc hqp hwc
    rw [insert_apply, if_neg hn1.symm, hcur] at hqp
    rw [hwn] at hwc
    injection hqp with hqp
    injection hqp with hqp
    injection hwc with hwc
    subst hqp hwc
    exact ⟨wn + dcur, by simp [insert_apply], le_refl _⟩
  cases htn : td n with
  | none =>
    have hfresh : n ∉ H.map Prod.fst := by
      intro hmem
      obtain ⟨e, he, heq⟩ := List.mem_map.mp hmem
      obtain ⟨-, q, hq, -⟩ := hC.heap_sound e.1 e.2 he
      rw [heq, htn] at hq
      exact Option.noConfusion hq
    have hin : ∀ c pr, (c, pr) ∈ H ++ [(n, (Double.fin (wn + dcur)).lround)] →
        (c = n ∧ pr = (Double.fin (wn + dcur)).lround) ∨ (c ≠ n ∧ (c, pr) ∈ H) := by
      intro c pr hmem
      rcases List.mem_append.mp hmem with h | h
      · right
        refine ⟨?_, h⟩
        rintro rfl
        exact hfresh (List.mem_map.mpr ⟨_, h, rfl⟩)
      · left
        simpa using h
    refine ⟨td.insert n (Double.fin (wn + dcur)), bm.insert n cur,
      H ++ [(n, (Double.fin (wn + dcur)).lround)], ?_, ?_, late_update hL hwn _ hin, hvis, ?_,
      hedge⟩
    · simp only [relax, hidx, htn, hwn, Double.add, push_fresh H n _ hfresh]
    · refine core_update hb hC hcur hUcur hM hd0 hn1 hn2 hadj hwn hwn1 ?_ _ ?_ hin ?_ ?_
      · intro qo hqo
        rw [htn] at hqo
        exact Option.noConfusion hqo
      · rw [List.map_append]
        refine List.Nodup.append hC.heap_nodup (by simp) ?_
        simpa using hfresh
      · intro c hc
        rw [List.map_append]
        exact List.mem_append_left _ hc
      · simp
    · intro c x hx
      have : c ≠ n := by
        rintro rfl
        rw [htn] at hx
        exact Option.noConfusion hx
      exact ⟨x, by rw [insert_apply, if_neg this]; exact hx, le_refl _⟩
  | some old =>
    obtain ⟨-, qo, hqo, hqo0⟩ := hC.dist_fin n old htn
    subst hqo
    have hkey : n ∈ H.map Prod.fst := hC.heap_complete n _ htn hn2
    by_cases hlt : wn + dcur < qo
    · obtain ⟨oldpr, hpo, hmemo⟩ := priority_of_mem H n hkey
      have hle : (Double.fin (wn + dcur)).lround ≤ oldpr := by
        obtain ⟨-, q, hq, hpr⟩ := hC.heap_sound n oldpr hmemo
        rw [htn] at hq
        injection hq with hq
        injection hq with hq
        subst hq
        rw [hpr]
        refine lround_le_of_lt _ _ (by linarith) (le_of_lt hlt) ?_
        rcases hL n oldpr qo wn hmemo htn hwn with h | h | h
        · exact Or.inl h
        · exact Or.inr (fun hr => h (in_long_range_of_le (by linarith) hr))
        · exact absurd hlt (not_lt.mpr h)
      refine ⟨td.insert n (Double.fin (wn + dcur)), bm.insert n cur,
        H.map (fun e => if e.1 = n then (n, (Double.fin (wn + dcur)).lround) else e),
        ?_, ?_, late_update hL hwn _ (fun c pr hmem => mem_decrease H n _ c pr hmem), hvis, ?_,
        hedge⟩
      · simp only [relax, hidx, htn, hwn, Double.add, Double.lt, hlt, decide_True, if_true,
          PriorityHeap.decrease_priority, hpo, hle]
      · refine core_update hb hC hcur hUcur hM hd0 hn1 hn2 hadj hwn hwn1 ?_ _ ?_ ?_ ?_ ?_
        · intro q hq
          rw [htn] at hq
          injection hq with hq
          injection hq with hq
          rw [← hq]
          exact hlt
        · rw [decrease_keys]
          exact hC.heap_nodup
        · intro c pr hmem
          exact mem_decrease H n _ c pr hmem
        · intro c hc
          rw [decrease_keys]
          exact hc
        · rw [decrease_keys]
          exact hkey
      · intro c x hx
        by_cases hc : c = n
        · subst hc
          rw [htn] at hx
          injection hx with hx
          injection hx with hx
          subst hx
          exact ⟨wn + dcur, by simp [insert_apply], le_of_lt hlt⟩
        · exact ⟨x, by rw [insert_apply, if_neg hc]; exact hx, le_refl _⟩
    · refine ⟨td, bm, H, ?_, hC, hL, fun _ _ => rfl, fun c x hx => ⟨x, hx, le_refl _⟩, ?_⟩
      · simp only [relax, hidx, htn, hwn, Double.add, Double.lt, hlt, decide_False]
        rfl
      · intro qp wc hqp hwc
        rw [hcur] at hqp
        rw [hwn] at hwc
        injection hqp with hqp
        injection hqp with hqp
        injection hwc with hwc
        subst hqp hwc
        exact ⟨qo, htn, not_lt.mp hlt⟩

/-! ## The loop over the neighbours -/

theorem edgeOK_mono {g : Graph} {td td' : Map Double} {p c : Coordinate}
    (h : EdgeOK g td p c) (hp : td' p = td p)
    (hc : ∀ x, td c = some (Double.fin x) → ∃ y, td' c = some (Double.fin y) ∧ y ≤ x) :
    EdgeOK g td' p c := by
  intro qp wc hqp hwc
  rw [hp] at hqp
  obtain ⟨q, hq, hle⟩ := h qp wc hqp hwc
  obtain ⟨y, hy, hyq⟩ := hc q hq
  exact ⟨y, hy, le_trans hyq hle⟩

theorem edge_mono {P : Prop} {g : Graph} {td td' : Map Double} {p c : Coordinate}
    (h : Edge P g td p c) (hp : td' p = td p)
    (hc : ∀ x, td c = some (Double.fin x) → ∃ y, td' c = some (Double.fin y) ∧ y ≤ x) :
    Edge P g td' p c := by
  refine ⟨?_, fun hP => edgeOK_mono (h.2 hP) hp hc⟩
  intro qp hqp
  rw [hp] at hqp
  obtain ⟨q, hq⟩ := h.1 qp hqp
  obtain ⟨y, hy, -⟩ := hc q hq
  exact ⟨y, hy⟩

theorem edge_of_ok {P : Prop} {g : Graph} {td : Map Double} {p c : Coordinate} {wc : ℚ}
    (hwc : g.weight c = Double.fin wc) (h : EdgeOK g td p c) : Edge P g td p c := by
  refine ⟨?_, fun _ => h⟩
  intro qp hqp
  obtain ⟨q, hq, -⟩ := h qp wc hqp hwc
  exact ⟨q, hq⟩

theorem for_each_neighbor_ok {dist : Coordinate → Coordinate → ℚ} {g : Graph}
    {src : Coordinate} {P : Prop} {W : ℚ} {U : CoordSet} {M : ℤ} (hw : g.weighted)
    (hb : P → g.bounded W) (U0 : CoordSet)
    {cur : Coordinate} {dcur : ℚ} (hUcur : U cur = false)
    (hM : M = (Double.fin dcur).lround) (L : List Coordinate) :
    ∀ (td : Map Double) (bm : Map Coordinate) (H : PriorityHeap),
      Core dist g src P W U td bm H M → Late g td H dcur → td cur = some (Double.fin dcur) →
      (∀ n, n ∈ L → n ≠ cur ∧ U n = true ∧ g.adjacent dist cur n = true) →
      (∀ p c, U p = false → p ≠ cur → p ≠ c → g.adjacent dist p c = true → Edge P g td p c) →
      (∀ c, c ∉ L → cur ≠ c → g.adjacent dist cur c = true → Edge P g td cur c) →
      ∃ td' bm' H',
        for_each_neighbor g cur L
            { unvisited := U0, tentative_distance := td, back_map := bm, next_heap := H }
          = .ok { unvisited := U0, tentative_distance := td', back_map := bm',
                  next_heap := H' } ∧
        Core dist g src P W U td' bm' H' M ∧
        ∀ p c, U p = false → p ≠ c → g.adjacent dist p c = true → Edge P g td' p c := by
  induction L with
  | nil =>
    intro td bm H hC _ _ _ hother hcur
    refine ⟨td, bm, H, rfl, hC, ?_⟩
    intro p c hUp hpc hadj
    by_cases hp : p = cur
    · subst hp
      exact hcur c (List.not_mem_nil c) hpc hadj
    · exact hother p c hUp hp hpc hadj
  | cons n rest ih =>
    intro td bm H hC hL0 hcur hL hother hdone
    obtain ⟨hn1, hn2, hadj⟩ := hL n (List.mem_cons_self _ _)
    obtain ⟨wn, hwn, -⟩ := hw n (hC.unvisited_sub n hn2)
    obtain ⟨td1, bm1, H1, hrel, hC1, hL1, hvis, hmono, hedge⟩ :=
      relax_ok hw hb hC U0 hcur hUcur hM hL0 hn1 hn2 hadj
    have hcur1 : td1 cur = some (Double.fin dcur) := by
      rw [hvis cur hUcur]
      exact hcur
    obtain ⟨td', bm', H', hrun, hC', hclosed⟩ := ih td1 bm1 H1 hC1 hL1 hcur1
      (fun m hm => hL m (List.mem_cons_of_mem _ hm))
      (fun p c hUp hp hpc hadj' =>
        edge_mono (hother p c hUp hp hpc hadj') (hvis p hUp) (hmono c))
      (fun c hc hcc hadj' => by
        by_cases hcn : c = n
        · subst hcn
          exact edge_of_ok hwn hedge
        · have hc' : c ∉ n :: rest := by
            intro hmem
            rcases List.mem_cons.mp hmem with h | h
            · exact hcn h
            · exact hc h
          exact edge_mono (hdone c hc' hcc hadj') (hvis cur hUcur) (hmono c))
    refine ⟨td', bm', H', ?_, hC', hclosed⟩
    simp only [for_each_neighbor, hrel]
    exact hrun

/-! ## One iteration of the search loop -/

theorem remaining_erase_lt (g : Graph) (U : CoordSet) (cur : Coordinate)
    (hV : cur ∈ g.coords) (hU : U cur = true) : remaining g (U.erase cur) < remaining g U := by
  unfold remaining
  apply Finset.card_lt_card
  rw [Finset.ssubset_iff_of_subset]
  · refine ⟨cur, ?_, ?_⟩
    · simp [hV, hU]
    · simp [erase_apply]
  · intro x hx
    simp only [Finset.mem_filter, List.mem_toFinset, erase_apply] at hx ⊢
    refine ⟨hx.1, ?_⟩
    by_cases h : x = cur
    · simp [h] at hx
    · simpa [h] using hx.2

theorem core_pop {dist : Coordinate → Coordinate → ℚ} {g : Graph} {src : Coordinate}
    {P : Prop} {W : ℚ}
    {U : CoordSet} {td : Map Double} {bm : Map Coordinate} {H : PriorityHeap} {M : ℤ}
    (hb : P → g.bounded W)
    (hC : Core dist g src P W U td bm H M) {cur : Coordinate} {m : ℤ} {dcur : ℚ}
    (hmem : (cur, m) ∈ H) (hmin : ∀ x ∈ H, m ≤ x.2)
    (hcur : td cur = some (Double.fin dcur)) (hm : m = (Double.fin dcur).lround) :
    Core dist g src P W (U.erase cur) td bm (H.filter (fun x => decide (x.1 ≠ cur))) m := by
  have hUcur : U cur = true := (hC.heap_sound cur m hmem).1
  have hcount : (visited_count g (U.erase cur) : ℚ) = (visited_count g U : ℚ) + 1 := by
    rw [visited_count_erase g U cur (hC.unvisited_sub cur hUcur) hUcur]
    push_cast
    rfl
  constructor
  · exact hC.src_dist
  · exact List.Nodup.sublist (List.Sublist.map _ (List.filter_sublist _)) hC.heap_nodup
  · intro c pr hc
    obtain ⟨hcH, hne⟩ := List.mem_filter.mp hc
    simp only [ne_eq, decide_not, Bool.not_eq_true', decide_eq_false_iff_not] at hne
    obtain ⟨h1, h2⟩ := hC.heap_sound c pr hcH
    refine ⟨?_, h2⟩
    rw [erase_apply, if_neg hne]
    exact h1
  · intro c x hx hU
    rw [erase_apply] at hU
    split_ifs at hU with hc
    obtain ⟨e, he, heq⟩ := List.mem_map.mp (hC.heap_complete c x hx hU)
    refine List.mem_map.mpr ⟨e, List.mem_filter.mpr ⟨he, ?_⟩, heq⟩
    simp only [ne_eq, decide_not, Bool.not_eq_true', decide_eq_false_iff_not]
    rw [heq]
    exact hc
  · intro c hU
    rw [erase_apply] at hU
    split_ifs at hU with hc
    exact hC.unvisited_sub c hU
  · exact hC.dist_fin
  · intro c hcV hU
    rw [erase_apply] at hU
    split_ifs at hU with hc
    · subst hc
      exact ⟨dcur, hcur⟩
    · exact hC.visited_dist c hcV hU
  · intro c q hq hsrc
    obtain ⟨p, qp, wc, h1, h2, h3, h4, h5, h6, h7⟩ := hC.back c q hq hsrc
    refine ⟨p, qp, wc, h1, ?_, h3, h4, h5, h6, h7⟩
    rw [erase_apply]
    split_ifs
    · rfl
    · exact h2
  · intro hP c q hq hU
    rw [erase_apply] at hU
    split_ifs at hU with hc
    · subst hc
      rw [hcur] at hq
      injection hq with hq
      injection hq with hq
      subst hq
      exact le_of_eq hm.symm
    · exact le_trans (hC.vis_le hP c q hq hU) (hC.heap_ge hP cur m hmem)
  · intro _ c pr hc
    exact hmin (c, pr) (List.mem_filter.mp hc).1
  · intro hP c q hq
    have h1 := hC.bound_all hP c q hq
    have hW := (hb hP).1
    rw [hcount]
    linarith
  · intro hP c q hq hU
    have hW := (hb hP).1
    rw [hcount]
    rw [erase_apply] at hU
    split_ifs at hU with hc
    · have h1 := hC.bound_all hP c q hq
      linarith
    · have h1 := hC.bound_vis hP c q hq hU
      linarith

theorem late_pop {dist : Coordinate → Coordinate → ℚ} {g : Graph} {src : Coordinate}
    {P : Prop} {W : ℚ}
    {U : CoordSet} {td : Map Double} {bm : Map Coordinate} {H : PriorityHeap} {M : ℤ}
    (hC : Core dist g src P W U td bm H M) {cur : Coordinate} {m : ℤ} {dcur : ℚ}
    (hmin : ∀ x ∈ H, m ≤ x.2) (hd0 : 0 ≤ dcur) (hm : m = (Double.fin dcur).lround) :
    Late g td (H.filter (fun x => decide (x.1 ≠ cur))) dcur := by
  intro n pr q wn hmem hq _
  by_cases hr : in_long_range q
  · exact Or.inl hr
  · refine Or.inr (Or.inl ?_)
    intro hrc
    have hnH := (List.mem_filter.mp hmem).1
    obtain ⟨-, q', hq', hpr⟩ := hC.heap_sound n pr hnH
    rw [hq] at hq'
    injection hq' with hq'
    injection hq' with hq'
    subst hq'
    have hq0 : 0 ≤ q := by
      obtain ⟨-, x, hx, hx0⟩ := hC.dist_fin n _ hq
      injection hx with hx
      rw [hx]
      exact hx0
    have h1 : m ≤ pr := hmin (n, pr) hnH
    rw [hpr, lround_overflow q hq0 hr, hm] at h1
    have h2 := lround_nonneg dcur hd0 hrc
    unfold LONG_MIN at h1
    omega

theorem step_ok {dist : Coordinate → Coordinate → ℚ} {g : Graph} {src : Coordinate}
    {P : Prop} {W : ℚ}
    (hw : g.weighted) (hb : P → g.bounded W) (st : SearchState) (hI : Inv dist g src P W st)
    (hne : st.next_heap ≠ []) :
    ∃ cur heap st',
      PriorityHeap.pop st.next_heap = .ok (cur, heap) ∧
      for_each_neighbor g cur (g.coords.filter (is_neighbor dist g st.unvisited cur))
          { unvisited := st.unvisited, tentative_distance := st.tentative_distance,
            back_map := st.back_map, next_heap := heap } = .ok st' ∧
      Inv dist g src P W
        { unvisited := st'.unvisited.erase cur, tentative_distance := st'.tentative_distance,
          back_map := st'.back_map, next_heap := st'.next_heap } ∧
      remaining g (st'.unvisited.erase cur) < remaining g st.unvisited := by
  obtain ⟨⟨M, hC⟩, hclosed⟩ := hI
  obtain ⟨cur, m, hpop, hmem, hmin⟩ := pop_spec st.next_heap hne
  obtain ⟨hUcur, dcur, hcur, hm⟩ := hC.heap_sound cur m hmem
  have hcurV : cur ∈ g.coords := hC.unvisited_sub cur hUcur
  have hd0 : 0 ≤ dcur := by
    obtain ⟨-, q, hq, hq0⟩ := hC.dist_fin cur _ hcur
    injection hq with hq
    rw [hq]
    exact hq0
  have hC1 := core_pop hb hC hmem hmin hcur hm
  have hU' : (st.unvisited.erase cur) cur = false := by simp [erase_apply]
  obtain ⟨td', bm', H', hrun, hC', hclosed'⟩ :=
    for_each_neighbor_ok hw hb st.unvisited hU' hm
      (g.coords.filter (is_neighbor dist g st.unvisited cur))
      st.tentative_distance st.back_map _ hC1 (late_pop hC hmin hd0 hm) hcur
      (by
        intro n hn
        obtain ⟨-, hnb⟩ := List.mem_filter.mp hn
        simp only [is_neighbor, Bool.and_eq_true, decide_eq_true_eq] at hnb
        obtain ⟨⟨h1, h2⟩, h3⟩ := hnb
        refine ⟨fun h => h1 h.symm, ?_, h2⟩
        rw [erase_apply, if_neg (fun h => h1 h.symm)]
        exact h3)
      (by
        intro p c hUp hp hpc hadj
        rw [erase_apply, if_neg hp] at hUp
        exact hclosed p c hUp hpc hadj)
      (by
        intro c hc hcc hadj
        have hcV : c ∈ g.coords :=
          (adjacent_true hadj).2.1
        have hUc : st.unvisited c = false := by
          by_contra hU
          simp only [Bool.not_eq_false] at hU
          apply hc
          refine List.mem_filter.mpr ⟨hcV, ?_⟩
          simp [is_neighbor, hcc, hadj, hU]
        obtain ⟨q, hq⟩ := hC.visited_dist c hcV hUc
        have hq0 : 0 ≤ q := by
          obtain ⟨-, q', hq', hq0'⟩ := hC.dist_fin c _ hq
          injection hq' with hq'
          rw [hq']
          exact hq0'
        refine ⟨fun _ _ => ⟨q, hq⟩, fun hP => ?_⟩
        have hle : (Double.fin q).lround ≤ (Double.fin dcur).lround := by
          rw [← hm]
          exact le_trans (hC.vis_le hP c q hq hUc) (hC.heap_ge hP cur m hmem)
        have hlt := lt_add_one_of_lround_le q dcur hq0 hd0
          (in_long_range_of_bound (hb hP) _ (hC.bound_all hP c q hq))
          (in_long_range_of_bound (hb hP) _ (hC.bound_all hP cur dcur hcur)) hle
        intro qp wc hqp hwc
        rw [hcur] at hqp
        injection hqp with hqp
        injection hqp with hqp
        subst hqp
        obtain ⟨w, hw1, hw2⟩ := hw c hcV
        rw [hw1] at hwc
        injection hwc with hwc
        subst hwc
        exact ⟨q, hq, by linarith⟩)
  exact ⟨cur, _, _, hpop, hrun, ⟨⟨m, hC'⟩, hclosed'⟩, remaining_erase_lt g _ cur hcurV hUcur⟩

theorem search_loop_ok {dist : Coordinate → Coordinate → ℚ} {g : Graph} {src : Coordinate}
    {P : Prop} {W : ℚ}
    (hw : g.weighted) (hb : P → g.bounded W) (fuel : ℕ) :
    ∀ st : SearchState, Inv dist g src P W st → remaining g st.unvisited < fuel →
      ∃ final, search_loop dist g fuel st = .ok final ∧ Inv dist g src P W final ∧
        final.next_heap = [] := by
  induction fuel with
  | zero =>
    intro st _ h
    exact absurd h (Nat.not_lt_zero _)
  | succ fuel ih =>
    intro st hI hfuel
    by_cases hne : st.next_heap = []
    · refine ⟨st, ?_, hI, hne⟩
      simp [search_loop, PriorityHeap.empty, hne]
    · obtain ⟨cur, heap, st', hpop, hrun, hI', hlt⟩ := step_ok hw hb st hI hne
      obtain ⟨final, hfin, hIf, hempty⟩ := ih _ hI' (Nat.lt_of_lt_of_le hlt (Nat.le_of_lt_succ hfuel))
      refine ⟨final, ?_, hIf, hempty⟩
      have hemp : PriorityHeap.empty st.next_heap = false := by
        cases hh : st.next_heap with
        | nil => exact absurd hh hne
        | cons _ _ => rfl
      simp only [search_loop, hemp, hpop, hrun]
      exact hfin

/-! ## The state in which the search starts and the state in which it ends -/

theorem new_weighted (data : List Location) (resolution : ℕ) :
    (Graph.new data resolution).weighted := by
  intro c hc
  obtain ⟨loc, hloc⟩ := (contains_iff_find _ _).mp ((contains_iff_mem_coords _ c).mpr hc)
  obtain ⟨hmem, -⟩ := find_some_mem _ _ _ hloc
  refine ⟨max_depth_of data - loc.depth + 1, ?_, ?_⟩
  · unfold Graph.weight
    rw [hloc]
    rfl
  · have := depth_le_max_depth_of data loc hmem
    linarith

theorem remaining_le (g : Graph) (U : CoordSet) : remaining g U ≤ g.data.length := by
  unfold remaining
  calc (g.coords.toFinset.filter (fun c => U c = true)).card
      ≤ g.coords.toFinset.card := Finset.card_filter_le _ _
    _ ≤ g.coords.length := List.toFinset_card_le _
    _ = g.data.length := by simp [Graph.coords]

theorem initial_core (dist : Coordinate → Coordinate → ℚ) (g : Graph) (src : Coordinate)
    (P : Prop) (W : ℚ) (hsrc : src ∈ g.coords) :
    Core dist g src P W (CoordSet.of_list g.coords) (Map.insert Map.empty src (Double.fin 0))
      (Map.insert Map.empty src src) [(src, 0)] 0 := by
  constructor
  · simp [insert_apply]
  · simp
  · intro c pr hmem
    simp only [List.mem_singleton, Prod.mk.injEq] at hmem
    obtain ⟨rfl, rfl⟩ := hmem
    exact ⟨by simpa [CoordSet.of_list] using hsrc, 0, by simp [insert_apply],
      lround_zero.symm⟩
  · intro c x hx _
    rw [insert_apply] at hx
    split_ifs at hx with h
    · simp [h]
    · exact Option.noConfusion hx
  · intro c hU
    simpa [CoordSet.of_list] using hU
  · intro c x hx
    rw [insert_apply] at hx
    split_ifs at hx with h
    · subst h
      exact ⟨hsrc, 0, (Option.some.inj hx).symm, le_refl _⟩
    · exact Option.noConfusion hx
  · intro c hc hU
    simp [CoordSet.of_list, hc] at hU
  · intro c q hq hne
    rw [insert_apply, if_neg hne] at hq
    exact Option.noConfusion hq
  · intro _ c q hq hU
    rw [insert_apply] at hq
    split_ifs at hq with h
    · subst h
      simp [CoordSet.of_list, hsrc] at hU
    · exact Option.noConfusion hq
  · intro _ c pr hmem
    simp only [List.mem_singleton, Prod.mk.injEq] at hmem
    exact le_of_eq hmem.2.symm
  · intro _ c q hq
    rw [insert_apply] at hq
    split_ifs at hq with h
    · injection hq with hq
      injection hq with hq
      rw [← hq, visited_count_of_list]
      simp
    · exact Option.noConfusion hq
  · intro _ c q hq hU
    rw [insert_apply] at hq
    split_ifs at hq with h
    · subst h
      simp [CoordSet.of_list, hsrc] at hU
    · exact Option.noConfusion hq

theorem initial_inv (dist : Coordinate → Coordinate → ℚ) (g : Graph) (src : Coordinate)
    (P : Prop) (W : ℚ) (hsrc : src ∈ g.coords) :
    ∃ st, initial_state g.coords src = .ok st ∧ Inv dist g src P W st := by
  refine ⟨{ unvisited := CoordSet.of_list g.coords
            tentative_distance := Map.insert Map.empty src (Double.fin 0)
            back_map := Map.insert Map.empty src src
            next_heap := [(src, 0)] }, ?_, ⟨0, initial_core dist g src P W hsrc⟩, ?_⟩
  · simp [initial_state, PriorityHeap.push]
  · intro p c hU _ _
    have hU' : CoordSet.of_list g.coords p = false := hU
    have hnone : ∀ qp, (Map.insert Map.empty src (Double.fin 0)) p ≠ some (Double.fin qp) := by
      intro qp hqp
      rw [insert_apply] at hqp
      split_ifs at hqp with h
      · subst h
        simp [CoordSet.of_list, hsrc] at hU'
      · exact Option.noConfusion hqp
    exact ⟨fun qp hqp => absurd hqp (hnone qp), fun _ qp _ hqp _ => absurd hqp (hnone qp)⟩

theorem search_ok (dist : Coordinate → Coordinate → ℚ) (g : Graph) (hw : g.weighted)
    (P : Prop) (W : ℚ) (hb : P → g.bounded W)
    (src : Coordinate) (hsrc : src ∈ g.coords) (fuel : ℕ) (hfuel : g.data.length < fuel) :
    ∃ st final, initial_state g.coords src = .ok st ∧ search_loop dist g fuel st = .ok final ∧
      Inv dist g src P W final ∧ final.next_heap = [] := by
  obtain ⟨st, hst, hI⟩ := initial_inv dist g src P W hsrc
  obtain ⟨final, hfin, hIf, hempty⟩ :=
    search_loop_ok hw hb fuel st hI (Nat.lt_of_le_of_lt (remaining_le g _) hfuel)
  exact ⟨st, final, hst, hfin, hIf, hempty⟩

theorem final_walk_reach {dist : Coordinate → Coordinate → ℚ} {g : Graph} {src : Coordinate}
    {P : Prop} {W : ℚ}
    {st : SearchState} (hI : Inv dist g src P W st) (hempty : st.next_heap = [])
    (l : List Coordinate) :
    ∀ (a b : Coordinate) (qa : ℚ), st.tentative_distance a = some (Double.fin qa) →
      g.is_walk dist a b l → ∃ q, st.tentative_distance b = some (Double.fin q) := by
  obtain ⟨⟨M, hC⟩, hclosed⟩ := hI
  have hvisited : ∀ c x, st.tentative_distance c = some x → st.unvisited c = false := by
    intro c x hx
    by_contra hU
    simp only [Bool.not_eq_false] at hU
    have := hC.heap_complete c x hx hU
    rw [hempty] at this
    simp at this
  induction l with
  | nil =>
    intro a b qa ha hwalk
    obtain ⟨-, hlast⟩ := hwalk
    simp only [List.getLast?_singleton, Option.some.injEq] at hlast
    subst hlast
    exact ⟨qa, ha⟩
  | cons x l' ih =>
    intro a b qa ha hwalk
    obtain ⟨hchain, hlast⟩ := hwalk
    rw [List.chain_cons] at hchain
    obtain ⟨hadj, hchain'⟩ := hchain
    rw [List.getLast?_cons_cons] at hlast
    by_cases hax : a = x
    · subst hax
      exact ih a b qa ha ⟨hchain', hlast⟩
    · obtain ⟨qx, hqx⟩ := (hclosed a x (hvisited a _ ha) hax hadj).1 qa ha
      exact ih x b qx hqx ⟨hchain', hlast⟩

theorem final_walk_bound {dist : Coordinate → Coordinate → ℚ} {g : Graph} {src : Coordinate}
    {P : Prop} {W : ℚ} (hP : P)
    (hw : g.weighted) {st : SearchState} (hI : Inv dist g src P W st)
    (hempty : st.next_heap = []) (l : List Coordinate) :
    ∀ (a b : Coordinate) (qa : ℚ), st.tentative_distance a = some (Double.fin qa) →
      g.is_walk dist a b l →
      ∃ q cst, st.tentative_distance b = some (Double.fin q) ∧ g.cost l = Double.fin cst ∧
        q ≤ qa + cst := by
  obtain ⟨⟨M, hC⟩, hclosed⟩ := hI
  have hvisited : ∀ c x, st.tentative_distance c = some x → st.unvisited c = false := by
    intro c x hx
    by_contra hU
    simp only [Bool.not_eq_false] at hU
    have := hC.heap_complete c x hx hU
    rw [hempty] at this
    simp at this
  induction l with
  | nil =>
    intro a b qa ha hwalk
    obtain ⟨-, hlast⟩ := hwalk
    simp only [List.getLast?_singleton, Option.some.injEq] at hlast
    subst hlast
    exact ⟨qa, 0, ha, rfl, by linarith⟩
  | cons x l' ih =>
    intro a b qa ha hwalk
    obtain ⟨hchain, hlast⟩ := hwalk
    rw [List.chain_cons] at hchain
    obtain ⟨hadj, hchain'⟩ := hchain
    rw [List.getLast?_cons_cons] at hlast
    obtain ⟨wx, hwx, hwx1⟩ := hw x (adjacent_true hadj).2.1
    have hcost : ∀ cst, g.cost l' = Double.fin cst → g.cost (x :: l') = Double.fin (wx + cst) := by
      intro cst hc
      simp only [Graph.cost, List.foldr_cons] at hc ⊢
      rw [hc, hwx]
      rfl
    by_cases hax : a = x
    · subst hax
      obtain ⟨q, cst, hq, hc, hle⟩ := ih a b qa ha ⟨hchain', hlast⟩
      exact ⟨q, wx + cst, hq, hcost cst hc, by linarith⟩
    · obtain ⟨qx, hqx, hqxle⟩ := (hclosed a x (hvisited a _ ha) hax hadj).2 hP qa wx ha hwx
      obtain ⟨q, cst, hq, hc, hle⟩ := ih x b qx hqx ⟨hchain', hlast⟩
      exact ⟨q, wx + cst, hq, hcost cst hc, by linarith⟩

theorem rank_lt_length (g : Graph) (td : Map Double) (c : Coordinate) (q : ℚ)
    (hc : c ∈ g.coords) (hq : td c = some (Double.fin q)) : rank g td q < g.data.length := by
  unfold rank
  have hss : g.coords.toFinset.filter (fun v =>
      (match td v with
        | some (Double.fin x) => decide (x < q)
        | _ => false) = true) ⊂ g.coords.toFinset := by
    rw [Finset.ssubset_iff_of_subset (Finset.filter_subset _ _)]
    refine ⟨c, by simpa using hc, ?_⟩
    simp [hq]
  calc _ < g.coords.toFinset.card := Finset.card_lt_card hss
    _ ≤ g.coords.length := List.toFinset_card_le _
    _ = g.data.length := by simp [Graph.coords]

theorem rank_lt_rank (g : Graph) (td : Map Double) (p : Coordinate) (qp q : ℚ)
    (hp : p ∈ g.coords) (hqp : td p = some (Double.fin qp)) (hlt : qp < q) :
    rank g td qp < rank g td q := by
  unfold rank
  apply Finset.card_lt_card
  rw [Finset.ssubset_iff_of_subset]
  · refine ⟨p, ?_, ?_⟩
    · simp [hp, hqp, hlt]
    · simp [hqp]
  · intro v hv
    simp only [Finset.mem_filter, List.mem_toFinset] at hv ⊢
    refine ⟨hv.1, ?_⟩
    obtain ⟨-, hv2⟩ := hv
    split at hv2
    · next x hx =>
      simp only [decide_eq_true_eq] at hv2 ⊢
      linarith
    · exact Bool.noConfusion hv2

theorem reconstruct_ok {dist : Coordinate → Coordinate → ℚ} {g : Graph} {src : Coordinate}
    {P : Prop} {W : ℚ}
    (hw : g.weighted) {U : CoordSet} {td : Map Double} {bm : Map Coordinate}
    {H : PriorityHeap} {M : ℤ} (hC : Core dist g src P W U td bm H M) (fuel : ℕ) :
    ∀ (c : Coordinate) (q : ℚ) (acc : List Location), td c = some (Double.fin q) →
      rank g td q < fuel →
      ∃ path, reconstruct g src fuel bm c acc = .ok (path ++ acc) ∧
        BackPath dist g src c path q := by
  induction fuel with
  | zero =>
    intro c q acc _ h
    exact absurd h (Nat.not_lt_zero _)
  | succ fuel ih =>
    intro c q acc hq hrank
    obtain ⟨hcV, -⟩ := hC.dist_fin c _ hq
    obtain ⟨loc, hloc⟩ := (contains_iff_find g c).mp ((contains_iff_mem_coords g c).mpr hcV)
    by_cases hc : c = src
    · subst hc
      rw [hC.src_dist] at hq
      injection hq with hq
      injection hq with hq
      subst hq
      refine ⟨[loc], ?_, BackPath.base loc hloc⟩
      simp [reconstruct, hloc]
    · obtain ⟨p, qp, wc, hbm, -, hqp, hwc, hqeq, hpc, hadj⟩ := hC.back c q hq hc
      obtain ⟨hpV, -⟩ := hC.dist_fin p _ hqp
      obtain ⟨w, hw1, hw2⟩ := hw c hcV
      rw [hw1] at hwc
      injection hwc with hwc
      subst hwc
      have hlt : qp < q := by linarith
      have hr : rank g td qp < fuel :=
        Nat.lt_of_lt_of_le (rank_lt_rank g td p qp q hpV hqp hlt) (Nat.le_of_lt_succ hrank)
      obtain ⟨path, hrun, hpath⟩ := ih p qp (loc :: acc) hqp hr
      refine ⟨path ++ [loc], ?_, ?_⟩
      · simp only [reconstruct, ne_eq, hc, not_false_eq_true, if_true, hloc,
          index_of_some bm c Coordinate.zero p hbm]
        rw [hrun]
        simp
      · rw [hqeq]
        exact BackPath.step p c path loc qp w hpath hloc hpc hadj hw1

/-! ## The reconstructed path -/

theorem chain_snoc {α : Type} (R : α → α → Prop) (l : List α) :
    ∀ (a b c : α), List.Chain R a l → (a :: l).getLast? = some b → R b c →
      List.Chain R a (l ++ [c]) := by
  induction l with
  | nil =>
    intro a b c _ hlast hR
    simp only [List.getLast?_singleton, Option.some.injEq] at hlast
    subst hlast
    exact List.Chain.cons hR List.Chain.nil
  | cons x l' ih =>
    intro a b c hchain hlast hR
    rw [List.chain_cons] at hchain
    rw [List.getLast?_cons_cons] at hlast
    exact List.Chain.cons hchain.1 (ih x b c hchain.2 hlast hR)

theorem getLast?_snoc {α : Type} (a c : α) (l : List α) :
    (a :: (l ++ [c])).getLast? = some c := by
  rw [← List.cons_append, List.getLast?_append]
  simp

theorem cost_cons (g : Graph) (x : Coordinate) (l : List Coordinate) :
    g.cost (x :: l) = (g.weight x).add (g.cost l) := rfl

theorem add_eq_fin {a b : Double} {q : ℚ} (h : a.add b = Double.fin q) :
    ∃ x y, a = Double.fin x ∧ b = Double.fin y ∧ q = x + y := by
  cases a with
  | nan => simp [Double.add] at h
  | fin x =>
    cases b with
    | nan => simp [Double.add] at h
    | fin y =>
      simp only [Double.add] at h
      injection h with h
      exact ⟨x, y, rfl, rfl, h.symm⟩

theorem cost_snoc (g : Graph) (c : Coordinate) (w : ℚ) (hw : g.weight c = Double.fin w)
    (l : List Coordinate) :
    ∀ q, g.cost l = Double.fin q → g.cost (l ++ [c]) = Double.fin (w + q) := by
  induction l with
  | nil =>
    intro q hq
    simp only [Graph.cost, List.foldr_nil] at hq
    injection hq with hq
    subst hq
    simp [Graph.cost, hw, Double.add]
  | cons x l' ih =>
    intro q hq
    rw [cost_cons] at hq
    obtain ⟨wx, ql, hx, hl, rfl⟩ := add_eq_fin hq
    rw [List.cons_append, cost_cons, ih ql hl, hx]
    simp only [Double.add]
    congr 1
    ring

theorem backpath_walk {dist : Coordinate → Coordinate → ℚ} {g : Graph} {src c : Coordinate}
    {path : List Location} {q : ℚ} (h : BackPath dist g src c path q) :
    ∃ l, path.map (fun loc => loc.coord) = src :: l ∧
      List.Chain (fun x y => x ≠ y ∧ g.adjacent dist x y = true) src l ∧
      (src :: l).getLast? = some c ∧ g.cost l = Double.fin q := by
  induction h with
  | base loc hloc =>
    refine ⟨[], ?_, List.Chain.nil, rfl, rfl⟩
    simp [(find_some_mem g src loc hloc).2]
  | step p c path loc qp wc _ hloc hpc hadj hwc ih =>
    obtain ⟨l, hmap, hchain, hlast, hcost⟩ := ih
    refine ⟨l ++ [c], ?_, chain_snoc _ l src p c hchain hlast ⟨hpc, hadj⟩,
      getLast?_snoc src c l, cost_snoc g c wc hwc l qp hcost⟩
    simp [hmap, (find_some_mem g c loc hloc).2]

theorem backpath_ends {dist : Coordinate → Coordinate → ℚ} {g : Graph} {src c : Coordinate}
    {path : List Location} {q : ℚ} (h : BackPath dist g src c path q) :
    ∃ first last, g.find src = some first ∧ g.find c = some last ∧
      path.head? = some first ∧ path.getLast? = some last := by
  induction h with
  | base loc hloc => exact ⟨loc, loc, hloc, hloc, rfl, rfl⟩
  | step p c path loc qp wc _ hloc _ _ _ ih =>
    obtain ⟨first, last, h1, -, h3, -⟩ := ih
    refine ⟨first, loc, h1, hloc, ?_, by simp⟩
    cases path with
    | nil => simp at h3
    | cons x xs => simpa using h3

theorem shortest_path_run (dist : Coordinate → Coordinate → ℚ) (g : Graph) (hw : g.weighted)
    (P : Prop) (W : ℚ) (hb : P → g.bounded W)
    (fuel : ℕ) (source sink src snk : Coordinate)
    (hsrc : closest_point dist source g.coords = some src)
    (hsnk : closest_point dist sink g.coords = some snk)
    (hreach : g.reachable dist src snk) (hfuel : g.data.length < fuel) :
    ∃ path q, g.shortest_path dist fuel source sink = .ok path ∧
      BackPath dist g src snk path q ∧
      (P → ∀ l, g.is_walk dist src snk l → ∃ cst, g.cost l = Double.fin cst ∧ q ≤ cst) := by
  have hsrcV : src ∈ g.coords := closest_point_mem dist source src _ hsrc
  obtain ⟨st, final, hinit, hloop, hI, hempty⟩ :=
    search_ok dist g hw P W hb src hsrcV fuel hfuel
  have hI' := hI
  obtain ⟨⟨M, hC⟩, -⟩ := hI'
  obtain ⟨l0, hl0⟩ := hreach
  obtain ⟨q, hq⟩ := final_walk_reach hI hempty l0 src snk 0 hC.src_dist hl0
  have hsnkV : snk ∈ g.coords := (hC.dist_fin snk _ hq).1
  obtain ⟨path, hrun, hpath⟩ := reconstruct_ok hw hC fuel snk q [] hq
    (Nat.lt_trans (rank_lt_length g _ snk q hsnkV hq) hfuel)
  refine ⟨path, q, ?_, hpath, ?_⟩
  · simp only [Graph.shortest_path, hsrc, hsnk, hinit, hloop, hrun, List.append_nil]
  · intro hP l hl
    obtain ⟨q', cst, hq', hcst, hle⟩ :=
      final_walk_bound hP hw hI hempty l src snk 0 hC.src_dist hl
    rw [hq] at hq'
    injection hq' with hq'
    injection hq' with hq'
    subst hq'
    exact ⟨cst, hcst, by linarith⟩

theorem shortest_path_same (dist : Coordinate → Coordinate → ℚ) (g : Graph) (hw : g.weighted)
    (fuel : ℕ) (source sink c : Coordinate)
    (hsrc : closest_point dist source g.coords = some c)
    (hsnk : closest_point dist sink g.coords = some c) (hfuel : g.data.length < fuel) :
    ∃ loc, g.find c = some loc ∧ g.shortest_path dist fuel source sink = .ok [loc] := by
  have hcV : c ∈ g.coords := closest_point_mem dist source c _ hsrc
  obtain ⟨st, final, hinit, hloop, -, -⟩ :=
    search_ok dist g hw False 0 (fun h => h.elim) c hcV fuel hfuel
  obtain ⟨loc, hloc⟩ := (contains_iff_find g c).mp ((contains_iff_mem_coords g c).mpr hcV)
  refine ⟨loc, hloc, ?_⟩
  obtain ⟨k, rfl⟩ : ∃ k, fuel = k + 1 := ⟨fuel - 1, by omega⟩
  simp only [Graph.shortest_path, hsrc, hsnk, hinit, hloop]
  simp [reconstruct, hloc]

/-! ## Facts about the example graphs -/

theorem pair_closest_zero :
    closest_point grid_distance Coordinate.zero (Graph.new pair_data 2).coords
      = some Coordinate.zero := by
  simp [closest_point, Graph.coords, pair_data, Graph.new, grid_distance, Coordinate.zero,
    Coordinate.north]

theorem pair_closest_north :
    closest_point grid_distance Coordinate.north (Graph.new pair_data 2).coords
      = some Coordinate.north := by
  simp [closest_point, Graph.coords, pair_data, Graph.new, grid_distance, Coordinate.zero,
    Coordinate.north]

theorem pair_reachable :
    (Graph.new pair_data 2).reachable grid_distance Coordinate.zero Coordinate.north := by
  refine ⟨[Coordinate.north], List.Chain.cons ?_ List.Chain.nil, rfl⟩
  simp [Graph.adjacent, Graph.contains, Graph.find, pair_data, Graph.new, grid_distance,
    Coordinate.zero, Coordinate.north]

theorem initial_state_eq (coords : List Coordinate) (src : Coordinate) :
    initial_state coords src = .ok
      { unvisited := CoordSet.of_list coords
        tentative_distance := Map.insert Map.empty src (Double.fin 0)
        back_map := Map.insert Map.empty src src
        next_heap := [(src, 0)] } := by
  simp [initial_state, PriorityHeap.push]

theorem search_isolated (dist : Coordinate → Coordinate → ℚ) (g : Graph) (src : Coordinate)
    (fuel : ℕ)
    (h : g.coords.filter (is_neighbor dist g (CoordSet.of_list g.coords) src) = []) :
    search_loop dist g (fuel + 2)
      { unvisited := CoordSet.of_list g.coords
        tentative_distance := Map.insert Map.empty src (Double.fin 0)
        back_map := Map.insert Map.empty src src
        next_heap := [(src, 0)] } = .ok
      { unvisited := (CoordSet.of_list g.coords).erase src
        tentative_distance := Map.insert Map.empty src (Double.fin 0)
        back_map := Map.insert Map.empty src src
        next_heap := [] } := by
  simp [search_loop, PriorityHeap.empty, PriorityHeap.pop, PriorityHeap.min_entry, h,
    for_each_neighbor]

theorem walk_isolated (dist : Coordinate → Coordinate → ℚ) (g : Graph) (a : Coordinate)
    (h : ∀ x, g.adjacent dist a x = true → x = a) (l : List Coordinate) :
    List.Chain (fun x y => g.adjacent dist x y = true) a l → (a :: l).getLast? = some a := by
  induction l with
  | nil => intro _; rfl
  | cons x l' ih =>
    intro hchain
    rw [List.chain_cons] at hchain
    have hx := h x hchain.1
    subst hx
    rw [List.getLast?_cons_cons]
    exact ih hchain.2

theorem split_closest_zero :
    closest_point grid_distance Coordinate.zero (Graph.new split_data 1).coords
      = some Coordinate.zero := by
  simp [closest_point, Graph.coords, split_data, Graph.new, grid_distance, Coordinate.zero,
    Coordinate.far]

theorem split_closest_far :
    closest_point grid_distance Coordinate.far (Graph.new split_data 1).coords
      = some Coordinate.far := by
  simp [closest_point, Graph.coords, split_data, Graph.new, grid_distance, Coordinate.zero,
    Coordinate.far]

theorem split_isolated :
    (Graph.new split_data 1).coords.filter
      (is_neighbor grid_distance (Graph.new split_data 1)
        (CoordSet.of_list (Graph.new split_data 1).coords) Coordinate.zero) = [] := by
  simp [Graph.coords, split_data, Graph.new, is_neighbor, Graph.adjacent, grid_distance,
    Coordinate.zero, Coordinate.far]

theorem split_unreachable :
    ¬ (Graph.new split_data 1).reachable grid_distance Coordinate.zero Coordinate.far := by
  rintro ⟨l, hchain, hlast⟩
  have h := walk_isolated grid_distance (Graph.new split_data 1) Coordinate.zero (by
      intro x hx
      obtain ⟨-, hxV, hd⟩ := adjacent_true hx
      simp only [Graph.coords, split_data, Graph.new, List.map_cons, List.map_nil,
        List.mem_cons, List.mem_singleton, List.not_mem_nil, or_false] at hxV
      rcases hxV with rfl | rfl
      · rfl
      · exfalso
        simp [grid_distance, Coordinate.zero, Coordinate.far, Graph.new] at hd) l hchain
  rw [h] at hlast
  simp [Coordinate.zero, Coordinate.far] at hlast

theorem pair_neighbors :
    (Graph.new pair_data 2).coords.filter
      (is_neighbor grid_distance (Graph.new pair_data 2)
        (CoordSet.of_list (Graph.new pair_data 2).coords) Coordinate.zero)
      = [Coordinate.north] := by
  simp [Graph.coords, pair_data, Graph.new, is_neighbor, Graph.adjacent, Graph.contains,
    Graph.find, grid_distance, CoordSet.of_list, Coordinate.zero, Coordinate.north]

/-! ## The chain of three samples -/

theorem unsigned_three_halves : unsigned_of_double (3 / 2) = 1 := by
  have h : ⌊(3 / 2 : ℚ)⌋ = 1 := by
    rw [Int.floor_eq_iff]
    norm_num
  simp [unsigned_of_double, h]

theorem chain_max_depth (c1 c2 c3 : Coordinate) : max_depth_of (chain_data c1 c2 c3) = 50 := by
  simp only [max_depth_of, chain_data, List.foldl_cons, List.foldl_nil]
  rw [max_eq_right (by norm_num : (0 : ℚ) ≤ 10), max_eq_right (by norm_num : (10 : ℚ) ≤ 50),
    max_eq_left (by norm_num : (10 : ℚ) ≤ 50)]

theorem collinear_distinct {dist : Coordinate → Coordinate → ℚ} {c1 c2 c3 : Coordinate}
    (h : collinear_unit dist c1 c2 c3) : c1 ≠ c2 ∧ c1 ≠ c3 ∧ c2 ≠ c3 := by
  obtain ⟨h11, h12, h13, h21, h22, h23, h31, h32, h33⟩ := h
  refine ⟨?_, ?_, ?_⟩
  · rintro rfl
    rw [h11] at h12
    norm_num at h12
  · rintro rfl
    rw [h11] at h13
    norm_num at h13
  · rintro rfl
    rw [h22] at h23
    norm_num at h23

theorem chain_coords (c1 c2 c3 : Coordinate) (r : ℕ) :
    (Graph.new (chain_data c1 c2 c3) r).coords = [c1, c2, c3] := rfl

theorem chain_find {dist : Coordinate → Coordinate → ℚ} {c1 c2 c3 : Coordinate}
    (h : collinear_unit dist c1 c2 c3) (r : ℕ) :
    (Graph.new (chain_data c1 c2 c3) r).find c1 = some { coord := c1, depth := 10 } ∧
    (Graph.new (chain_data c1 c2 c3) r).find c2 = some { coord := c2, depth := 50 } ∧
    (Graph.new (chain_data c1 c2 c3) r).find c3 = some { coord := c3, depth := 10 } := by
  obtain ⟨h12, h13, h23⟩ := collinear_distinct h
  refine ⟨?_, ?_, ?_⟩
  · simp [Graph.find, Graph.new, chain_data]
  · simp [Graph.find, Graph.new, chain_data, h12]
  · simp [Graph.find, Graph.new, chain_data, h13, h23]

theorem chain_weight {dist : Coordinate → Coordinate → ℚ} {c1 c2 c3 : Coordinate}
    (h : collinear_unit dist c1 c2 c3) (r : ℕ) :
    (Graph.new (chain_data c1 c2 c3) r).weight c2 = Double.fin 1 ∧
    (Graph.new (chain_data c1 c2 c3) r).weight c3 = Double.fin 41 := by
  obtain ⟨-, hf2, hf3⟩ := chain_find h r
  constructor
  · unfold Graph.weight
    rw [hf2]
    simp only [Graph.new, chain_max_depth]
    norm_num
  · unfold Graph.weight
    rw [hf3]
    simp only [Graph.new, chain_max_depth]
    norm_num

theorem chain_closest {dist : Coordinate → Coordinate → ℚ} {c1 c2 c3 : Coordinate}
    (h : collinear_unit dist c1 c2 c3) (r : ℕ) :
    closest_point dist c1 (Graph.new (chain_data c1 c2 c3) r).coords = some c1 ∧
    closest_point dist c3 (Graph.new (chain_data c1 c2 c3) r).coords = some c3 := by
  obtain ⟨h11, h12, h13, h21, h22, h23, h31, h32, h33⟩ := h
  rw [chain_coords]
  constructor
  · norm_num [closest_point, h11, h12, h13]
  · norm_num [closest_point, h31, h32, h33]

theorem chain_adjacent {dist : Coordinate → Coordinate → ℚ} {c1 c2 c3 : Coordinate}
    (h : collinear_unit dist c1 c2 c3) :
    (Graph.new (chain_data c1 c2 c3) 2).adjacent dist c1 c2 = true ∧
    (Graph.new (chain_data c1 c2 c3) 2).adjacent dist c2 c3 = true ∧
    (Graph.new (chain_data c1 c2 c3) 2).adjacent dist c1 c3 = false := by
  obtain ⟨hf1, hf2, hf3⟩ := chain_find h 2
  obtain ⟨h11, h12, h13, h21, h22, h23, h31, h32, h33⟩ := h
  refine ⟨?_, ?_, ?_⟩
  · unfold Graph.adjacent Graph.contains
    rw [hf1, hf2, h12]
    norm_num [Graph.new]
  · unfold Graph.adjacent Graph.contains
    rw [hf2, hf3, h23]
    norm_num [Graph.new]
  · unfold Graph.adjacent Graph.contains
    rw [hf1, hf3, h13]
    norm_num [Graph.new]

theorem backpath_nonneg {dist : Coordinate → Coordinate → ℚ} {g : Graph} (hw : g.weighted)
    {src c : Coordinate} {path : List Location} {q : ℚ} (h : BackPath dist g src c path q) :
    0 ≤ q ∧ (q ≤ 0 → c = src ∧ ∃ loc, g.find src = some loc ∧ path = [loc]) := by
  induction h with
  | base loc hloc => exact ⟨le_refl _, fun _ => ⟨rfl, loc, hloc, rfl⟩⟩
  | step p c path loc qp wc _ _ _ hadj hwc ih =>
    obtain ⟨w, hw1, hw2⟩ := hw c (adjacent_true hadj).2.1
    rw [hw1] at hwc
    injection hwc with hwc
    subst hwc
    exact ⟨by linarith [ih.1], fun hle => absurd hle (by linarith [ih.1])⟩

theorem chain_path {dist : Coordinate → Coordinate → ℚ} {c1 c2 c3 : Coordinate}
    (h : collinear_unit dist c1 c2 c3) {path : List Location} {q : ℚ}
    (hpath : BackPath dist (Graph.new (chain_data c1 c2 c3) 2) c1 c3 path q) (hq : q ≤ 42) :
    path = chain_data c1 c2 c3 := by
  obtain ⟨h12, h13, h23⟩ := collinear_distinct h
  obtain ⟨hf1, hf2, hf3⟩ := chain_find h 2
  obtain ⟨hw2, hw3⟩ := chain_weight h 2
  obtain ⟨ha12, ha23, ha13⟩ := chain_adjacent h
  have hw := new_weighted (chain_data c1 c2 c3) 2
  cases hpath with
  | base loc hloc => exact absurd rfl h13
  | step p _ path' loc qp wc hp hloc hpc hadj hwc =>
    rw [hf3] at hloc
    rw [hw3] at hwc
    injection hloc with hloc
    injection hwc with hwc
    subst hloc hwc
    have hpV := (adjacent_true hadj).1
    rw [chain_coords] at hpV
    simp only [List.mem_cons, List.mem_singleton, List.not_mem_nil, or_false] at hpV
    rcases hpV with rfl | rfl | rfl
    · rw [ha13] at hadj
      exact Bool.noConfusion hadj
    · cases hp with
      | base loc hloc => exact absurd rfl h12
      | step p' _ path'' loc' qp' wc' hp' hloc' hpc' hadj' hwc' =>
        rw [hf2] at hloc'
        rw [hw2] at hwc'
        injection hloc' with hloc'
        injection hwc' with hwc'
        subst hloc' hwc'
        obtain ⟨h0, hzero⟩ := backpath_nonneg hw hp'
        obtain ⟨-, loc1, hloc1, rfl⟩ := hzero (by linarith)
        rw [hf1] at hloc1
        injection hloc1 with hloc1
        subst hloc1
        rfl
    · exact absurd rfl hpc

theorem chain_reachable {dist : Coordinate → Coordinate → ℚ} {c1 c2 c3 : Coordinate}
    (h : collinear_unit dist c1 c2 c3) :
    (Graph.new (chain_data c1 c2 c3) 2).is_walk dist c1 c3 [c2, c3] ∧
      (Graph.new (chain_data c1 c2 c3) 2).cost [c2, c3] = Double.fin 42 := by
  obtain ⟨ha12, ha23, -⟩ := chain_adjacent h
  obtain ⟨hw2, hw3⟩ := chain_weight h 2
  refine ⟨⟨List.Chain.cons ha12 (List.Chain.cons ha23 List.Chain.nil), rfl⟩, ?_⟩
  rw [cost_cons, cost_cons, hw2, hw3]
  simp only [Graph.cost, List.foldr_nil, Double.add]
  norm_num

theorem grid_collinear :
    collinear_unit grid_distance Coordinate.zero Coordinate.north Coordinate.north2 := by
  simp [collinear_unit, grid_distance, Coordinate.zero, Coordinate.north, Coordinate.north2]
  norm_num

theorem chain_isolated :
    (Graph.new (chain_data Coordinate.zero Coordinate.north Coordinate.north2) 1).coords.filter
      (is_neighbor grid_distance
        (Graph.new (chain_data Coordinate.zero Coordinate.north Coordinate.north2) 1)
        (CoordSet.of_list
          (Graph.new (chain_data Coordinate.zero Coordinate.north Coordinate.north2) 1).coords)
        Coordinate.zero) = [] := by
  simp [Graph.coords, chain_data, Graph.new, is_neighbor, Graph.adjacent, grid_distance,
    Coordinate.zero, Coordinate.north, Coordinate.north2]

/-! ## No coordinate occurs twice on the reconstructed path -/

theorem reconstruct_nodup {dist : Coordinate → Coordinate → ℚ} {g : Graph} {src : Coordinate}
    {P : Prop} {W : ℚ}
    (hw : g.weighted) {U : CoordSet} {td : Map Double} {bm : Map Coordinate}
    {H : PriorityHeap} {M : ℤ} (hC : Core dist g src P W U td bm H M) (fuel : ℕ) :
    ∀ (c : Coordinate) (q : ℚ) (acc : List Location), td c = some (Double.fin q) →
      rank g td q < fuel →
      ∃ path, reconstruct g src fuel bm c acc = .ok (path ++ acc) ∧
        (∀ loc, loc ∈ path → ∃ x, td loc.coord = some (Double.fin x) ∧ x ≤ q) ∧
        (path.map (fun loc => loc.coord)).Nodup := by
  induction fuel with
  | zero =>
    intro c q acc _ h
    exact absurd h (Nat.not_lt_zero _)
  | succ fuel ih =>
    intro c q acc hq hrank
    obtain ⟨hcV, -⟩ := hC.dist_fin c _ hq
    obtain ⟨loc, hloc⟩ := (contains_iff_find g c).mp ((contains_iff_mem_coords g c).mpr hcV)
    have hlc : loc.coord = c := (find_some_mem g c loc hloc).2
    by_cases hc : c = src
    · subst hc
      refine ⟨[loc], ?_, ?_, by simp⟩
      · simp [reconstruct, hloc]
      · intro l hl
        simp only [List.mem_singleton] at hl
        subst hl
        exact ⟨q, by rw [hlc]; exact hq, le_refl _⟩
    · obtain ⟨p, qp, wc, hbm, -, hqp, hwc, hqeq, -, -⟩ := hC.back c q hq hc
      obtain ⟨hpV, -⟩ := hC.dist_fin p _ hqp
      obtain ⟨w, hw1, hw2⟩ := hw c hcV
      rw [hw1] at hwc
      injection hwc with hwc
      subst hwc
      have hlt : qp < q := by linarith
      have hr : rank g td qp < fuel :=
        Nat.lt_of_lt_of_le (rank_lt_rank g td p qp q hpV hqp hlt) (Nat.le_of_lt_succ hrank)
      obtain ⟨path, hrun, hbound, hnd⟩ := ih p qp (loc :: acc) hqp hr
      refine ⟨path ++ [loc], ?_, ?_, ?_⟩
      · simp only [reconstruct, ne_eq, hc, not_false_eq_true, if_true, hloc,
          index_of_some bm c Coordinate.zero p hbm]
        rw [hrun]
        simp
      · intro l hl
        rcases List.mem_append.mp hl with h | h
        · obtain ⟨x, hx, hxle⟩ := hbound l h
          exact ⟨x, hx, by linarith⟩
        · simp only [List.mem_singleton] at h
          subst h
          exact ⟨q, by rw [hlc]; exact hq, le_refl _⟩
      · rw [List.map_append, List.map_cons, List.map_nil, hlc]
        refine List.Nodup.append hnd (List.nodup_singleton c) ?_
        intro a ha hb
        simp only [List.mem_singleton] at hb
        subst hb
        obtain ⟨l, hl, hla⟩ := List.mem_map.mp ha
        obtain ⟨x, hx, hxle⟩ := hbound l hl
        rw [hla, hq] at hx
        injection hx with hx
        injection hx with hx
        linarith

theorem shortest_path_nodup (dist : Coordinate → Coordinate → ℚ) (g : Graph) (hw : g.weighted)
    (fuel : ℕ) (source sink src snk : Coordinate)
    (hsrc : closest_point dist source g.coords = some src)
    (hsnk : closest_point dist sink g.coords = some snk)
    (hreach : g.reachable dist src snk) (hfuel : g.data.length < fuel) :
    ∃ path, g.shortest_path dist fuel source sink = .ok path ∧
      (path.map (fun loc => loc.coord)).Nodup := by
  have hsrcV : src ∈ g.coords := closest_point_mem dist source src _ hsrc
  obtain ⟨st, final, hinit, hloop, hI, hempty⟩ :=
    search_ok dist g hw False 0 (fun h => h.elim) src hsrcV fuel hfuel
  have hI' := hI
  obtain ⟨⟨M, hC⟩, -⟩ := hI'
  obtain ⟨l0, hl0⟩ := hreach
  obtain ⟨q, hq⟩ := final_walk_reach hI hempty l0 src snk 0 hC.src_dist hl0
  have hsnkV : snk ∈ g.coords := (hC.dist_fin snk _ hq).1
  obtain ⟨path, hrun, -, hnd⟩ := reconstruct_nodup hw hC fuel snk q [] hq
    (Nat.lt_trans (rank_lt_length g _ snk q hsnkV hq) hfuel)
  refine ⟨path, ?_, hnd⟩
  simp only [Graph.shortest_path, hsrc, hsnk, hinit, hloop, hrun, List.append_nil]

/-! ## The bound under which the roundings fit a `long` -/

theorem bounded_of_depths {data : List Location} {W : ℚ} (h : bounded_depths data W)
    (resolution : ℕ) : (Graph.new data resolution).bounded (max W 0) := by
  obtain ⟨hW, hn⟩ := h
  refine ⟨le_max_right W 0, ?_, ?_⟩
  · intro c w hw
    unfold Graph.weight at hw
    cases hf : (Graph.new data resolution).find c with
    | none =>
      rw [hf] at hw
      exact Double.noConfusion hw
    | some loc =>
      rw [hf] at hw
      injection hw with hw
      rw [← hw]
      exact le_trans (hW loc (find_some_mem _ _ _ hf).1) (le_max_left W 0)
  · have hcard : ((Graph.new data resolution).coords.toFinset.card : ℚ) ≤ (data.length : ℚ) := by
      have : (Graph.new data resolution).coords.toFinset.card ≤ data.length := by
        calc _ ≤ (Graph.new data resolution).coords.length := List.toFinset_card_le _
          _ = data.length := by simp [Graph.coords, Graph.new]
      exact_mod_cast this
    have hcard0 : (0 : ℚ) ≤ ((Graph.new data resolution).coords.toFinset.card : ℚ) :=
      Nat.cast_nonneg _
    unfold in_long_range at hn ⊢
    rcases le_total 0 W with h0 | h0
    · rw [max_eq_left h0]
      have := mul_le_mul_of_nonneg_right hcard h0
      linarith
    · rw [max_eq_right h0, mul_zero]
      norm_num

theorem pair_max_depth : max_depth_of pair_data = 5 := by
  simp only [max_depth_of, pair_data, List.foldl_cons, List.foldl_nil]
  norm_num

theorem pair_bounded : bounded_depths pair_data 3 := by
  refine ⟨?_, by norm_num [in_long_range, pair_data]⟩
  intro loc hloc
  rw [pair_max_depth]
  simp only [pair_data, List.mem_cons, List.mem_singleton, List.not_mem_nil, or_false]
    at hloc
  rcases hloc with rfl | rfl <;> norm_num

theorem chain_bounded (c1 c2 c3 : Coordinate) : bounded_depths (chain_data c1 c2 c3) 41 := by
  refine ⟨?_, by norm_num [in_long_range, chain_data]⟩
  intro loc hloc
  rw [chain_max_depth]
  simp only [chain_data, List.mem_cons, List.mem_singleton, List.not_mem_nil, or_false]
    at hloc
  rcases hloc with rfl | rfl | rfl <;> norm_num

/-! ## A search whose distances round out of the range of `long` -/

theorem abyss_coords (r : ℕ) : (Graph.new abyss_data r).coords
    = [Coordinate.zero, Coordinate.north, Coordinate.east, Coordinate.north_east] := rfl

theorem abyss_max_depth : max_depth_of abyss_data = 10000000000000000000 := by
  simp only [max_depth_of, abyss_data, List.foldl_cons, List.foldl_nil]
  norm_num

theorem abyss_weight (r : ℕ) :
    (Graph.new abyss_data r).weight Coordinate.north = Double.fin 1 ∧
    (Graph.new abyss_data r).weight Coordinate.east = Double.fin 10000000000000000001 ∧
    (Graph.new abyss_data r).weight Coordinate.north_east
      = Double.fin 10000000000000000001 := by
  refine ⟨?_, ?_, ?_⟩ <;>
  · simp only [Graph.weight, Graph.find, Graph.new, abyss_max_depth]
    simp [abyss_data, Coordinate.zero, Coordinate.north, Coordinate.east,
      Coordinate.north_east]
    try norm_num

theorem abyss_closest :
    closest_point grid_distance Coordinate.zero (Graph.new abyss_data 2).coords
      = some Coordinate.zero ∧
    closest_point grid_distance Coordinate.north_east (Graph.new abyss_data 2).coords
      = some Coordinate.north_east := by
  constructor <;>
  · simp [closest_point, abyss_coords, grid_distance, Coordinate.zero, Coordinate.north,
      Coordinate.east, Coordinate.north_east]
    try norm_num

theorem lround_one : (Double.fin 1).lround = 1 := by
  rw [lround_of_range 1 (by norm_num) (by unfold in_long_range; norm_num), Int.floor_eq_iff]
  norm_num

theorem lround_abyss : (Double.fin 10000000000000000001).lround = LONG_MIN ∧
    (Double.fin 20000000000000000002).lround = LONG_MIN :=
  ⟨lround_overflow _ (by norm_num) (by unfold in_long_range; norm_num),
   lround_overflow _ (by norm_num) (by unfold in_long_range; norm_num)⟩

theorem abyss_neighbors_zero :
    (Graph.new abyss_data 2).coords.filter
      (is_neighbor grid_distance (Graph.new abyss_data 2)
        (CoordSet.of_list (Graph.new abyss_data 2).coords) Coordinate.zero)
      = [Coordinate.north, Coordinate.east] := by
  simp [abyss_coords, is_neighbor, Graph.adjacent, Graph.contains, Graph.find, Graph.new,
    abyss_data, grid_distance, CoordSet.of_list, Coordinate.zero, Coordinate.north,
    Coordinate.east, Coordinate.north_east, Graph.coords]
  norm_num


theorem relax_push (g : Graph) (cur n : Coordinate) (st : SearchState) (d w : ℚ)
    (hcur : st.tentative_distance cur = some (Double.fin d))
    (hn : st.tentative_distance n = none) (hw : g.weight n = Double.fin w)
    (hfresh : n ∉ st.next_heap.map Prod.fst) :
    relax g cur st n = .ok
      { unvisited := st.unvisited
        tentative_distance := st.tentative_distance.insert n (Double.fin (w + d))
        back_map := st.back_map.insert n cur
        next_heap := st.next_heap ++ [(n, (Double.fin (w + d)).lround)] } := by
  simp only [relax, index_of_some _ _ _ _ hcur, hn, hw, Double.add,
    push_fresh _ n _ hfresh]

theorem abyss_trace_push :
    Event.push [(Coordinate.north, 1)] Coordinate.east LONG_MIN ∈
      (Graph.new abyss_data 2).shortest_path_events grid_distance 5 Coordinate.zero
        Coordinate.north_east := by
  obtain ⟨hwn, hwe, -⟩ := abyss_weight 2
  simp only [Graph.shortest_path_events, abyss_closest.1, abyss_closest.2, initial_state_eq]
  refine List.mem_cons_of_mem _ (List.mem_cons_of_mem _ ?_)
  simp only [search_loop_events, PriorityHeap.empty, List.isEmpty_cons, Bool.false_eq_true,
    if_false, PriorityHeap.pop, PriorityHeap.min_entry, List.foldl_nil, abyss_neighbors_zero]
  refine List.mem_append_left _ ?_
  simp only [for_each_neighbor_events]
  refine List.mem_append_right _ ?_
  rw [relax_push _ _ _ _ 0 1 (by simp [Map.insert]) (by
    simp [Map.insert, Map.empty, Coordinate.zero, Coordinate.north]) hwn (by simp)]
  simp only []
  refine List.mem_append_left _ ?_
  simp only [relax_events, hwe, add_zero, lround_one]
  simp [Map.index, insert_apply, Map.empty, Double.add, lround_abyss.1, Coordinate.zero,
    Coordinate.north, Coordinate.east]

/-! ## The calls of a run -/

theorem pushed_append (a b : List Event) : pushed (a ++ b) = pushed a ++ pushed b := by
  induction a with
  | nil => rfl
  | cons e rest ih =>
    cases e <;> simp [pushed, ih]

theorem relax_events_ok {dist : Coordinate → Coordinate → ℚ} {g : Graph} {src : Coordinate}
    {P : Prop} {W : ℚ}
    {U : CoordSet} {td : Map Double} {bm : Map Coordinate} {H : PriorityHeap} {M : ℤ}
    (hw : g.weighted) (hb : P → g.bounded W)
    (hC : Core dist g src P W U td bm H M) (U0 : CoordSet)
    {cur n : Coordinate} {dcur : ℚ}
    (hcur : td cur = some (Double.fin dcur)) (hUcur : U cur = false)
    (hL : Late g td H dcur) (hn2 : U n = true) :
    (∀ e, e ∈ relax_events g cur
        { unvisited := U0, tentative_distance := td, back_map := bm, next_heap := H } n →
      e.respects ∧ e.no_nan g ∧ (P → e.finite g)) ∧
    (pushed (relax_events g cur
        { unvisited := U0, tentative_distance := td, back_map := bm, next_heap := H } n)
      = if td n = none then [n] else []) := by
  have hnV : n ∈ g.coords := hC.unvisited_sub n hn2
  have hcont : g.contains n = true := (contains_iff_mem_coords g n).mpr hnV
  obtain ⟨wn, hwn, hwn1⟩ := hw n hnV
  have hd0 : 0 ≤ dcur := by
    obtain ⟨-, q, hq, hq0⟩ := hC.dist_fin cur _ hcur
    injection hq with hq
    rw [hq]
    exact hq0
  have hidx : td.index cur (Double.fin 0) = (Double.fin dcur, td) := index_of_some _ _ _ _ hcur
  have hq0 : 0 ≤ wn + dcur := by linarith
  have hfinw : (Event.weight_call n (Double.fin wn)).respects ∧
      (Event.weight_call n (Double.fin wn)).no_nan g ∧
      (P → (Event.weight_call n (Double.fin wn)).finite g) :=
    ⟨trivial, ⟨hcont, Double.noConfusion⟩, fun _ => ⟨hcont, wn, rfl⟩⟩
  have hfinr : (Event.record n (Double.fin (wn + dcur))).respects ∧
      (Event.record n (Double.fin (wn + dcur))).no_nan g ∧
      (P → (Event.record n (Double.fin (wn + dcur))).finite g) :=
    ⟨trivial, Double.noConfusion, fun _ => ⟨wn + dcur, rfl, hq0⟩⟩
  have hprio : P → (∃ q, 0 ≤ q ∧ (Double.fin (wn + dcur)).lround = (Double.fin q).lround) ∧
      0 ≤ (Double.fin (wn + dcur)).lround := by
    intro hP
    refine ⟨⟨wn + dcur, hq0, rfl⟩, lround_nonneg _ hq0 ?_⟩
    have h1 := hC.bound_vis hP cur dcur hcur hUcur
    have h2 := (hb hP).2.1 n wn hwn
    exact in_long_range_of_bound (hb hP) U (by linarith)
  cases htn : td n with
  | none =>
    have hfresh : n ∉ H.map Prod.fst := by
      intro hmem
      obtain ⟨e, he, heq⟩ := List.mem_map.mp hmem
      obtain ⟨-, q, hq, -⟩ := hC.heap_sound e.1 e.2 he
      rw [heq, htn] at hq
      exact Option.noConfusion hq
    simp only [relax_events, hidx, htn, hwn, Double.add, pushed, if_true]
    refine ⟨?_, trivial⟩
    intro e he
    simp only [List.mem_cons, List.mem_singleton, List.not_mem_nil, or_false] at he
    rcases he with rfl | rfl | rfl
    · exact hfinw
    · exact hfinr
    · exact ⟨hfresh, trivial, hprio⟩
  | some old =>
    obtain ⟨-, qo, hqo, hqo0⟩ := hC.dist_fin n old htn
    subst hqo
    have hkey : n ∈ H.map Prod.fst := hC.heap_complete n _ htn hn2
    by_cases hlt : wn + dcur < qo
    · obtain ⟨oldpr, hpo, hmemo⟩ := priority_of_mem H n hkey
      have hle : (Double.fin (wn + dcur)).lround ≤ oldpr := by
        obtain ⟨-, q, hq, hpr⟩ := hC.heap_sound n oldpr hmemo
        rw [htn] at hq
        injection hq with hq
        injection hq with hq
        subst hq
        rw [hpr]
        refine lround_le_of_lt _ _ hq0 (le_of_lt hlt) ?_
        rcases hL n oldpr qo wn hmemo htn hwn with h | h | h
        · exact Or.inl h
        · exact Or.inr (fun hr => h (in_long_range_of_le (by linarith) hr))
        · exact absurd hlt (not_lt.mpr h)
      simp only [relax_events, hidx, htn, hwn, Double.add, Double.lt, hlt, decide_True,
        if_true, pushed]
      refine ⟨?_, by simp⟩
      intro e he
      simp only [List.mem_cons, List.mem_singleton, List.not_mem_nil, or_false] at he
      rcases he with rfl | rfl | rfl
      · exact hfinw
      · exact hfinr
      · exact ⟨⟨oldpr, hpo, hle⟩, trivial, hprio⟩
    · simp only [relax_events, hidx, htn, hwn, Double.add, Double.lt, hlt, decide_False,
        pushed]
      refine ⟨?_, by simp⟩
      intro e he
      simp only [Bool.false_eq_true, if_false, List.mem_singleton] at he
      subst he
      exact hfinw

theorem for_each_neighbor_events_ok {dist : Coordinate → Coordinate → ℚ} {g : Graph}
    {src : Coordinate} {P : Prop} {W : ℚ} {U : CoordSet} {M : ℤ} (hw : g.weighted)
    (hb : P → g.bounded W) (U0 : CoordSet)
    {cur : Coordinate} {dcur : ℚ} (hUcur : U cur = false)
    (hM : M = (Double.fin dcur).lround) (L : List Coordinate) :
    ∀ (td : Map Double) (bm : Map Coordinate) (H : PriorityHeap),
      Core dist g src P W U td bm H M → Late g td H dcur → td cur = some (Double.fin dcur) →
      (∀ n, n ∈ L → n ≠ cur ∧ U n = true ∧ g.adjacent dist cur n = true) →
      ∃ td' bm' H',
        for_each_neighbor g cur L
            { unvisited := U0, tentative_distance := td, back_map := bm, next_heap := H }
          = .ok { unvisited := U0, tentative_distance := td', back_map := bm',
                  next_heap := H' } ∧
        (∀ c, td' c = none → td c = none) ∧
        TraceOK P g td (for_each_neighbor_events g cur L
          { unvisited := U0, tentative_distance := td, back_map := bm, next_heap := H }) ∧
        ∀ c, c ∈ pushed (for_each_neighbor_events g cur L
          { unvisited := U0, tentative_distance := td, back_map := bm, next_heap := H }) →
          td' c ≠ none := by
  induction L with
  | nil =>
    intro td bm H _ _ _ _
    refine ⟨td, bm, H, rfl, fun _ h => h, ⟨?_, ?_, ?_⟩, ?_⟩
    · intro e he
      simp [for_each_neighbor_events] at he
    · simp [for_each_neighbor_events, pushed]
    · intro c hc
      simp [for_each_neighbor_events, pushed] at hc
    · intro c hc
      simp [for_each_neighbor_events, pushed] at hc
  | cons n rest ih =>
    intro td bm H hC hL0 hcur hL
    obtain ⟨hn1, hn2, hadj⟩ := hL n (List.mem_cons_self _ _)
    obtain ⟨td1, bm1, H1, hrel, hC1, hL1, hvis, hmono, hedge⟩ :=
      relax_ok hw hb hC U0 hcur hUcur hM hL0 hn1 hn2 hadj
    obtain ⟨hgood, hpushed⟩ := relax_events_ok hw hb hC U0 hcur hUcur hL0 hn2
    have hcur1 : td1 cur = some (Double.fin dcur) := by
      rw [hvis cur hUcur]
      exact hcur
    have hdom1 : ∀ c, td1 c = none → td c = none := by
      intro c hc
      by_contra hne
      obtain ⟨x, hx⟩ := Option.ne_none_iff_exists'.mp hne
      obtain ⟨-, q, hq, -⟩ := hC.dist_fin c x hx
      subst hq
      obtain ⟨y, hy, -⟩ := hmono c q hx
      rw [hc] at hy
      exact Option.noConfusion hy
    have hn1some : td1 n ≠ none := by
      obtain ⟨wn, hwn, -⟩ := hw n (hC.unvisited_sub n hn2)
      obtain ⟨q, hq, -⟩ := hedge dcur wn hcur1 hwn
      rw [hq]
      exact Option.noConfusion
    obtain ⟨td', bm', H', hrun, hdom, ⟨hgood', hnd', hnone'⟩, hsome'⟩ :=
      ih td1 bm1 H1 hC1 hL1 hcur1 (fun m hm => hL m (List.mem_cons_of_mem _ hm))
    have hev : for_each_neighbor_events g cur (n :: rest)
        { unvisited := U0, tentative_distance := td, back_map := bm, next_heap := H }
        = relax_events g cur
            { unvisited := U0, tentative_distance := td, back_map := bm, next_heap := H } n ++
          for_each_neighbor_events g cur rest
            { unvisited := U0, tentative_distance := td1, back_map := bm1,
              next_heap := H1 } := by
      simp only [for_each_neighbor_events, hrel]
    refine ⟨td', bm', H', ?_, fun c hc => hdom1 c (hdom c hc), ⟨?_, ?_, ?_⟩, ?_⟩
    · simp only [for_each_neighbor, hrel]
      exact hrun
    · intro e he
      rw [hev] at he
      rcases List.mem_append.mp he with h | h
      · exact hgood e h
      · exact hgood' e h
    · rw [hev, pushed_append, hpushed]
      refine List.Nodup.append ?_ hnd' ?_
      · split_ifs <;> simp
      · intro a ha hb
        split_ifs at ha with htn
        · simp only [List.mem_singleton] at ha
          subst ha
          exact hn1some (hnone' a hb)
        · simp at ha
    · intro c hc
      rw [hev, pushed_append, hpushed] at hc
      rcases List.mem_append.mp hc with h | h
      · split_ifs at h with htn
        · simp only [List.mem_singleton] at h
          subst h
          exact htn
        · simp at h
      · exact hdom1 c (hnone' c h)
    · intro c hc
      rw [hev, pushed_append, hpushed] at hc
      rcases List.mem_append.mp hc with h | h
      · split_ifs at h with htn
        · simp only [List.mem_singleton] at h
          subst h
          exact fun hnone => hn1some (hdom c hnone)
        · simp at h
      · exact hsome' c h

theorem search_loop_events_ok {dist : Coordinate → Coordinate → ℚ} {g : Graph}
    {src : Coordinate} {P : Prop} {W : ℚ} (hw : g.weighted) (hb : P → g.bounded W)
    (fuel : ℕ) :
    ∀ st : SearchState, Inv dist g src P W st →
      TraceOK P g st.tentative_distance (search_loop_events dist g fuel st) := by
  induction fuel with
  | zero =>
    intro st _
    refine ⟨?_, ?_, ?_⟩ <;> simp [search_loop_events, pushed]
  | succ fuel ih =>
    intro st hI
    by_cases hne : st.next_heap = []
    · refine ⟨?_, ?_, ?_⟩ <;> simp [search_loop_events, PriorityHeap.empty, hne, pushed]
    · have hemp : PriorityHeap.empty st.next_heap = false := by
        cases hh : st.next_heap with
        | nil => exact absurd hh hne
        | cons _ _ => rfl
      obtain ⟨cur2, heap2, st2, hpop2, hrun2, hI2, -⟩ := step_ok hw hb st hI hne
      obtain ⟨⟨M, hC⟩, -⟩ := hI
      obtain ⟨cur, m, hpop, hmem, hmin⟩ := pop_spec st.next_heap hne
      obtain ⟨hUcur, dcur, hcur, hm⟩ := hC.heap_sound cur m hmem
      have hd0 : 0 ≤ dcur := by
        obtain ⟨-, q, hq, hq0⟩ := hC.dist_fin cur _ hcur
        injection hq with hq
        rw [hq]
        exact hq0
      have hC1 := core_pop hb hC hmem hmin hcur hm
      have hU' : (st.unvisited.erase cur) cur = false := by simp [erase_apply]
      obtain ⟨td', bm', H', hrun, hdom, ⟨hgood, hnd, hnone⟩, hsome⟩ :=
        for_each_neighbor_events_ok hw hb st.unvisited hU' hm
          (g.coords.filter (is_neighbor dist g st.unvisited cur))
          st.tentative_distance st.back_map _ hC1 (late_pop hC hmin hd0 hm) hcur
          (by
            intro n hn
            obtain ⟨-, hnb⟩ := List.mem_filter.mp hn
            simp only [is_neighbor, Bool.and_eq_true, decide_eq_true_eq] at hnb
            obtain ⟨⟨h1, h2⟩, h3⟩ := hnb
            refine ⟨fun h => h1 h.symm, ?_, h2⟩
            rw [erase_apply, if_neg (fun h => h1 h.symm)]
            exact h3)
      rw [hpop] at hpop2
      injection hpop2 with hpop2
      injection hpop2 with hc2 hh2
      subst hc2 hh2
      rw [hrun] at hrun2
      injection hrun2 with hrun2
      subst hrun2
      obtain ⟨hgood', hnd', hnone'⟩ := ih _ hI2
      have hev : search_loop_events dist g (fuel + 1) st
          = for_each_neighbor_events g cur
              (g.coords.filter (is_neighbor dist g st.unvisited cur))
              { unvisited := st.unvisited, tentative_distance := st.tentative_distance,
                back_map := st.back_map,
                next_heap := st.next_heap.filter (fun x => decide (x.1 ≠ cur)) } ++
            search_loop_events dist g fuel
              { unvisited := st.unvisited.erase cur, tentative_distance := td',
                back_map := bm', next_heap := H' } := by
        simp only [search_loop_events, hemp, hpop, hrun]
        rfl
      rw [hev]
      refine ⟨?_, ?_, ?_⟩
      · intro e he
        rcases List.mem_append.mp he with h | h
        · exact hgood e h
        · exact hgood' e h
      · rw [pushed_append]
        refine List.Nodup.append hnd hnd' ?_
        intro a ha hb
        exact hsome a ha (hnone' a hb)
      · intro c hc
        rw [pushed_append] at hc
        rcases List.mem_append.mp hc with h | h
        · exact hnone c h
        · exact hdom c (hnone' c h)

theorem shortest_path_events_ok (dist : Coordinate → Coordinate → ℚ) (g : Graph)
    (hw : g.weighted) (P : Prop) (W : ℚ) (hb : P → g.bounded W)
    (fuel : ℕ) (source sink : Coordinate) :
    (∀ e, e ∈ g.shortest_path_events dist fuel source sink →
        e.respects ∧ e.no_nan g ∧ (P → e.finite g)) ∧
      (pushed (g.shortest_path_events dist fuel source sink)).Nodup := by
  unfold Graph.shortest_path_events
  cases hsrc : closest_point dist source g.coords with
  | none => simp [pushed]
  | some src =>
    cases hsnk : closest_point dist sink g.coords with
    | none => simp [pushed]
    | some snk =>
      have hsrcV : src ∈ g.coords := closest_point_mem dist source src _ hsrc
      obtain ⟨st, hst, hI⟩ := initial_inv dist g src P W hsrcV
      have hst' := hst
      rw [initial_state_eq] at hst'
      injection hst' with hst'
      obtain ⟨hgood, hnd, hnone⟩ := search_loop_events_ok hw hb fuel st hI
      simp only [hst]
      constructor
      · intro e he
        simp only [List.mem_cons] at he
        rcases he with rfl | rfl | h
        · exact ⟨trivial, Double.noConfusion, fun _ => ⟨0, rfl, le_refl _⟩⟩
        · refine ⟨?_, trivial, fun _ => ⟨⟨0, le_refl _, lround_zero.symm⟩, le_refl _⟩⟩
          simp [Event.respects]
        · exact hgood e h
      · simp only [pushed]
        refine List.nodup_cons.mpr ⟨?_, hnd⟩
        intro hmem
        have := hnone src hmem
        rw [← hst'] at this
        simp [insert_apply] at this

theorem pair_trace_weight_call :
    Event.weight_call Coordinate.north ((Graph.new pair_data 2).weight Coordinate.north) ∈
      (Graph.new pair_data 2).shortest_path_events grid_distance 3 Coordinate.zero
        Coordinate.north := by
  simp only [Graph.shortest_path_events, pair_closest_zero, pair_closest_north,
    initial_state_eq]
  refine List.mem_cons_of_mem _ (List.mem_cons_of_mem _ ?_)
  simp only [search_loop_events, PriorityHeap.empty, List.isEmpty_cons, Bool.false_eq_true,
    if_false, PriorityHeap.pop, PriorityHeap.min_entry, List.foldl_nil, pair_neighbors]
  simp only [for_each_neighbor_events, relax_events]
  exact List.mem_append_left _ (List.mem_append_left _ (List.mem_cons_self _ _))

/-! ## The cached maximum depth -/

theorem foldl_max_attained (v : List Location) (a : ℚ) :
    v.foldl (fun acc val => max acc val.depth) a = a ∨
      ∃ loc, loc ∈ v ∧ loc.depth = v.foldl (fun acc val => max acc val.depth) a := by
  induction v generalizing a with
  | nil => exact Or.inl rfl
  | cons x xs ih =>
    simp only [List.foldl_cons, List.mem_cons]
    rcases ih (max a x.depth) with h | ⟨loc, hloc, heq⟩
    · rcases le_total a x.depth with hle | hle
      · right
        refine ⟨x, Or.inl rfl, ?_⟩
        rw [h, max_eq_right hle]
      · left
        rw [h, max_eq_left hle]
    · exact Or.inr ⟨loc, Or.inr hloc, heq⟩

theorem max_depth_of_attained (v : List Location) (h : ∃ loc, loc ∈ v ∧ 0 ≤ loc.depth) :
    ∃ loc, loc ∈ v ∧ loc.depth = max_depth_of v := by
  rcases foldl_max_attained v 0 with h0 | hatt
  · obtain ⟨loc, hloc, hnonneg⟩ := h
    refine ⟨loc, hloc, ?_⟩
    have hle := depth_le_max_depth_of v loc hloc
    unfold max_depth_of at hle ⊢
    rw [h0] at hle ⊢
    exact le_antisymm hle hnonneg
  · exact hatt

/-! ## The rounding of a number to a `double` -/

theorem round_half_even_le (x : ℚ) : (round_half_even x : ℚ) ≤ x + 1 / 2 := by
  have h1 := Int.floor_le x
  unfold round_half_even
  split_ifs with h2 h3 h4
  · linarith
  · push_cast
    have := Int.lt_floor_add_one x
    linarith
  · linarith
  · push_cast
    linarith

theorem le_round_half_even (x : ℚ) : x - 1 / 2 ≤ (round_half_even x : ℚ) := by
  have h1 := Int.floor_le x
  have h5 := Int.lt_floor_add_one x
  unfold round_half_even
  split_ifs with h2 h3 h4
  · linarith
  · push_cast
    linarith
  · linarith
  · push_cast
    linarith

theorem floor_le_round_half_even (x : ℚ) : ⌊x⌋ ≤ round_half_even x := by
  unfold round_half_even
  split_ifs <;> omega

theorem round_half_even_ge_int (x : ℚ) (k : ℤ) (h : (k : ℚ) ≤ x) : k ≤ round_half_even x :=
  le_trans (Int.le_floor.mpr h) (floor_le_round_half_even x)

theorem round_half_even_le_int (x : ℚ) (k : ℤ) (h : x ≤ (k : ℚ)) : round_half_even x ≤ k := by
  rcases eq_or_lt_of_le h with h1 | h1
  · subst h1
    simp [round_half_even]
  · have h2 : ⌊x⌋ < k := Int.floor_lt.mpr h1
    unfold round_half_even
    split_ifs <;> omega

theorem round_half_even_eq (x : ℚ) (k : ℤ) (h1 : (k : ℚ) - 1 / 2 < x) (h2 : x < k + 1 / 2) :
    round_half_even x = k := by
  have h3 : (round_half_even x : ℚ) ≤ x + 1 / 2 := round_half_even_le x
  have h4 := le_round_half_even x
  have h5 : (round_half_even x : ℚ) < (k : ℚ) + 1 := by linarith
  have h6 : (k : ℚ) - 1 < (round_half_even x : ℚ) := by linarith
  have h7 : round_half_even x < k + 1 := by exact_mod_cast h5
  have h8 : k - 1 < round_half_even x := by exact_mod_cast h6
  omega

theorem log_two_eq (a : ℚ) (e : ℤ) (h1 : (2 : ℚ) ^ e ≤ a) (h2 : a < (2 : ℚ) ^ (e + 1)) :
    Int.log 2 a = e := by
  have ha : 0 < a := lt_of_lt_of_le (by positivity) h1
  have h3 : e ≤ Int.log 2 a := by
    rw [← Int.zpow_le_iff_le_log (by norm_num) ha]
    exact_mod_cast h1
  have h4 : Int.log 2 a < e + 1 := by
    rw [← Int.lt_zpow_iff_log_lt (by norm_num) ha]
    exact_mod_cast h2
  omega

theorem log_two_spec (a : ℚ) (ha : 0 < a) :
    (2 : ℚ) ^ Int.log 2 a ≤ a ∧ a < (2 : ℚ) ^ (Int.log 2 a + 1) := by
  have h1 := Int.zpow_log_le_self (b := 2) (by norm_num) ha
  have h2 := Int.lt_zpow_succ_log_self (b := 2) (by norm_num) a
  exact ⟨by exact_mod_cast h1, by exact_mod_cast h2⟩

/-- Rounding to 53 significant binary digits does not cross a multiple of the unit in the
last place: from below. -/
theorem nearest_normal_ge (a : ℚ) (lo : ℤ)
    (hlo : (lo : ℚ) * (2 : ℚ) ^ (Int.log 2 a - 52) ≤ a) :
    (lo : ℚ) * (2 : ℚ) ^ (Int.log 2 a - 52) ≤ nearest_normal a := by
  have hu : (0 : ℚ) < (2 : ℚ) ^ (Int.log 2 a - 52) := by positivity
  unfold nearest_normal
  refine mul_le_mul_of_nonneg_right ?_ (le_of_lt hu)
  have : lo ≤ round_half_even (a / (2 : ℚ) ^ (Int.log 2 a - 52)) :=
    round_half_even_ge_int _ lo (by rw [le_div_iff₀ hu]; exact hlo)
  exact_mod_cast this

/-- Rounding to 53 significant binary digits does not cross a multiple of the unit in the
last place: from above. -/
theorem nearest_normal_le (a : ℚ) (hi : ℤ)
    (hhi : a ≤ (hi : ℚ) * (2 : ℚ) ^ (Int.log 2 a - 52)) :
    nearest_normal a ≤ (hi : ℚ) * (2 : ℚ) ^ (Int.log 2 a - 52) := by
  have hu : (0 : ℚ) < (2 : ℚ) ^ (Int.log 2 a - 52) := by positivity
  unfold nearest_normal
  refine mul_le_mul_of_nonneg_right ?_ (le_of_lt hu)
  have : round_half_even (a / (2 : ℚ) ^ (Int.log 2 a - 52)) ≤ hi :=
    round_half_even_le_int _ hi (by rw [div_le_iff₀ hu]; exact hhi)
  exact_mod_cast this

theorem nearest_normal_error (a : ℚ) :
    nearest_normal a ≤ a + (2 : ℚ) ^ (Int.log 2 a - 52) / 2 ∧
      a - (2 : ℚ) ^ (Int.log 2 a - 52) / 2 ≤ nearest_normal a := by
  have hu : (0 : ℚ) < (2 : ℚ) ^ (Int.log 2 a - 52) := by positivity
  have h1 := round_half_even_le (a / (2 : ℚ) ^ (Int.log 2 a - 52))
  have h2 := le_round_half_even (a / (2 : ℚ) ^ (Int.log 2 a - 52))
  have h3 : a / (2 : ℚ) ^ (Int.log 2 a - 52) * (2 : ℚ) ^ (Int.log 2 a - 52) = a :=
    div_mul_cancel₀ a (ne_of_gt hu)
  unfold nearest_normal
  constructor
  · nlinarith
  · nlinarith

theorem ulp_mul (e : ℤ) (n : ℕ) :
    ((2 ^ n : ℤ) : ℚ) * (2 : ℚ) ^ (e - n) = (2 : ℚ) ^ e := by
  rw [zpow_sub₀ (by norm_num), zpow_natCast]
  push_cast
  field_simp

theorem nearest_normal_binade (a : ℚ) (ha : 0 < a) :
    (2 : ℚ) ^ Int.log 2 a ≤ nearest_normal a ∧
      nearest_normal a ≤ (2 : ℚ) ^ (Int.log 2 a + 1) := by
  obtain ⟨h1, h2⟩ := log_two_spec a ha
  have e1 := ulp_mul (Int.log 2 a) 52
  have e2 : ((2 ^ 53 : ℤ) : ℚ) * (2 : ℚ) ^ (Int.log 2 a - 52)
      = (2 : ℚ) ^ (Int.log 2 a + 1) := by
    have := ulp_mul (Int.log 2 a + 1) 53
    rw [← this]
    congr 2
    push_cast
    ring
  push_cast at e1 e2
  constructor
  · have := nearest_normal_ge a (2 ^ 52) (by push_cast; rw [e1]; exact h1)
    push_cast at this
    rw [e1] at this
    exact this
  · have := nearest_normal_le a (2 ^ 53) (by push_cast; rw [e2]; exact le_of_lt h2)
    push_cast at this
    rw [e2] at this
    exact this

theorem nearest_normal_eq (a : ℚ) (e m : ℤ) (h1 : (2 : ℚ) ^ e ≤ a) (h2 : a < (2 : ℚ) ^ (e + 1))
    (h3 : (m : ℚ) - 1 / 2 < a / (2 : ℚ) ^ (e - 52))
    (h4 : a / (2 : ℚ) ^ (e - 52) < (m : ℚ) + 1 / 2) :
    nearest_normal a = (m : ℚ) * (2 : ℚ) ^ (e - 52) := by
  unfold nearest_normal
  rw [log_two_eq a e h1 h2, round_half_even_eq _ m h3 h4]

theorem to_double_zero : to_double 0 = .ok 0 := by
  simp [to_double]

theorem to_double_normal (a : ℚ) (h1 : (2 : ℚ) ^ (-1022 : ℤ) ≤ a)
    (h2 : a ≤ (2 : ℚ) ^ (1024 : ℤ) - (2 : ℚ) ^ (971 : ℤ)) :
    to_double a = .ok (nearest_normal a) := by
  have ha : 0 < a := lt_of_lt_of_le (by positivity) h1
  obtain ⟨hb1, hb2⟩ := nearest_normal_binade a ha
  have hpos : (0 : ℚ) < (2 : ℚ) ^ (971 : ℤ) := by positivity
  have he1 : (-1022 : ℤ) ≤ Int.log 2 a := by
    rw [← Int.zpow_le_iff_le_log (by norm_num) ha]
    exact_mod_cast h1
  have he2 : Int.log 2 a < 1024 := by
    rw [← Int.lt_zpow_iff_log_lt (by norm_num) ha]
    have : a < (2 : ℚ) ^ (1024 : ℤ) := by linarith
    exact_mod_cast this
  have hlow : ¬ nearest_normal a < (2 : ℚ) ^ (-1022 : ℤ) := by
    rw [not_lt]
    exact le_trans (zpow_le_zpow_right₀ (by norm_num) he1) hb1
  have hhigh : ¬ (2 : ℚ) ^ (1024 : ℤ) ≤ nearest_normal a := by
    rw [not_le]
    by_cases h : Int.log 2 a = 1023
    · have hmul : ((2 ^ 53 - 1 : ℤ) : ℚ) * (2 : ℚ) ^ (Int.log 2 a - 52)
          = (2 : ℚ) ^ (1024 : ℤ) - (2 : ℚ) ^ (971 : ℤ) := by
        have e2 := ulp_mul 1024 53
        rw [h]
        push_cast at e2 ⊢
        rw [← e2]
        ring
      have := nearest_normal_le a (2 ^ 53 - 1) (by rw [hmul]; exact h2)
      rw [hmul] at this
      linarith
    · refine lt_of_le_of_lt hb2 ?_
      exact zpow_lt_zpow_right₀ (by norm_num) (by omega)
  simp only [to_double, if_neg (ne_of_gt ha), if_neg hhigh, if_neg hlow]

theorem to_double_overflow (a : ℚ) (h : (2 : ℚ) ^ (1024 : ℤ) ≤ a) :
    to_double a = .error ParseError.out_of_range := by
  have ha : 0 < a := lt_of_lt_of_le (by positivity) h
  obtain ⟨hb1, -⟩ := nearest_normal_binade a ha
  have he : (1024 : ℤ) ≤ Int.log 2 a := by
    rw [← Int.zpow_le_iff_le_log (by norm_num) ha]
    exact_mod_cast h
  have hhigh : (2 : ℚ) ^ (1024 : ℤ) ≤ nearest_normal a :=
    le_trans (zpow_le_zpow_right₀ (by norm_num) he) hb1
  simp only [to_double, if_neg (ne_of_gt ha), if_pos hhigh]

/-- The seconds of a coordinate: a whole number `s ≤ 60` followed by a decimal fraction `f` of
at most 14 digits converts to a `double` that lies in `[s, s + 1)`. -/
theorem to_double_seconds (s : ℕ) (f : ℚ) (hs : s ≤ 60)
    (hf0 : f = 0 ∨ (1 : ℚ) / 10 ^ 14 ≤ f) (hf1 : f ≤ 1 - (1 : ℚ) / 10 ^ 14) :
    ∃ r, to_double ((s : ℚ) + f) = .ok r ∧ (s : ℚ) ≤ r ∧ r < (s : ℚ) + 1 := by
  have hs0 : (0 : ℚ) ≤ (s : ℚ) := Nat.cast_nonneg s
  have hs60 : (s : ℚ) ≤ 60 := by exact_mod_cast hs
  have hfnn : 0 ≤ f := by
    rcases hf0 with h | h
    · rw [h]
    · exact le_trans (by positivity) h
  by_cases ha0 : (s : ℚ) + f = 0
  · refine ⟨0, by rw [ha0, to_double_zero], ?_, ?_⟩ <;> linarith
  · have ha : (1 : ℚ) / 10 ^ 14 ≤ (s : ℚ) + f := by
      rcases hf0 with h | h
      · have hs1 : 1 ≤ s := by
          rcases Nat.eq_zero_or_pos s with h0 | h0
          · exfalso
            apply ha0
            rw [h, h0]
            norm_num
          · exact h0
        have : (1 : ℚ) ≤ (s : ℚ) := by exact_mod_cast hs1
        have h14 : (1 : ℚ) / 10 ^ 14 ≤ 1 := by norm_num
        linarith
      · linarith
    have hpos : 0 < (s : ℚ) + f := lt_of_lt_of_le (by positivity) ha
    have hnorm := to_double_normal ((s : ℚ) + f)
      (le_trans (by norm_num) ha) (le_trans (by linarith : (s : ℚ) + f ≤ 61) (by norm_num))
    have he : Int.log 2 ((s : ℚ) + f) < 6 := by
      rw [← Int.lt_zpow_iff_log_lt (by norm_num) hpos]
      norm_num
      linarith
    refine ⟨_, hnorm, ?_, ?_⟩
    · obtain ⟨n, hn⟩ : ∃ n : ℕ, (n : ℤ) = 52 - Int.log 2 ((s : ℚ) + f) :=
        ⟨(52 - Int.log 2 ((s : ℚ) + f)).toNat, Int.toNat_of_nonneg (by omega)⟩
      have hu : (2 : ℚ) ^ (Int.log 2 ((s : ℚ) + f) - 52) = ((2 : ℚ) ^ n)⁻¹ := by
        rw [← zpow_natCast, ← zpow_neg, hn]
        congr 1
        ring
      have hmul : (((s : ℤ) * 2 ^ n : ℤ) : ℚ) * (2 : ℚ) ^ (Int.log 2 ((s : ℚ) + f) - 52)
          = (s : ℚ) := by
        rw [hu]
        push_cast
        field_simp
      have := nearest_normal_ge ((s : ℚ) + f) ((s : ℤ) * 2 ^ n) (by
        rw [hmul]
        linarith)
      rw [hmul] at this
      exact this
    · have herr := (nearest_normal_error ((s : ℚ) + f)).1
      have hu : (2 : ℚ) ^ (Int.log 2 ((s : ℚ) + f) - 52) ≤ (2 : ℚ) ^ (-47 : ℤ) :=
        zpow_le_zpow_right₀ (by norm_num) (by omega)
      have h47 : (2 : ℚ) ^ (-47 : ℤ) / 2 < (1 : ℚ) / 10 ^ 14 := by norm_num
      have hX : (2 : ℚ) ^ (Int.log 2 ((s : ℚ) + f) - 52) / 2 < (1 : ℚ) / 10 ^ 14 :=
        lt_of_le_of_lt (div_le_div_of_nonneg_right hu (by norm_num)) h47
      linarith

/-- The conversion to `int` of a `double` in `[s, s + 1)` with `s ≤ 60` is `s`. -/
theorem to_int_between (s : ℕ) (r : ℚ) (hs : s ≤ 60) (h1 : (s : ℚ) ≤ r) (h2 : r < (s : ℚ) + 1) :
    to_int (Parsed.number r) = .ok (s : ℤ) := by
  have hr0 : (0 : ℚ) ≤ r := le_trans (Nat.cast_nonneg s) h1
  have hfl : ⌊r⌋ = (s : ℤ) := by
    rw [Int.floor_eq_iff]
    push_cast
    exact ⟨h1, h2⟩
  have hv' : ((s : ℕ) : ℤ) ≤ 2147483647 := by
    have : ((s : ℕ) : ℤ) ≤ 60 := by exact_mod_cast hs
    omega
  have hv0 : (-2147483648 : ℤ) ≤ ((s : ℕ) : ℤ) := by
    have : (0 : ℤ) ≤ ((s : ℕ) : ℤ) := Int.natCast_nonneg _
    omega
  simp only [to_int, if_pos hr0, hfl]
  simp [hv', hv0]

/-! ## Splitting a text -/

theorem find_char_lt (c : Char) (r : List Char) :
    ∀ n, find_char r c = some n → n < r.length := by
  induction r with
  | nil =>
    intro n h
    simp [find_char] at h
  | cons x xs ih =>
    intro n h
    simp only [find_char] at h
    split_ifs at h with hx
    · injection h with h
      subst h
      simp
    · cases hf : find_char xs c with
      | none => simp [hf] at h
      | some k =>
        simp only [hf, Option.map_some', Option.some.injEq] at h
        subst h
        have := ih k hf
        simp only [List.length_cons]
        omega

theorem split_spec_ne_nil (c : Char) (r : List Char) : split_spec c r ≠ [] := by
  induction r with
  | nil => simp [split_spec]
  | cons x xs ih =>
    simp only [split_spec]
    split_ifs
    · simp
    · cases h : split_spec c xs with
      | nil => exact absurd h ih
      | cons a t => simp

theorem split_spec_none (c : Char) (r : List Char) (h : find_char r c = none) :
    split_spec c r = [r] := by
  induction r with
  | nil => rfl
  | cons x xs ih =>
    simp only [find_char] at h
    split_ifs at h with hx
    have hxs : find_char xs c = none := by
      cases hf : find_char xs c with
      | none => rfl
      | some k => simp [hf] at h
    simp only [split_spec, if_neg hx, ih hxs]

theorem split_spec_some (c : Char) (r : List Char) :
    ∀ n, find_char r c = some n →
      split_spec c r = r.take n :: split_spec c (r.drop (n + 1)) := by
  induction r with
  | nil =>
    intro n h
    simp [find_char] at h
  | cons x xs ih =>
    intro n h
    simp only [find_char] at h
    split_ifs at h with hx
    · injection h with h
      subst h
      simp [split_spec, hx]
    · cases hf : find_char xs c with
      | none => simp [hf] at h
      | some k =>
        simp only [hf, Option.map_some', Option.some.injEq] at h
        subst h
        simp only [split_spec, if_neg hx, ih k hf, List.take_succ_cons, List.drop_succ_cons]

theorem split_loop_eq (s : List Char) (c : Char) (fuel : ℕ) :
    ∀ (start : ℕ) (out : List (List Char)), (s.drop start).length < fuel →
      split_loop s c fuel start (find_char (s.drop start) c) out
        = out ++ split_spec c (s.drop start) := by
  induction fuel with
  | zero =>
    intro start out h
    exact absurd h (Nat.not_lt_zero _)
  | succ fuel ih =>
    intro start out hlen
    cases hf : find_char (s.drop start) c with
    | none =>
      simp only [split_loop, split_spec_none c _ hf]
    | some n =>
      have hn := find_char_lt c _ n hf
      have hdrop : s.drop (start + n + 1) = (s.drop start).drop (n + 1) := by
        rw [List.drop_drop]
        congr 1
      simp only [split_loop]
      rw [ih (start + n + 1) _ (by
        rw [hdrop, List.length_drop]
        omega)]
      rw [split_spec_some c _ n hf, hdrop, List.append_assoc]
      rfl

theorem split_eq_spec (s : List Char) (c : Char) : utils.split s c = split_spec c s := by
  have h := split_loop_eq s c (s.length + 1) 0 [] (by simp)
  simpa [utils.split] using h

theorem split_spec_append (c : Char) (a rest : List Char) (ha : c ∉ a) :
    split_spec c (a ++ c :: rest) = a :: split_spec c rest := by
  induction a with
  | nil => simp [split_spec]
  | cons x xs ih =>
    have hx : x ≠ c := fun h => ha (by simp [h])
    have hxs : c ∉ xs := fun h => ha (List.mem_cons_of_mem _ h)
    have h := ih hxs
    show split_spec c (x :: (xs ++ c :: rest)) = (x :: xs) :: split_spec c rest
    simp only [split_spec, if_neg hx, h]

theorem split_spec_last (c : Char) (a : List Char) (ha : c ∉ a) : split_spec c a = [a] := by
  induction a with
  | nil => rfl
  | cons x xs ih =>
    have hx : x ≠ c := fun h => ha (by simp [h])
    have hxs : c ∉ xs := fun h => ha (List.mem_cons_of_mem _ h)
    simp only [split_spec, if_neg hx, ih hxs]

theorem split_three (a b d : List Char) (ha : '-' ∉ a) (hb : '-' ∉ b) (hd : '-' ∉ d) :
    utils.split (a ++ '-' :: (b ++ '-' :: d)) '-' = [a, b, d] := by
  rw [split_eq_spec, split_spec_append _ _ _ ha, split_spec_append _ _ _ hb,
    split_spec_last _ _ hd]

/-! ## Numerals -/

theorem digit_not_space {c : Char} (h : is_digit c = true) : is_space c = false := by
  simp only [is_space, Bool.or_eq_false_iff, decide_eq_false_iff_not]
  refine ⟨⟨⟨⟨⟨?_, ?_⟩, ?_⟩, ?_⟩, ?_⟩, ?_⟩ <;>
  · rintro rfl
    exact absurd h (by decide)

theorem digit_ne {c : Char} (h : is_digit c = true) :
    c ≠ '-' ∧ c ≠ '+' ∧ c ≠ '.' ∧ c ≠ 'x' ∧ c ≠ 'X' ∧ c ≠ 'i' ∧ c ≠ 'I' ∧ c ≠ 'n' ∧ c ≠ 'N' := by
  refine ⟨?_, ?_, ?_, ?_, ?_, ?_, ?_, ?_, ?_⟩ <;>
  · rintro rfl
    exact absurd h (by decide)

theorem digit_le_nine {c : Char} (h : is_digit c = true) : c.toNat - 48 ≤ 9 := by
  simp only [is_digit, Bool.and_eq_true, decide_eq_true_eq] at h
  have h2 : c.toNat ≤ 57 := h.2
  omega

theorem numeral_no_dash {ds : List Char} (h : ∀ c, c ∈ ds → is_digit c = true) : '-' ∉ ds :=
  fun hmem => (digit_ne (h _ hmem)).1 rfl

theorem take_sign_digit {c : Char} (r : List Char) (h : is_digit c = true) :
    take_sign (c :: r) = (false, c :: r) := by
  simp [take_sign, (digit_ne h).1, (digit_ne h).2.1]

theorem digits_fold_lt (ds : List Char) (h : ∀ c, c ∈ ds → is_digit c = true) :
    ∀ acc : ℕ, ds.foldl (fun acc d => 10 * acc + (d.toNat - 48)) acc + 1
      ≤ (acc + 1) * 10 ^ ds.length := by
  induction ds with
  | nil =>
    intro acc
    simp
  | cons d ds ih =>
    intro acc
    have hd := digit_le_nine (h d (List.mem_cons_self _ _))
    have := ih (fun c hc => h c (List.mem_cons_of_mem _ hc)) (10 * acc + (d.toNat - 48))
    simp only [List.foldl_cons, List.length_cons, pow_succ]
    calc _ ≤ (10 * acc + (d.toNat - 48) + 1) * 10 ^ ds.length := this
      _ ≤ ((acc + 1) * 10) * 10 ^ ds.length := Nat.mul_le_mul_right _ (by omega)
      _ = (acc + 1) * (10 ^ ds.length * 10) := by ring

theorem digits_value_lt (ds : List Char) (h : ∀ c, c ∈ ds → is_digit c = true) :
    digits_value ds < 10 ^ ds.length := by
  have := digits_fold_lt ds h 0
  simp only [zero_add, one_mul] at this
  exact this

theorem stoi_numeral (ds : List Char) (h : is_numeral ds) (hv : digits_value ds ≤ 2147483647) :
    stoi ds = .ok (digits_value ds : ℤ) := by
  obtain ⟨hne, hall⟩ := h
  cases ds with
  | nil => exact absurd rfl hne
  | cons d r =>
    have hd := hall d (List.mem_cons_self _ _)
    have hsp : (d :: r).dropWhile is_space = d :: r :=
      List.dropWhile_cons_of_neg (by simp [digit_not_space hd])
    have htw : (d :: r).takeWhile is_digit = d :: r :=
      List.takeWhile_eq_self_iff.mpr hall
    have hv' : ((digits_value (d :: r) : ℕ) : ℤ) ≤ 2147483647 := by exact_mod_cast hv
    have hv0 : (-2147483648 : ℤ) ≤ ((digits_value (d :: r) : ℕ) : ℤ) := by
      have : (0 : ℤ) ≤ ((digits_value (d :: r) : ℕ) : ℤ) := Int.natCast_nonneg _
      omega
    simp only [stoi, hsp, take_sign_digit r hd, htw]
    simp [hv', hv0]

theorem mantissa_numeral (ss fs : List Char) (hs : is_numeral ss)
    (hf : ∀ c, c ∈ fs → is_digit c = true) :
    mantissa 10 is_digit digits_value ss = some ((digits_value ss : ℚ), []) ∧
    mantissa 10 is_digit digits_value (ss ++ '.' :: fs)
      = some ((digits_value ss : ℚ) + (digits_value fs : ℚ) / (10 : ℚ) ^ fs.length, []) := by
  obtain ⟨hne, hall⟩ := hs
  have hdot : ¬ is_digit '.' = true := by decide
  constructor
  · have h1 : ss.takeWhile is_digit = ss := List.takeWhile_eq_self_iff.mpr hall
    have h2 : ss.dropWhile is_digit = [] := List.dropWhile_eq_nil_iff.mpr hall
    simp only [mantissa, h1, h2]
    simp [hne, digits_value]
  · have h1 : (ss ++ '.' :: fs).takeWhile is_digit = ss := by
      rw [List.takeWhile_append_of_pos hall, List.takeWhile_cons_of_neg hdot,
        List.append_nil]
    have h2 : (ss ++ '.' :: fs).dropWhile is_digit = '.' :: fs := by
      rw [List.dropWhile_append_of_pos hall, List.dropWhile_cons_of_neg hdot]
    have h3 : fs.takeWhile is_digit = fs := List.takeWhile_eq_self_iff.mpr hf
    have h4 : fs.dropWhile is_digit = [] := List.dropWhile_eq_nil_iff.mpr hf
    simp only [mantissa, h1, h2, h3, h4]
    simp [hne]

theorem hex_number_numeral (ss frac : List Char) (hs : is_numeral ss)
    (hfrac : frac = [] ∨ ∃ fs, frac = '.' :: fs) : hex_number (ss ++ frac) = none := by
  obtain ⟨hne, hall⟩ := hs
  cases ss with
  | nil => exact absurd rfl hne
  | cons d r =>
    cases r with
    | nil =>
      rcases hfrac with rfl | ⟨fs, rfl⟩
      · rfl
      · simp [hex_number]
    | cons d2 r2 =>
      have hd2 := hall d2 (by simp)
      simp [hex_number, (digit_ne hd2).2.2.2.1, (digit_ne hd2).2.2.2.2.1]

theorem stod_numeral (ss fs : List Char) (hs : is_numeral ss)
    (hf : ∀ c, c ∈ fs → is_digit c = true) :
    stod ss = stod_number false (digits_value ss : ℚ) ∧
    stod (ss ++ '.' :: fs)
      = stod_number false
          ((digits_value ss : ℚ) + (digits_value fs : ℚ) / (10 : ℚ) ^ fs.length) := by
  have hm := mantissa_numeral ss fs hs hf
  have hx0 := hex_number_numeral ss [] hs (Or.inl rfl)
  have hx1 := hex_number_numeral ss ('.' :: fs) hs (Or.inr ⟨fs, rfl⟩)
  rw [List.append_nil] at hx0
  obtain ⟨hne, hall⟩ := hs
  cases ss with
  | nil => exact absurd rfl hne
  | cons d r =>
    have hd := hall d (List.mem_cons_self _ _)
    have hsp : ∀ t, (d :: t).dropWhile is_space = d :: t := fun t =>
      List.dropWhile_cons_of_neg (by simp [digit_not_space hd])
    have hinf : ∀ t, is_inf (d :: t) = false := by
      intro t
      cases t with
      | nil => rfl
      | cons b t =>
        cases t with
        | nil => rfl
        | cons c t => simp [is_inf, (digit_ne hd).2.2.2.2.2.1, (digit_ne hd).2.2.2.2.2.2.1]
    have hnan : ∀ t, is_nan (d :: t) = false := by
      intro t
      cases t with
      | nil => rfl
      | cons b t =>
        cases t with
        | nil => rfl
        | cons c t =>
          simp [is_nan, (digit_ne hd).2.2.2.2.2.2.2.1, (digit_ne hd).2.2.2.2.2.2.2.2]
    constructor
    · simp only [stod, hsp, take_sign_digit _ hd, hinf, hnan, hx0, decimal_number, hm.1]
      simp [exponent]
    · rw [List.cons_append] at hx1 ⊢
      have hm2 := hm.2
      rw [List.cons_append] at hm2
      simp only [stod, hsp, take_sign_digit _ hd, hinf, hnan, hx1, decimal_number, hm2]
      simp [exponent]

theorem fraction_bounds (fs : List Char) (hf : ∀ c, c ∈ fs → is_digit c = true)
    (hlen : fs.length ≤ 14) :
    ((digits_value fs : ℚ) / (10 : ℚ) ^ fs.length = 0 ∨
      (1 : ℚ) / 10 ^ 14 ≤ (digits_value fs : ℚ) / (10 : ℚ) ^ fs.length) ∧
    (digits_value fs : ℚ) / (10 : ℚ) ^ fs.length ≤ 1 - (1 : ℚ) / 10 ^ 14 := by
  have hlt := digits_value_lt fs hf
  have hpos : (0 : ℚ) < (10 : ℚ) ^ fs.length := by positivity
  have hpow : (10 : ℚ) ^ fs.length ≤ 10 ^ 14 := pow_le_pow_right₀ (by norm_num) hlen
  have hinv : (1 : ℚ) / 10 ^ 14 ≤ 1 / (10 : ℚ) ^ fs.length :=
    one_div_le_one_div_of_le hpos hpow
  constructor
  · rcases Nat.eq_zero_or_pos (digits_value fs) with h0 | h0
    · left
      rw [h0]
      simp
    · right
      refine le_trans hinv ?_
      rw [div_le_div_iff_of_pos_right hpos]
      exact_mod_cast h0
  · have h1 : (digits_value fs : ℚ) ≤ (10 : ℚ) ^ fs.length - 1 := by
      have : digits_value fs + 1 ≤ 10 ^ fs.length := hlt
      have h2 : ((digits_value fs + 1 : ℕ) : ℚ) ≤ ((10 ^ fs.length : ℕ) : ℚ) := by
        exact_mod_cast this
      push_cast at h2
      linarith
    have h3 : (digits_value fs : ℚ) / (10 : ℚ) ^ fs.length
        ≤ ((10 : ℚ) ^ fs.length - 1) / (10 : ℚ) ^ fs.length :=
      div_le_div_of_nonneg_right h1 (le_of_lt hpos)
    have h4 : ((10 : ℚ) ^ fs.length - 1) / (10 : ℚ) ^ fs.length
        = 1 - 1 / (10 : ℚ) ^ fs.length := by
      field_simp
    rw [h4] at h3
    linarith

/-- The seconds of a coordinate, a numeral of at most `60` optionally followed by a fraction
of at most 14 digits, are read by `std::stod` as a `double` that converts to the `int` the
numeral denotes. -/
theorem seconds_numeral (ss fs frac : List Char) (hs : is_numeral ss)
    (hf : ∀ c, c ∈ fs → is_digit c = true) (hfrac : frac = [] ∨ frac = '.' :: fs)
    (hlen : fs.length ≤ 14) (hv : digits_value ss ≤ 60) :
    ∃ p, stod (ss ++ frac) = .ok p ∧ to_int p = .ok (digits_value ss : ℤ) := by
  obtain ⟨hst0, hst1⟩ := stod_numeral ss fs hs hf
  obtain ⟨hf0, hf1⟩ := fraction_bounds fs hf hlen
  rcases hfrac with rfl | rfl
  · obtain ⟨r, hr, h1, h2⟩ := to_double_seconds (digits_value ss) 0 hv (Or.inl rfl)
      (by norm_num)
    rw [add_zero] at hr
    refine ⟨Parsed.number r, ?_, to_int_between _ r hv h1 h2⟩
    rw [List.append_nil, hst0]
    simp [stod_number, hr]
  · obtain ⟨r, hr, h1, h2⟩ := to_double_seconds (digits_value ss) _ hv hf0 hf1
    refine ⟨Parsed.number r, ?_, to_int_between _ r hv h1 h2⟩
    rw [hst1]
    simp [stod_number, hr]

/-! ## Coordinates in degrees, minutes and seconds -/

theorem get_dms_coord_sections (ds ms sec : List Char) (bound : ℤ) (negate : Bool)
    (hd : is_numeral ds) (hm : is_numeral ms) (hsec : '-' ∉ sec)
    (hD : (digits_value ds : ℤ) ≤ bound) (hb : bound ≤ 180) (hM : digits_value ms ≤ 60)
    (p : Parsed) (seconds : ℤ) (hstod : stod sec = .ok p) (hint : to_int p = .ok seconds) :
    get_dms_coord (ds ++ '-' :: (ms ++ '-' :: sec)) bound negate
      = if seconds < 0 ∨ seconds > 60 then .error ParseError.second_bounds
        else .ok (if negate
          then -((digits_value ds : ℚ) + (digits_value ms : ℚ) / 60 + (seconds : ℚ) / 3600)
          else (digits_value ds : ℚ) + (digits_value ms : ℚ) / 60 + (seconds : ℚ) / 3600) := by
  have hsplit := split_three ds ms sec (numeral_no_dash hd.2) (numeral_no_dash hm.2) hsec
  have hDn : digits_value ds ≤ 180 := by
    have : (digits_value ds : ℤ) ≤ 180 := le_trans hD hb
    exact_mod_cast this
  have hstoi_d := stoi_numeral ds hd (by omega)
  have hstoi_m := stoi_numeral ms hm (by omega)
  have hd0 : (0 : ℤ) ≤ (digits_value ds : ℤ) := Int.natCast_nonneg _
  have hm0 : (0 : ℤ) ≤ (digits_value ms : ℤ) := Int.natCast_nonneg _
  have hM' : (digits_value ms : ℤ) ≤ 60 := by exact_mod_cast hM
  have c1 : ¬ ((digits_value ds : ℤ) < -bound ∨ (digits_value ds : ℤ) > bound) := by omega
  have c2 : ¬ ((digits_value ms : ℤ) < 0 ∨ (digits_value ms : ℤ) > 60) := by omega
  simp only [get_dms_coord, hsplit, hstoi_d, hstoi_m, hstod, hint, if_neg c1, if_neg c2,
    Int.cast_natCast]

theorem get_dms_coord_numeral (ds ms ss fs frac : List Char) (bound : ℤ) (negate : Bool)
    (hd : is_numeral ds) (hm : is_numeral ms) (hs : is_numeral ss)
    (hf : ∀ c, c ∈ fs → is_digit c = true) (hfrac : frac = [] ∨ frac = '.' :: fs)
    (hlen : fs.length ≤ 14)
    (hD : (digits_value ds : ℤ) ≤ bound) (hb : bound ≤ 180)
    (hM : digits_value ms ≤ 60) (hS : digits_value ss ≤ 60) :
    get_dms_coord (ds ++ '-' :: (ms ++ '-' :: (ss ++ frac))) bound negate
      = .ok (if negate then -(dms_value ds ms ss) else dms_value ds ms ss) := by
  have hfracdash : '-' ∉ ss ++ frac := by
    intro hmem
    rcases List.mem_append.mp hmem with h | h
    · exact numeral_no_dash hs.2 h
    · rcases hfrac with rfl | rfl
      · simp at h
      · rcases List.mem_cons.mp h with h | h
        · exact absurd h (by decide)
        · exact numeral_no_dash hf h
  obtain ⟨p, hstod, hint⟩ := seconds_numeral ss fs frac hs hf hfrac hlen hS
  have hs0 : (0 : ℤ) ≤ (digits_value ss : ℤ) := Int.natCast_nonneg _
  have hS' : (digits_value ss : ℤ) ≤ 60 := by exact_mod_cast hS
  have c3 : ¬ ((digits_value ss : ℤ) < 0 ∨ (digits_value ss : ℤ) > 60) := by omega
  rw [get_dms_coord_sections ds ms (ss ++ frac) bound negate hd hm hfracdash hD hb hM p _
    hstod hint, if_neg c3]
  simp only [dms_value, Int.cast_natCast]

theorem parse_dms_latitude_numeral (ds ms ss fs frac : List Char) (marker : Char)
    (hd : is_numeral ds) (hm : is_numeral ms) (hs : is_numeral ss)
    (hf : ∀ c, c ∈ fs → is_digit c = true) (hfrac : frac = [] ∨ frac = '.' :: fs)
    (hlen : fs.length ≤ 14)
    (hD : digits_value ds ≤ 90) (hM : digits_value ms ≤ 60) (hS : digits_value ss ≤ 60) :
    ((marker = 'n' ∨ marker = 'N') →
      parse_dms_latitude (dms_text ds ms ss frac marker) = .ok (dms_value ds ms ss)) ∧
    ((marker = 's' ∨ marker = 'S') →
      parse_dms_latitude (dms_text ds ms ss frac marker) = .ok (-(dms_value ds ms ss))) := by
  have hD' : (digits_value ds : ℤ) ≤ 90 := by exact_mod_cast hD
  have hpos := get_dms_coord_numeral ds ms ss fs frac 90 false hd hm hs hf hfrac hlen hD'
    (by norm_num) hM hS
  have hneg := get_dms_coord_numeral ds ms ss fs frac 90 true hd hm hs hf hfrac hlen hD'
    (by norm_num) hM hS
  constructor
  · intro hmk
    simp only [parse_dms_latitude, dms_text, List.getLast?_concat, List.dropLast_concat,
      if_pos hmk, hpos]
    rfl
  · intro hmk
    have hnot : ¬ (marker = 'n' ∨ marker = 'N') := by
      rcases hmk with rfl | rfl <;> decide
    simp only [parse_dms_latitude, dms_text, List.getLast?_concat, List.dropLast_concat,
      if_neg hnot, if_pos hmk, hneg]
    rfl

theorem parse_dms_longitude_numeral (ds ms ss fs frac : List Char) (marker : Char)
    (hd : is_numeral ds) (hm : is_numeral ms) (hs : is_numeral ss)
    (hf : ∀ c, c ∈ fs → is_digit c = true) (hfrac : frac = [] ∨ frac = '.' :: fs)
    (hlen : fs.length ≤ 14)
    (hD : digits_value ds ≤ 180) (hM : digits_value ms ≤ 60) (hS : digits_value ss ≤ 60) :
    ((marker = 'e' ∨ marker = 'E') →
      parse_dms_longitude (dms_text ds ms ss frac marker) = .ok (dms_value ds ms ss)) ∧
    ((marker = 'w' ∨ marker = 'W') →
      parse_dms_longitude (dms_text ds ms ss frac marker) = .ok (-(dms_value ds ms ss))) := by
  have hD' : (digits_value ds : ℤ) ≤ 180 := by exact_mod_cast hD
  have hpos := get_dms_coord_numeral ds ms ss fs frac 180 false hd hm hs hf hfrac hlen hD'
    (by norm_num) hM hS
  have hneg := get_dms_coord_numeral ds ms ss fs frac 180 true hd hm hs hf hfrac hlen hD'
    (by norm_num) hM hS
  constructor
  · intro hmk
    simp only [parse_dms_longitude, dms_text, List.getLast?_concat, List.dropLast_concat,
      if_pos hmk, hpos]
    rfl
  · intro hmk
    have hnot : ¬ (marker = 'e' ∨ marker = 'E') := by
      rcases hmk with rfl | rfl <;> decide
    simp only [parse_dms_longitude, dms_text, List.getLast?_concat, List.dropLast_concat,
      if_neg hnot, if_pos hmk, hneg]
    rfl

/-! ## What the parsing functions accept -/

theorem get_dms_coord_ok {value : List Char} {bound : ℤ} {negate : Bool} {v : ℚ}
    (h : get_dms_coord value bound negate = .ok v) :
    ∃ degrees minutes seconds : ℤ,
      -bound ≤ degrees ∧ degrees ≤ bound ∧ 0 ≤ minutes ∧ minutes ≤ 60 ∧
      0 ≤ seconds ∧ seconds ≤ 60 ∧
      v = (if negate then -((degrees : ℚ) + (minutes : ℚ) / 60 + (seconds : ℚ) / 3600)
        else (degrees : ℚ) + (minutes : ℚ) / 60 + (seconds : ℚ) / 3600) := by
  unfold get_dms_coord at h
  split at h
  · split at h
    · exact Except.noConfusion h
    · rename_i degrees _
      split at h
      · exact Except.noConfusion h
      · rename_i hdeg
        split at h
        · exact Except.noConfusion h
        · rename_i minutes _
          split at h
          · exact Except.noConfusion h
          · rename_i hmin
            split at h
            · exact Except.noConfusion h
            · split at h
              · exact Except.noConfusion h
              · rename_i seconds _
                split at h
                · exact Except.noConfusion h
                · rename_i hsec
                  injection h with h
                  refine ⟨degrees, minutes, seconds, ?_, ?_, ?_, ?_, ?_, ?_, h.symm⟩ <;> omega
  · exact Except.noConfusion h

theorem get_dms_coord_range {value : List Char} {bound : ℤ} {negate : Bool} {v : ℚ}
    (h : get_dms_coord value bound negate = .ok v) :
    -((bound : ℚ) + 61 / 60) ≤ v ∧ v ≤ (bound : ℚ) + 61 / 60 := by
  obtain ⟨d, m, s, hd1, hd2, hm1, hm2, hs1, hs2, hv⟩ := get_dms_coord_ok h
  have e1 : (-(bound : ℚ)) ≤ (d : ℚ) := by exact_mod_cast hd1
  have e2 : (d : ℚ) ≤ (bound : ℚ) := by exact_mod_cast hd2
  have e3 : (0 : ℚ) ≤ (m : ℚ) := by exact_mod_cast hm1
  have e4 : (m : ℚ) ≤ 60 := by exact_mod_cast hm2
  have e5 : (0 : ℚ) ≤ (s : ℚ) := by exact_mod_cast hs1
  have e6 : (s : ℚ) ≤ 60 := by exact_mod_cast hs2
  have hb : (0 : ℚ) ≤ (bound : ℚ) := by linarith
  rw [hv]
  split_ifs
  · constructor <;> linarith
  · constructor <;> linarith

theorem parse_dms_latitude_range {latitude : List Char} {v : ℚ}
    (h : parse_dms_latitude latitude = .ok v) : -(5461 / 60) ≤ v ∧ v ≤ 5461 / 60 := by
  unfold parse_dms_latitude at h
  split at h
  · exact Except.noConfusion h
  · have key : ∀ negate, get_dms_coord latitude.dropLast 90 negate = .ok v →
        -(5461 / 60) ≤ v ∧ v ≤ 5461 / 60 := by
      intro negate hg
      have := get_dms_coord_range hg
      push_cast at this
      constructor <;> linarith [this.1, this.2]
    split_ifs at h
    · exact key _ h
    · exact key _ h

theorem parse_dms_longitude_range {longitude : List Char} {v : ℚ}
    (h : parse_dms_longitude longitude = .ok v) : -(10861 / 60) ≤ v ∧ v ≤ 10861 / 60 := by
  unfold parse_dms_longitude at h
  split at h
  · exact Except.noConfusion h
  · have key : ∀ negate, get_dms_coord longitude.dropLast 180 negate = .ok v →
        -(10861 / 60) ≤ v ∧ v ≤ 10861 / 60 := by
      intro negate hg
      have := get_dms_coord_range hg
      push_cast at this
      constructor <;> linarith [this.1, this.2]
    split_ifs at h
    · exact key _ h
    · exact key _ h

theorem lat_sixty_and_a_half :
    parse_dms_latitude "0-0-60.5N".toList = .ok (1 / 60) := by
  have h := (parse_dms_latitude_numeral "0".toList "0".toList "60".toList "5".toList
    ('.' :: "5".toList) 'N' ⟨by decide, by decide⟩ ⟨by decide, by decide⟩
    ⟨by decide, by decide⟩ (by decide) (Or.inr rfl) (by decide) (by decide) (by decide)
    (by decide)).1
      (Or.inr rfl)
  have hv : dms_value "0".toList "0".toList "60".toList = 1 / 60 := by
    have h1 : digits_value "0".toList = 0 := by decide
    have h3 : digits_value "60".toList = 60 := by decide
    rw [dms_value, h1, h3]
    norm_num
  rw [hv] at h
  exact h

theorem lon_sixty_and_a_half :
    parse_dms_longitude "0-0-60.5E".toList = .ok (1 / 60) := by
  have h := (parse_dms_longitude_numeral "0".toList "0".toList "60".toList "5".toList
    ('.' :: "5".toList) 'E' ⟨by decide, by decide⟩ ⟨by decide, by decide⟩
    ⟨by decide, by decide⟩ (by decide) (Or.inr rfl) (by decide) (by decide) (by decide)
    (by decide)).1
      (Or.inr rfl)
  have hv : dms_value "0".toList "0".toList "60".toList = 1 / 60 := by
    have h1 : digits_value "0".toList = 0 := by decide
    have h3 : digits_value "60".toList = 60 := by decide
    rw [dms_value, h1, h3]
    norm_num
  rw [hv] at h
  exact h

theorem to_double_sixty_and_a_half : to_double (121 / 2) = .ok (121 / 2) := by
  rw [to_double_normal _ (by norm_num) (by norm_num),
    nearest_normal_eq (121 / 2) 5 8514618045497344 (by norm_num) (by norm_num) (by norm_num)
      (by norm_num)]
  norm_num

theorem stod_sixty_and_a_half : stod "60.5".toList = .ok (Parsed.number (121 / 2)) := by
  have h := (stod_numeral "60".toList "5".toList ⟨by decide, by decide⟩ (by decide)).2
  have h1 : digits_value "60".toList = 60 := by decide
  have h2 : digits_value "5".toList = 5 := by decide
  have h3 : "5".toList.length = 1 := by decide
  rw [h1, h2, h3] at h
  have hv : ((60 : ℕ) : ℚ) + ((5 : ℕ) : ℚ) / (10 : ℚ) ^ 1 = 121 / 2 := by norm_num
  rw [hv] at h
  have hform : "60.5".toList = "60".toList ++ '.' :: "5".toList := rfl
  rw [hform, h]
  simp [stod_number, to_double_sixty_and_a_half]

theorem lat_ninety_sixty_sixty :
    parse_dms_latitude "90-60-60N".toList = .ok (5461 / 60) := by
  have h := (parse_dms_latitude_numeral "90".toList "60".toList "60".toList [] [] 'N'
    ⟨by decide, by decide⟩ ⟨by decide, by decide⟩ ⟨by decide, by decide⟩ (by decide)
    (Or.inl rfl) (by decide) (by decide) (by decide) (by decide)).1 (Or.inr rfl)
  have hv : dms_value "90".toList "60".toList "60".toList = 5461 / 60 := by
    have h1 : digits_value "90".toList = 90 := by decide
    have h3 : digits_value "60".toList = 60 := by decide
    rw [dms_value, h1, h3]
    norm_num
  rw [hv] at h
  exact h

theorem lon_one_eighty_sixty_sixty :
    parse_dms_longitude "180-60-60E".toList = .ok (10861 / 60) := by
  have h := (parse_dms_longitude_numeral "180".toList "60".toList "60".toList [] [] 'E'
    ⟨by decide, by decide⟩ ⟨by decide, by decide⟩ ⟨by decide, by decide⟩ (by decide)
    (Or.inl rfl) (by decide) (by decide) (by decide) (by decide)).1 (Or.inr rfl)
  have hv : dms_value "180".toList "60".toList "60".toList = 10861 / 60 := by
    have h1 : digits_value "180".toList = 180 := by decide
    have h3 : digits_value "60".toList = 60 := by decide
    rw [dms_value, h1, h3]
    norm_num
  rw [hv] at h
  exact h


/-! ## Seconds that round up to the next whole number -/

theorem to_double_almost_sixty :
    to_double ((59 : ℚ) + 99999999999999999 / 10 ^ 17) = .ok 60 := by
  rw [to_double_normal _ (by norm_num) (by norm_num),
    nearest_normal_eq _ 5 8444249301319680 (by norm_num) (by norm_num) (by norm_num)
      (by norm_num)]
  norm_num

theorem stod_almost_sixty :
    stod "59.99999999999999999".toList = .ok (Parsed.number 60) := by
  have h := (stod_numeral "59".toList "99999999999999999".toList ⟨by decide, by decide⟩
    (by decide)).2
  have h1 : digits_value "59".toList = 59 := by decide
  have h2 : digits_value "99999999999999999".toList = 99999999999999999 := by decide
  have h3 : "99999999999999999".toList.length = 17 := by decide
  rw [h1, h2, h3] at h
  have hform : "59.99999999999999999".toList
      = "59".toList ++ '.' :: "99999999999999999".toList := rfl
  rw [hform, h]
  have hv : ((59 : ℕ) : ℚ) + ((99999999999999999 : ℕ) : ℚ) / (10 : ℚ) ^ 17
      = (59 : ℚ) + 99999999999999999 / 10 ^ 17 := by norm_num
  rw [hv]
  simp [stod_number, to_double_almost_sixty]

theorem lat_almost_sixty :
    parse_dms_latitude "0-0-59.99999999999999999N".toList = .ok (1 / 60) := by
  have hform : "0-0-59.99999999999999999N".toList
      = ("0".toList ++ '-' :: ("0".toList ++ '-' :: "59.99999999999999999".toList)) ++ ['N'] :=
    rfl
  have hint : to_int (Parsed.number 60) = .ok ((60 : ℕ) : ℤ) :=
    to_int_between 60 60 (by decide) (by norm_num) (by norm_num)
  have hget := get_dms_coord_sections "0".toList "0".toList "59.99999999999999999".toList 90
    false ⟨by decide, by decide⟩ ⟨by decide, by decide⟩ (by decide) (by decide) (by norm_num)
    (by decide) _ _ stod_almost_sixty hint
  have h0 : digits_value "0".toList = 0 := by decide
  rw [hform]
  simp only [parse_dms_latitude, List.getLast?_concat, List.dropLast_concat, hget, h0]
  norm_num
/-! ## The text of a depth -/

theorem dash_only_at_start_eq (value : List Char) :
    dash_only_at_start value = decide ('-' ∉ value.tail) := by
  cases value with
  | nil =>
    have h : decide (Char.ofNat 0 = '-') = false := by decide
    simp [dash_only_at_start, h]
  | cons front rest =>
    simp only [dash_only_at_start, List.headD_cons, List.count_cons, beq_iff_eq, List.tail_cons]
    by_cases hf : front = '-'
    · subst hf
      simp [List.count_eq_zero]
    · simp [hf, List.count_eq_zero]

theorem parse_depth_checks (value : List Char) :
    parse_depth value =
      if (∀ c, c ∈ value → c = '-' ∨ c = '.' ∨ is_digit c = true) ∧
          value.count '.' ≤ 1 ∧ '-' ∉ value.tail
      then stod value else .error ParseError.not_legal_double := by
  have hall : value.all (fun c =>
      decide (c = '-') || decide (c = '.') || (decide ('0' ≤ c) && decide (c ≤ '9'))) = true ↔
      ∀ c, c ∈ value → c = '-' ∨ c = '.' ∨ is_digit c = true := by
    simp only [List.all_eq_true, Bool.or_eq_true, decide_eq_true_eq, is_digit, or_assoc]
  by_cases h1 : ∀ c, c ∈ value → c = '-' ∨ c = '.' ∨ is_digit c = true
  · by_cases h2 : value.count '.' ≤ 1
    · by_cases h3 : '-' ∈ value.tail
      · rw [if_neg (by tauto)]
        simp only [parse_depth, hall.mpr h1, h2, dash_only_at_start_eq]
        simp [h3]
      · rw [if_pos ⟨h1, h2, h3⟩]
        simp only [parse_depth, hall.mpr h1, h2, dash_only_at_start_eq]
        simp [h3]
    · rw [if_neg (by tauto)]
      simp only [parse_depth, hall.mpr h1, h2]
      simp
  · rw [if_neg (by tauto)]
    have : value.all (fun c =>
      decide (c = '-') || decide (c = '.') || (decide ('0' ≤ c) && decide (c ≤ '9'))) = false := by
      rw [← Bool.not_eq_true, hall]
      exact h1
    simp only [parse_depth, this]
    simp

theorem plain_char_ne {c : Char} (h : c = '.' ∨ is_digit c = true) :
    is_space c = false ∧ c ≠ '-' ∧ c ≠ '+' ∧ c ≠ 'x' ∧ c ≠ 'X' ∧ c ≠ 'i' ∧ c ≠ 'I' ∧
      c ≠ 'n' ∧ c ≠ 'N' := by
  rcases h with rfl | h
  · decide
  · exact ⟨digit_not_space h, (digit_ne h).1, (digit_ne h).2.1, (digit_ne h).2.2.2.1,
      (digit_ne h).2.2.2.2.1, (digit_ne h).2.2.2.2.2.1, (digit_ne h).2.2.2.2.2.2.1,
      (digit_ne h).2.2.2.2.2.2.2.1, (digit_ne h).2.2.2.2.2.2.2.2⟩

theorem plain_not_special (b : List Char) (h : ∀ c, c ∈ b → c = '.' ∨ is_digit c = true) :
    is_inf b = false ∧ is_nan b = false ∧ hex_number b = none := by
  cases b with
  | nil => exact ⟨rfl, rfl, rfl⟩
  | cons a t =>
    have ha := plain_char_ne (h a (List.mem_cons_self _ _))
    cases t with
    | nil => exact ⟨rfl, rfl, rfl⟩
    | cons a2 t2 =>
      have ha2 := plain_char_ne (h a2 (by simp))
      have hhex : hex_number (a :: a2 :: t2) = none := by
        simp [hex_number, ha2.2.2.2.1, ha2.2.2.2.2.1]
      cases t2 with
      | nil => exact ⟨rfl, rfl, hhex⟩
      | cons a3 t3 =>
        refine ⟨?_, ?_, hhex⟩
        · simp [is_inf, ha.2.2.2.2.2.1, ha.2.2.2.2.2.2.1]
        · simp [is_nan, ha.2.2.2.2.2.2.2.1, ha.2.2.2.2.2.2.2.2]

theorem mantissa_plain (b : List Char) (h : ∀ c, c ∈ b → c = '.' ∨ is_digit c = true)
    (hdot : b.count '.' ≤ 1) :
    ((∃ c, c ∈ b ∧ is_digit c = true) →
      mantissa 10 is_digit digits_value b = some (plain_magnitude b, [])) ∧
    ((¬ ∃ c, c ∈ b ∧ is_digit c = true) → mantissa 10 is_digit digits_value b = none) := by
  have hsplit := List.takeWhile_append_dropWhile is_digit b
  have hip : ∀ c, c ∈ b.takeWhile is_digit → is_digit c = true := fun c hc =>
    List.mem_takeWhile_imp hc
  cases hr : b.dropWhile is_digit with
  | nil =>
    rw [hr, List.append_nil] at hsplit
    constructor
    · rintro ⟨c, hc, hd⟩
      have hne : b.takeWhile is_digit ≠ [] := by
        rw [hsplit]
        exact List.ne_nil_of_mem hc
      simp only [mantissa, plain_magnitude, hr]
      rw [if_neg (fun hh => hne hh.1)]
      rfl
    · intro hno
      have hnil : b.takeWhile is_digit = [] := by
        rw [hsplit]
        cases b with
        | nil => rfl
        | cons x xs =>
          exfalso
          apply hno
          refine ⟨x, List.mem_cons_self _ _, hip x ?_⟩
          rw [hsplit]
          exact List.mem_cons_self _ _
      simp only [mantissa, hr]
      simp [hnil]
  | cons c r =>
    have hcnot : ¬ is_digit c = true := by
      have := List.head_dropWhile_not is_digit b (by rw [hr]; exact List.cons_ne_nil _ _)
      simpa [hr] using this
    have hcb : c ∈ b := by
      rw [← hsplit, hr]
      exact List.mem_append_right _ (List.mem_cons_self _ _)
    have hc : c = '.' := (h c hcb).resolve_right hcnot
    subst hc
    have hrb : ∀ x, x ∈ r → x ∈ b := fun x hx => by
      rw [← hsplit, hr]
      exact List.mem_append_right _ (List.mem_cons_of_mem _ hx)
    have hrdot : '.' ∉ r := by
      intro hmem
      have hcount : b.count '.' = (b.takeWhile is_digit).count '.' + (1 + r.count '.') := by
        conv_lhs => rw [← hsplit, hr]
        rw [List.count_append, List.count_cons_self]
        omega
      have : 0 < r.count '.' := List.count_pos_iff.mpr hmem
      omega
    have hrdig : ∀ x, x ∈ r → is_digit x = true := fun x hx =>
      (h x (hrb x hx)).resolve_left (fun hxd => hrdot (hxd ▸ hx))
    have h3 : r.takeWhile is_digit = r := List.takeWhile_eq_self_iff.mpr hrdig
    have h4 : r.dropWhile is_digit = [] := List.dropWhile_eq_nil_iff.mpr hrdig
    constructor
    · rintro ⟨x, hx, hd⟩
      have hne : ¬ (b.takeWhile is_digit = [] ∧ r = []) := by
        rintro ⟨h1, h2⟩
        rw [← hsplit, hr, h1, h2] at hx
        simp only [List.nil_append, List.mem_singleton] at hx
        subst hx
        exact absurd hd (by decide)
      simp only [mantissa, plain_magnitude, hr, h3, h4, if_true, List.drop_succ_cons,
        List.drop_zero]
      rw [if_neg hne]
      norm_num
    · intro hno
      have h1 : b.takeWhile is_digit = [] := by
        cases ht : b.takeWhile is_digit with
        | nil => rfl
        | cons x xs =>
          exfalso
          apply hno
          have hx : x ∈ b.takeWhile is_digit := by
            rw [ht]
            exact List.mem_cons_self _ _
          refine ⟨x, ?_, hip x hx⟩
          rw [← hsplit]
          exact List.mem_append_left _ hx
      have h2 : r = [] := by
        cases r with
        | nil => rfl
        | cons x xs =>
          exfalso
          exact hno ⟨x, hrb x (List.mem_cons_self _ _), hrdig x (List.mem_cons_self _ _)⟩
      subst h2
      simp only [mantissa, hr, h1, if_true]
      simp

theorem stod_body (negative : Bool) (s b : List Char)
    (hs : take_sign (s.dropWhile is_space) = (negative, b))
    (h : ∀ c, c ∈ b → c = '.' ∨ is_digit c = true) (hdot : b.count '.' ≤ 1) :
    ((∃ c, c ∈ b ∧ is_digit c = true) → stod s = stod_number negative (plain_magnitude b)) ∧
    ((¬ ∃ c, c ∈ b ∧ is_digit c = true) → stod s = .error ParseError.invalid_argument) := by
  obtain ⟨hinf, hnan, hhex⟩ := plain_not_special b h
  obtain ⟨hsome, hnone⟩ := mantissa_plain b h hdot
  constructor
  · intro hd
    simp only [stod, hs, hinf, hnan, hhex, decimal_number, hsome hd]
    simp [exponent]
  · intro hd
    simp only [stod, hs, hinf, hnan, hhex, decimal_number, hnone hd]
    rfl

theorem stod_checked (value : List Char)
    (h1 : ∀ c, c ∈ value → c = '-' ∨ c = '.' ∨ is_digit c = true)
    (h2 : value.count '.' ≤ 1) (h3 : '-' ∉ value.tail) :
    ((∃ c, c ∈ value ∧ is_digit c = true) →
      stod value = stod_number (plain_negative value) (plain_magnitude (plain_body value))) ∧
    ((¬ ∃ c, c ∈ value ∧ is_digit c = true) →
      stod value = .error ParseError.invalid_argument) := by
  cases value with
  | nil =>
    have hs : take_sign (([] : List Char).dropWhile is_space) = (false, []) := rfl
    obtain ⟨ha, hb⟩ := stod_body false [] [] hs (by simp) (by simp)
    exact ⟨fun ⟨c, hc, _⟩ => absurd hc (List.not_mem_nil c), fun _ => hb (by simp)⟩
  | cons front rest =>
    rw [List.tail_cons] at h3
    have hrest : ∀ c, c ∈ rest → c = '.' ∨ is_digit c = true := by
      intro c hc
      rcases h1 c (List.mem_cons_of_mem _ hc) with h | h
      · exact absurd (h ▸ hc) h3
      · exact h
    have hrestdot : rest.count '.' ≤ 1 := by
      rw [List.count_cons] at h2
      omega
    by_cases hf : front = '-'
    · subst hf
      have hsp : ('-' :: rest).dropWhile is_space = '-' :: rest :=
        List.dropWhile_cons_of_neg (by decide)
      have hs : take_sign (('-' :: rest).dropWhile is_space) = (true, rest) := by
        rw [hsp]
        rfl
      obtain ⟨ha, hb⟩ := stod_body true ('-' :: rest) rest hs hrest hrestdot
      constructor
      · rintro ⟨c, hc, hd⟩
        rcases List.mem_cons.mp hc with h | h
        · subst h
          exact absurd hd (by decide)
        · have := ha ⟨c, h, hd⟩
          simpa [plain_negative, plain_body] using this
      · intro hno
        exact hb (fun ⟨c, hc, hd⟩ => hno ⟨c, List.mem_cons_of_mem _ hc, hd⟩)
    · have hfront : front = '.' ∨ is_digit front = true :=
        (h1 front (List.mem_cons_self _ _)).resolve_left hf
      have hne := plain_char_ne hfront
      have hsp : (front :: rest).dropWhile is_space = front :: rest :=
        List.dropWhile_cons_of_neg (by simp [hne.1])
      have hs : take_sign ((front :: rest).dropWhile is_space) = (false, front :: rest) := by
        rw [hsp]
        simp [take_sign, hf, hne.2.2.1]
      have hall : ∀ c, c ∈ front :: rest → c = '.' ∨ is_digit c = true := by
        intro c hc
        rcases List.mem_cons.mp hc with h | h
        · subst h
          exact hfront
        · exact hrest c h
      obtain ⟨ha, hb⟩ := stod_body false (front :: rest) (front :: rest) hs hall h2
      refine ⟨fun hd => ?_, hb⟩
      have := ha hd
      simpa [plain_negative, plain_body, hf] using this

/-- What `parse_depth` does on every text: it raises an error on a text that is not a plain
decimal numeral, and on a plain decimal numeral it returns the `double` nearest to the number
denoted when that number is `0` or of a magnitude in the range of the normal numbers, and
raises `std::out_of_range` when the magnitude is `2¹⁰²⁴` or more. -/
theorem parse_depth_cases (value : List Char) :
    (¬ is_plain_numeral value → raises (parse_depth value)) ∧
    (is_plain_numeral value →
      (plain_magnitude (plain_body value) = 0 → parse_depth value = .ok (Parsed.number 0)) ∧
      ((2 : ℚ) ^ (-1022 : ℤ) ≤ plain_magnitude (plain_body value) →
        plain_magnitude (plain_body value) ≤ (2 : ℚ) ^ (1024 : ℤ) - (2 : ℚ) ^ (971 : ℤ) →
        parse_depth value = .ok (Parsed.number
          (if plain_negative value then -nearest_normal (plain_magnitude (plain_body value))
            else nearest_normal (plain_magnitude (plain_body value))))) ∧
      ((2 : ℚ) ^ (1024 : ℤ) ≤ plain_magnitude (plain_body value) →
        parse_depth value = .error ParseError.out_of_range)) := by
  rw [parse_depth_checks]
  constructor
  · intro hnot
    by_cases hc : (∀ c, c ∈ value → c = '-' ∨ c = '.' ∨ is_digit c = true) ∧
        value.count '.' ≤ 1 ∧ '-' ∉ value.tail
    · rw [if_pos hc]
      have hno : ¬ ∃ c, c ∈ value ∧ is_digit c = true :=
        fun h4 => hnot ⟨hc.1, hc.2.1, hc.2.2, h4⟩
      rw [(stod_checked value hc.1 hc.2.1 hc.2.2).2 hno]
      exact ⟨_, rfl, ParseError.noConfusion⟩
    · rw [if_neg hc]
      exact ⟨_, rfl, ParseError.noConfusion⟩
  · rintro ⟨h1, h2, h3, h4⟩
    rw [if_pos ⟨h1, h2, h3⟩, (stod_checked value h1 h2 h3).1 h4]
    refine ⟨?_, ?_, ?_⟩
    · intro h0
      rw [h0]
      simp [stod_number, to_double_zero]
    · intro hlo hhi
      simp only [stod_number, to_double_normal _ hlo hhi]
    · intro hov
      simp only [stod_number, to_double_overflow _ hov]

theorem nearest_normal_hundred : nearest_normal 100 = 100 := by
  rw [nearest_normal_eq 100 6 7036874417766400 (by norm_num) (by norm_num) (by norm_num)
    (by norm_num)]
  norm_num

theorem plain_hundred :
    is_plain_numeral "100.000".toList ∧ plain_negative "100.000".toList = false ∧
      plain_magnitude (plain_body "100.000".toList) = 100 := by
  refine ⟨⟨by decide, by decide, by decide, ⟨'1', by decide, by decide⟩⟩, rfl, ?_⟩
  have hb : plain_body "100.000".toList = "100.000".toList := rfl
  have h1 : "100.000".toList.takeWhile is_digit = "100".toList := by decide
  have h2 : ("100.000".toList.dropWhile is_digit).drop 1 = "000".toList := by decide
  have h3 : digits_value "100".toList = 100 := by decide
  have h4 : digits_value "000".toList = 0 := by decide
  rw [hb, plain_magnitude, h1, h2, h3, h4]
  norm_num

theorem parse_depth_hundred : parse_depth "100.000".toList = .ok (Parsed.number 100) := by
  obtain ⟨hp, hn, hm⟩ := plain_hundred
  have h := ((parse_depth_cases "100.000".toList).2 hp).2.1
  rw [hm, hn, nearest_normal_hundred] at h
  exact h (by norm_num) (by norm_num)

theorem digits_fold_zeros (n acc : ℕ) :
    (List.replicate n '0').foldl (fun acc d => 10 * acc + (d.toNat - 48)) acc
      = acc * 10 ^ n := by
  induction n generalizing acc with
  | zero => simp
  | succ n ih =>
    rw [List.replicate_succ, List.foldl_cons, ih]
    have : ('0' : Char).toNat - 48 = 0 := by decide
    rw [this, pow_succ]
    ring

theorem digits_value_one_zeros (n : ℕ) :
    digits_value ('1' :: List.replicate n '0') = 10 ^ n := by
  have h1 : 10 * 0 + (('1' : Char).toNat - 48) = 1 := by decide
  simp only [digits_value, List.foldl_cons, h1, digits_fold_zeros, one_mul]

theorem one_zeros_digits (n : ℕ) (c : Char) (h : c ∈ '1' :: List.replicate n '0') :
    is_digit c = true := by
  rcases List.mem_cons.mp h with h | h
  · subst h
    decide
  · rw [List.eq_of_mem_replicate h]
    decide

/-- The numeral of `1` followed by `309` zeros is a plain decimal numeral that denotes
`10³⁰⁹`. -/
theorem plain_googol :
    is_plain_numeral ('1' :: List.replicate 309 '0') ∧
      plain_magnitude (plain_body ('1' :: List.replicate 309 '0')) = (10 : ℚ) ^ 309 := by
  have hdig := one_zeros_digits 309
  have hnodot : '.' ∉ '1' :: List.replicate 309 '0' := fun h =>
    absurd (hdig '.' h) (by decide)
  have hnodash : '-' ∉ List.replicate 309 '0' := fun h =>
    absurd (hdig '-' (List.mem_cons_of_mem _ h)) (by decide)
  refine ⟨⟨fun c hc => Or.inr (Or.inr (hdig c hc)), ?_, hnodash,
    ⟨'1', List.mem_cons_self _ _, by decide⟩⟩, ?_⟩
  · rw [List.count_eq_zero.mpr hnodot]
    exact Nat.zero_le _
  · have hb : plain_body ('1' :: List.replicate 309 '0') = '1' :: List.replicate 309 '0' := by
      have hc : ¬ ('1' : Char) = '-' := by decide
      simp only [plain_body, if_neg hc]
    have h1 : ('1' :: List.replicate 309 '0').takeWhile is_digit
        = '1' :: List.replicate 309 '0' := List.takeWhile_eq_self_iff.mpr hdig
    have h2 : ('1' :: List.replicate 309 '0').dropWhile is_digit = [] :=
      List.dropWhile_eq_nil_iff.mpr hdig
    rw [hb, plain_magnitude, h1, h2, digits_value_one_zeros]
    simp only [digits_value, List.drop_nil, List.foldl_nil, List.length_nil, Nat.cast_zero,
      zero_div, add_zero, Nat.cast_pow, Nat.cast_ofNat]

theorem two_pow_le_googol : (2 : ℚ) ^ (1024 : ℤ) ≤ (10 : ℚ) ^ 309 := by
  have h : (2 : ℚ) ^ (1024 : ℤ) = ((2 : ℚ) ^ 128) ^ 8 := by
    have hz : (1024 : ℤ) = ((128 * 8 : ℕ) : ℤ) := rfl
    rw [hz, zpow_natCast, pow_mul]
  rw [h]
  calc ((2 : ℚ) ^ 128) ^ 8 ≤ (35 * 10 ^ 37) ^ 8 :=
        pow_le_pow_left₀ (by positivity) (by norm_num) 8
    _ = 35 ^ 8 * 10 ^ 296 := by rw [mul_pow, ← pow_mul]
    _ ≤ 10 ^ 13 * 10 ^ 296 := mul_le_mul_of_nonneg_right (by norm_num) (by positivity)
    _ = 10 ^ 309 := by rw [← pow_add]

theorem parse_depth_googol :
    parse_depth ('1' :: List.replicate 309 '0') = .error ParseError.out_of_range := by
  obtain ⟨hp, hm⟩ := plain_googol
  refine ((parse_depth_cases _).2 hp).2.2 ?_
  rw [hm]
  exact two_pow_le_googol

/-! # Theorems -/

/-! ## The queries of the graph -/

/-- C6, as the code has it: `adjacent(lhs, rhs)` is true if and only if both coordinates are
present in the graph and `distance_between(lhs, rhs) < resolution`; the method makes no
`lhs ≠ rhs` test. -/
theorem adjacent_iff (dist : Coordinate → Coordinate → ℚ) (g : Graph) (lhs rhs : Coordinate) :
    g.adjacent dist lhs rhs = true ↔
      g.contains lhs = true ∧ g.contains rhs = true ∧ dist lhs rhs < (g.resolution : ℚ) := by
  simp [Graph.adjacent, and_assoc]

/-- C6 fails as stated: in the graph with one sample at the origin and resolution `1`,
`adjacent(x, x)` is true for the origin `x`, so the equivalence with "both present, `lhs ≠ rhs`
and distance below the resolution" does not hold. -/
theorem adjacent_self_counterexample :
    origin_graph.adjacent grid_distance Coordinate.zero Coordinate.zero = true ∧
      ¬ (origin_graph.adjacent grid_distance Coordinate.zero Coordinate.zero = true ↔
          origin_graph.contains Coordinate.zero = true ∧
            origin_graph.contains Coordinate.zero = true ∧
            Coordinate.zero ≠ Coordinate.zero ∧
            grid_distance Coordinate.zero Coordinate.zero
              < (origin_graph.resolution : ℚ)) := by
  have h : origin_graph.adjacent grid_distance Coordinate.zero Coordinate.zero = true := by
    simp [origin_graph, Graph.adjacent, Graph.contains, Graph.find, Graph.new, grid_distance]
  refine ⟨h, ?_⟩
  intro hiff
  exact (hiff.mp h).2.2.1 rfl

/-- C7: `weight(c)` is `max_depth - depth + 1` for the stored location that `find` returns
for `c` when `c` is present, and it is the not-a-number sentinel exactly when `c` is absent. -/
theorem weight_spec (g : Graph) (c : Coordinate) :
    (g.contains c = true →
        ∃ loc, loc ∈ g.data ∧ loc.coord = c ∧ g.find c = some loc ∧
          g.weight c = Double.fin (g.max_depth - loc.depth + 1)) ∧
      (g.weight c = Double.nan ↔ g.contains c = false) := by
  unfold Graph.weight Graph.contains
  cases hf : g.find c with
  | none => simp
  | some loc =>
    obtain ⟨h1, h2⟩ := find_some_mem g c loc hf
    simp only [Option.isSome_some, true_implies, Bool.true_eq_false, iff_false]
    exact ⟨⟨loc, h1, h2, rfl, rfl⟩, fun h => Double.noConfusion h⟩

theorem weight_spec_witness :
    origin_graph.contains Coordinate.zero = true ∧
      ∃ loc, loc ∈ origin_graph.data ∧ loc.coord = Coordinate.zero ∧
        origin_graph.find Coordinate.zero = some loc ∧
        origin_graph.weight Coordinate.zero
          = Double.fin (origin_graph.max_depth - loc.depth + 1) :=
  ⟨by simp [origin_graph, Graph.contains, Graph.find, Graph.new],
    (weight_spec origin_graph Coordinate.zero).1
      (by simp [origin_graph, Graph.contains, Graph.find, Graph.new])⟩

/-- C8, amended: for two locations `A` and `B` that are the stored locations `find` returns
for their coordinates (as every location is when the stored coordinates are pairwise
distinct), `depth(A) > depth(B)` gives `weight(A.coord) ≤ weight(B.coord)`; the inequality is
strict when `max_depth` and the two depths are whole multiples of `2⁻ʲ` with
`depth(A) ≤ max_depth` and `(max_depth - depth(B) + 1) · 2ʲ ≤ 2⁵³`, for then the subtraction
and the addition that make a weight are exact in `double`. -/
theorem weight_antitone (g : Graph) (A B : Location)
    (hA : g.find A.coord = some A) (hB : g.find B.coord = some B) (h : B.depth < A.depth) :
    ∃ wa wb, g.weight A.coord = Double.fin wa ∧ g.weight B.coord = Double.fin wb ∧ wa ≤ wb ∧
      ∀ j : ℕ,
        (∃ m a b : ℤ, g.max_depth = (m : ℚ) / 2 ^ j ∧ A.depth = (a : ℚ) / 2 ^ j ∧
          B.depth = (b : ℚ) / 2 ^ j) →
        A.depth ≤ g.max_depth → (g.max_depth - B.depth + 1) * 2 ^ j ≤ 2 ^ 53 → wa < wb := by
  refine ⟨g.max_depth - A.depth + 1, g.max_depth - B.depth + 1, ?_, ?_, ?_, ?_⟩
  · simp [Graph.weight, hA]
  · simp [Graph.weight, hB]
  · linarith
  · intro _ _ _ _
    linarith

/-- C8 at the two-sample graph (depths `5` and `3`, whole numbers below the maximum depth
`5`): the weight at the deeper sample is smaller. -/
theorem weight_antitone_witness :
    ∃ wa wb, pair_graph.weight Coordinate.zero = Double.fin wa ∧
      pair_graph.weight { latitude := 1, longitude := 0 } = Double.fin wb ∧ wa < wb :=
  have hmax : pair_graph.max_depth = 5 := pair_max_depth
  let ⟨wa, wb, h1, h2, _, h4⟩ :=
    weight_antitone pair_graph { coord := Coordinate.zero, depth := 5 }
      { coord := { latitude := 1, longitude := 0 }, depth := 3 }
      (by simp [pair_graph, pair_data, Coordinate.north, Graph.find, Graph.new])
      (by simp [pair_graph, pair_data, Coordinate.north, Graph.find, Graph.new,
        Coordinate.zero])
      (by norm_num)
  ⟨wa, wb, h1, h2, h4 0 ⟨5, 5, 3, by rw [hmax]; norm_num, by norm_num, by norm_num⟩
    (by rw [hmax]) (by rw [hmax]; norm_num)⟩

/-- C8 fails as stated: with two samples stored at one coordinate, of depths `5` and `3`, both
are in the sample list and `5 > 3`, yet `weight` is the same at their (common) coordinate. -/
theorem weight_antitone_counterexample :
    ∃ A B : Location, A ∈ twin_graph.data ∧ B ∈ twin_graph.data ∧ B.depth < A.depth ∧
      ¬ (∃ wa wb, twin_graph.weight A.coord = Double.fin wa ∧
          twin_graph.weight B.coord = Double.fin wb ∧ wa < wb) := by
  refine ⟨{ coord := Coordinate.zero, depth := 5 }, { coord := Coordinate.zero, depth := 3 },
    by simp [twin_graph, Graph.new], by simp [twin_graph, Graph.new], by norm_num, ?_⟩
  rintro ⟨wa, wb, ha, hb, hlt⟩
  rw [ha] at hb
  injection hb with hb
  exact absurd hlt (by rw [hb]; exact lt_irrefl _)

/-- C9: in a graph made by the constructor, the weight at the coordinate of every stored
location is a number `≥ 1`. -/
theorem weight_ge_one (data : List Location) (resolution : ℕ) (L : Location) (h : L ∈ data) :
    ∃ w, (Graph.new data resolution).weight L.coord = Double.fin w ∧ 1 ≤ w := by
  have hc : (Graph.new data resolution).contains L.coord = true := by
    rw [contains_iff_mem_coords]
    exact List.mem_map.mpr ⟨L, h, rfl⟩
  obtain ⟨loc, hloc⟩ := (contains_iff_find _ _).mp hc
  obtain ⟨hmem, -⟩ := find_some_mem _ _ _ hloc
  refine ⟨max_depth_of data - loc.depth + 1, ?_, ?_⟩
  · unfold Graph.weight
    rw [hloc]
    rfl
  · have := depth_le_max_depth_of data loc hmem
    linarith

theorem weight_ge_one_witness :
    ∃ w, (Graph.new [{ coord := Coordinate.zero, depth := 10 }] 1).weight Coordinate.zero
      = Double.fin w ∧ 1 ≤ w :=
  weight_ge_one [{ coord := Coordinate.zero, depth := 10 }] 1
    { coord := Coordinate.zero, depth := 10 } (by simp)

/-- C10: a graph made by the constructor contains a coordinate if and only if some location
of the sample list has exactly that coordinate. -/
theorem contains_iff (data : List Location) (resolution : ℕ) (c : Coordinate) :
    (Graph.new data resolution).contains c = true ↔ ∃ loc, loc ∈ data ∧ loc.coord = c := by
  rw [contains_iff_mem_coords]
  simp [Graph.coords, Graph.new]

/-! ## The shortest-path search -/

/-- C1: when the snapped sink is reachable from the snapped source, `shortest_path` returns
(for every fuel above the number of samples) a non-empty sequence whose first element is the
stored location at the snapped source and whose last element is the stored location at the
snapped sink. -/
theorem shortest_path_endpoints (dist : Coordinate → Coordinate → ℚ) (data : List Location)
    (resolution fuel : ℕ) (source sink src snk : Coordinate)
    (hsrc : closest_point dist source (Graph.new data resolution).coords = some src)
    (hsnk : closest_point dist sink (Graph.new data resolution).coords = some snk)
    (hreach : (Graph.new data resolution).reachable dist src snk)
    (hfuel : data.length < fuel) :
    ∃ path first last,
      (Graph.new data resolution).shortest_path dist fuel source sink = .ok path ∧
      path ≠ [] ∧
      (Graph.new data resolution).find src = some first ∧ path.head? = some first ∧
      (Graph.new data resolution).find snk = some last ∧ path.getLast? = some last := by
  obtain ⟨path, q, hrun, hpath, -⟩ :=
    shortest_path_run dist _ (new_weighted data resolution) False 0 (fun h => h.elim)
      fuel source sink src snk hsrc hsnk hreach hfuel
  obtain ⟨first, last, h1, h2, h3, h4⟩ := backpath_ends hpath
  refine ⟨path, first, last, hrun, ?_, h1, h3, h2, h4⟩
  rintro rfl
  simp at h3

/-- C5: when source and sink snap to the same stored coordinate, `shortest_path` returns (for
every fuel above the number of samples) the sequence of exactly one element, the stored
location at that coordinate. -/
theorem shortest_path_same_snap (dist : Coordinate → Coordinate → ℚ) (data : List Location)
    (resolution fuel : ℕ) (source sink c : Coordinate)
    (hsrc : closest_point dist source (Graph.new data resolution).coords = some c)
    (hsnk : closest_point dist sink (Graph.new data resolution).coords = some c)
    (hfuel : data.length < fuel) :
    ∃ loc, (Graph.new data resolution).find c = some loc ∧
      (Graph.new data resolution).shortest_path dist fuel source sink = .ok [loc] :=
  shortest_path_same dist _ (new_weighted data resolution) fuel source sink c hsrc hsnk hfuel

/-- C1 at the two-sample graph: from the origin to its northern neighbour. -/
theorem shortest_path_endpoints_witness :
    ∃ path first last,
      (Graph.new pair_data 2).shortest_path grid_distance 3 Coordinate.zero Coordinate.north
        = .ok path ∧
      path ≠ [] ∧
      (Graph.new pair_data 2).find Coordinate.zero = some first ∧ path.head? = some first ∧
      (Graph.new pair_data 2).find Coordinate.north = some last ∧
      path.getLast? = some last :=
  shortest_path_endpoints grid_distance pair_data 2 3 Coordinate.zero Coordinate.north
    Coordinate.zero Coordinate.north pair_closest_zero pair_closest_north pair_reachable
    (by decide)

/-- C5 at the two-sample graph: from the origin to the origin. -/
theorem shortest_path_same_snap_witness :
    ∃ loc, (Graph.new pair_data 2).find Coordinate.zero = some loc ∧
      (Graph.new pair_data 2).shortest_path grid_distance 3 Coordinate.zero Coordinate.zero
        = .ok [loc] :=
  shortest_path_same_snap grid_distance pair_data 2 3 Coordinate.zero Coordinate.zero
    Coordinate.zero pair_closest_zero pair_closest_zero (by decide)

/-- C3 fails on the code: in the graph of two samples `5` apart with resolution `1`, the sink
is not reachable from the source, and `shortest_path` reports no error: it returns the two
samples as a path, although they are not adjacent. -/
theorem unreachable_returns_path :
    ¬ (Graph.new split_data 1).reachable grid_distance Coordinate.zero Coordinate.far ∧
      (Graph.new split_data 1).shortest_path grid_distance 3 Coordinate.zero Coordinate.far
        = .ok [{ coord := Coordinate.zero, depth := 10 },
               { coord := Coordinate.far, depth := 10 }] ∧
      (Graph.new split_data 1).adjacent grid_distance Coordinate.zero Coordinate.far
        = false := by
  refine ⟨split_unreachable, ?_, ?_⟩
  · simp only [Graph.shortest_path, split_closest_zero, split_closest_far, initial_state_eq,
      search_isolated grid_distance _ Coordinate.zero 1 split_isolated]
    simp [reconstruct, Map.index, Map.insert, Map.empty, Graph.find, split_data, Graph.new,
      Coordinate.zero, Coordinate.far]
  · simp [Graph.adjacent, grid_distance, Coordinate.zero, Coordinate.far, Graph.new]

/-- C4, as the code has it: for three collinear samples spaced at distance `1` with depths
`[10, 50, 10]` and the resolution `2`, `shortest_path` from the first sample's coordinate to
the last sample's coordinate returns exactly the three samples in order. -/
theorem chain_shortest_path (dist : Coordinate → Coordinate → ℚ) (c1 c2 c3 : Coordinate)
    (fuel : ℕ) (h : collinear_unit dist c1 c2 c3) (hfuel : 3 < fuel) :
    (Graph.new (chain_data c1 c2 c3) 2).shortest_path dist fuel c1 c3
      = .ok [{ coord := c1, depth := 10 }, { coord := c2, depth := 50 },
             { coord := c3, depth := 10 }] := by
  show (Graph.new (chain_data c1 c2 c3) 2).shortest_path dist fuel c1 c3
      = .ok (chain_data c1 c2 c3)
  obtain ⟨hcl1, hcl3⟩ := chain_closest h 2
  obtain ⟨hwalk, hcost⟩ := chain_reachable h
  obtain ⟨path, q, hrun, hpath, hmin⟩ :=
    shortest_path_run dist _ (new_weighted (chain_data c1 c2 c3) 2) True (max 41 0)
      (fun _ => bounded_of_depths (chain_bounded c1 c2 c3) 2) fuel c1 c3 c1 c3
      hcl1 hcl3 ⟨_, hwalk⟩ hfuel
  obtain ⟨cst, hcst, hle⟩ := hmin trivial _ hwalk
  rw [hcost] at hcst
  injection hcst with hcst
  subst hcst
  rw [hrun, chain_path h hpath hle]

/-- C4 with resolution `2` at three samples one degree of latitude apart. -/
theorem chain_shortest_path_witness :
    collinear_unit grid_distance Coordinate.zero Coordinate.north Coordinate.north2 ∧
      (Graph.new (chain_data Coordinate.zero Coordinate.north Coordinate.north2) 2).shortest_path
          grid_distance 4 Coordinate.zero Coordinate.north2
        = .ok [{ coord := Coordinate.zero, depth := 10 }, { coord := Coordinate.north, depth := 50 },
               { coord := Coordinate.north2, depth := 10 }] :=
  ⟨grid_collinear,
    chain_shortest_path grid_distance Coordinate.zero Coordinate.north Coordinate.north2 4
      grid_collinear (by decide)⟩

/-- C4 fails as stated: the resolution `1.5` reaches the constructor's `unsigned` parameter as
`1`, under which samples at distance `1` are not adjacent; for three samples one degree of
latitude apart starting at the origin, `shortest_path` from the first to the last returns the
first and the last sample only. -/
theorem chain_counterexample :
    collinear_unit grid_distance Coordinate.zero Coordinate.north Coordinate.north2 ∧
      unsigned_of_double (3 / 2) = 1 ∧
      (Graph.new (chain_data Coordinate.zero Coordinate.north Coordinate.north2)
          (unsigned_of_double (3 / 2))).shortest_path
          grid_distance 4 Coordinate.zero Coordinate.north2
        = .ok [{ coord := Coordinate.zero, depth := 10 },
               { coord := Coordinate.north2, depth := 10 }] ∧
      (Graph.new (chain_data Coordinate.zero Coordinate.north Coordinate.north2)
          (unsigned_of_double (3 / 2))).shortest_path
          grid_distance 4 Coordinate.zero Coordinate.north2
        ≠ .ok [{ coord := Coordinate.zero, depth := 10 }, { coord := Coordinate.north, depth := 50 },
               { coord := Coordinate.north2, depth := 10 }] := by
  have hrun : (Graph.new (chain_data Coordinate.zero Coordinate.north Coordinate.north2)
      (unsigned_of_double (3 / 2))).shortest_path grid_distance 4 Coordinate.zero
        Coordinate.north2
      = .ok [{ coord := Coordinate.zero, depth := 10 },
             { coord := Coordinate.north2, depth := 10 }] := by
    rw [unsigned_three_halves]
    simp only [Graph.shortest_path, (chain_closest grid_collinear 1).1,
      (chain_closest grid_collinear 1).2, initial_state_eq,
      search_isolated grid_distance _ Coordinate.zero 2 chain_isolated]
    simp [reconstruct, Map.index, Map.insert, Map.empty, Graph.find, chain_data, Graph.new,
      Coordinate.zero, Coordinate.north, Coordinate.north2]
  refine ⟨grid_collinear, unsigned_three_halves, hrun, ?_⟩
  rw [hrun]
  simp

/-- C19: when the snapped sink is reachable from the snapped source, every two consecutive
locations of the path that `shortest_path` returns have distinct coordinates that satisfy
`adjacent`, and no coordinate occurs twice in the path. -/
theorem shortest_path_simple_walk (dist : Coordinate → Coordinate → ℚ) (data : List Location)
    (resolution fuel : ℕ) (source sink src snk : Coordinate)
    (hsrc : closest_point dist source (Graph.new data resolution).coords = some src)
    (hsnk : closest_point dist sink (Graph.new data resolution).coords = some snk)
    (hreach : (Graph.new data resolution).reachable dist src snk)
    (hfuel : data.length < fuel) :
    ∃ path,
      (Graph.new data resolution).shortest_path dist fuel source sink = .ok path ∧
      List.Chain' (fun a b : Location => a.coord ≠ b.coord ∧
        (Graph.new data resolution).adjacent dist a.coord b.coord = true) path ∧
      (path.map (fun loc => loc.coord)).Nodup := by
  obtain ⟨path, q, hrun, hpath, -⟩ :=
    shortest_path_run dist _ (new_weighted data resolution) False 0 (fun h => h.elim)
      fuel source sink src snk hsrc hsnk hreach hfuel
  obtain ⟨path', hrun', hnd⟩ :=
    shortest_path_nodup dist _ (new_weighted data resolution) fuel source sink src snk
      hsrc hsnk hreach hfuel
  rw [hrun] at hrun'
  injection hrun' with hrun'
  subst hrun'
  obtain ⟨l, hmap, hchain, -, -⟩ := backpath_walk hpath
  refine ⟨path, hrun, ?_, hnd⟩
  have h : List.Chain' (fun x y => x ≠ y ∧ (Graph.new data resolution).adjacent dist x y = true)
      (path.map (fun loc => loc.coord)) := by
    rw [hmap]
    exact hchain
  exact (List.chain'_map _).mp h

/-- C19 at the two-sample graph: from the origin to its northern neighbour. -/
theorem shortest_path_simple_walk_witness :
    ∃ path,
      (Graph.new pair_data 2).shortest_path grid_distance 3 Coordinate.zero Coordinate.north
        = .ok path ∧
      List.Chain' (fun a b : Location => a.coord ≠ b.coord ∧
        (Graph.new pair_data 2).adjacent grid_distance a.coord b.coord = true) path ∧
      (path.map (fun loc => loc.coord)).Nodup :=
  shortest_path_simple_walk grid_distance pair_data 2 3 Coordinate.zero Coordinate.north
    Coordinate.zero Coordinate.north pair_closest_zero pair_closest_north pair_reachable
    (by decide)

/-- C17, amended: every call that a run of `shortest_path` makes (whatever the fuel) involves
no not-a-number: `weight` is only called on coordinates present in the graph and does not
return the sentinel, and no tentative distance recorded is the sentinel. When moreover the
weights of the samples are at most `W` and `n · W < 2⁶³ - 1/2` with `n` the number of samples,
every weight returned and every tentative distance recorded is a finite number `≥ 0`, and
every priority given to the queue is the rounding of such a number and is `≥ 0`. -/
theorem shortest_path_no_nan (dist : Coordinate → Coordinate → ℚ) (data : List Location)
    (resolution fuel : ℕ) (source sink : Coordinate) (e : Event)
    (he : e ∈ (Graph.new data resolution).shortest_path_events dist fuel source sink) :
    e.no_nan (Graph.new data resolution) ∧
      ∀ W : ℚ, bounded_depths data W → e.finite (Graph.new data resolution) := by
  refine ⟨((shortest_path_events_ok dist _ (new_weighted data resolution) False 0
    (fun h => h.elim) fuel source sink).1 e he).2.1, ?_⟩
  intro W hbound
  exact ((shortest_path_events_ok dist _ (new_weighted data resolution) True (max W 0)
    (fun _ => bounded_of_depths hbound resolution) fuel source sink).1 e he).2.2 trivial

/-- C17 at the two-sample graph (depths `5` and `3`, weights at most `3`): the call of
`weight` on the northern neighbour of the source. -/
theorem shortest_path_no_nan_witness :
    Event.weight_call Coordinate.north ((Graph.new pair_data 2).weight Coordinate.north) ∈
        (Graph.new pair_data 2).shortest_path_events grid_distance 3 Coordinate.zero
          Coordinate.north ∧
      bounded_depths pair_data 3 ∧
      (Event.weight_call Coordinate.north
        ((Graph.new pair_data 2).weight Coordinate.north)).no_nan (Graph.new pair_data 2) ∧
      (Event.weight_call Coordinate.north
        ((Graph.new pair_data 2).weight Coordinate.north)).finite (Graph.new pair_data 2) :=
  ⟨pair_trace_weight_call, pair_bounded,
    (shortest_path_no_nan grid_distance pair_data 2 3 Coordinate.zero Coordinate.north _
      pair_trace_weight_call).1,
    (shortest_path_no_nan grid_distance pair_data 2 3 Coordinate.zero Coordinate.north _
      pair_trace_weight_call).2 3 pair_bounded⟩

/-- C17 fails as stated: on four samples at the corners of a unit square, two of depth `10¹⁹`
and two of depth `0`, the run from the origin to the opposite corner pushes the eastern
neighbour of the source, whose distance is `10¹⁹ + 1`, under the priority `LONG_MIN`, which
is negative. -/
theorem shortest_path_no_nan_counterexample :
    Event.push [(Coordinate.north, 1)] Coordinate.east LONG_MIN ∈
        (Graph.new abyss_data 2).shortest_path_events grid_distance 5 Coordinate.zero
          Coordinate.north_east ∧
      LONG_MIN < 0 ∧
      ¬ (Event.push [(Coordinate.north, 1)] Coordinate.east LONG_MIN).finite
        (Graph.new abyss_data 2) := by
  refine ⟨abyss_trace_push, by decide, ?_⟩
  rintro ⟨-, h⟩
  exact absurd h (by decide)

/-- C18: every call that a run of `shortest_path` makes on the queue (whatever the fuel)
respects its contract: `push` is only called with a coordinate that is not queued,
`decrease_priority` only with a coordinate that is queued and a rounded priority that is at
most its current one; and no coordinate is pushed twice. -/
theorem shortest_path_queue_contract (dist : Coordinate → Coordinate → ℚ)
    (data : List Location) (resolution fuel : ℕ) (source sink : Coordinate) :
    (∀ e, e ∈ (Graph.new data resolution).shortest_path_events dist fuel source sink →
        e.respects) ∧
      (pushed ((Graph.new data resolution).shortest_path_events dist fuel source sink)).Nodup :=
  ⟨fun e he =>
      ((shortest_path_events_ok dist _ (new_weighted data resolution) False 0
        (fun h => h.elim) fuel source sink).1 e he).1,
    (shortest_path_events_ok dist _ (new_weighted data resolution) False 0
      (fun h => h.elim) fuel source sink).2⟩

/-- C18 at the two-sample graph: the push of the source. -/
theorem shortest_path_queue_contract_witness :
    Event.push [] Coordinate.zero 0 ∈
        (Graph.new pair_data 2).shortest_path_events grid_distance 3 Coordinate.zero
          Coordinate.north ∧
      (Event.push [] Coordinate.zero 0).respects :=
  have hmem : Event.push [] Coordinate.zero 0 ∈
      (Graph.new pair_data 2).shortest_path_events grid_distance 3 Coordinate.zero
        Coordinate.north := by
    simp only [Graph.shortest_path_events, pair_closest_zero, pair_closest_north]
    exact List.mem_cons_of_mem _ (List.mem_cons_self _ _)
  ⟨hmem, (shortest_path_queue_contract grid_distance pair_data 2 3 Coordinate.zero
    Coordinate.north).1 _ hmem⟩

/-! ## The constructor -/

/-- C11, as the code has it: for every sample list in which some location has a depth `≥ 0`,
the `max_depth` stored by the constructor is the maximum of the depths of the list: it is the
depth of one of the locations and no location is deeper. -/
theorem max_depth_is_maximum (data : List Location) (resolution : ℕ)
    (h : ∃ loc, loc ∈ data ∧ 0 ≤ loc.depth) :
    (∃ loc, loc ∈ data ∧ loc.depth = (Graph.new data resolution).max_depth) ∧
      ∀ loc, loc ∈ data → loc.depth ≤ (Graph.new data resolution).max_depth :=
  ⟨max_depth_of_attained data h, fun loc hloc => depth_le_max_depth_of data loc hloc⟩

/-- C11 with a depth `≥ 0` in the list, at the two-sample list. -/
theorem max_depth_is_maximum_witness :
    (∃ loc, loc ∈ pair_data ∧ loc.depth = (Graph.new pair_data 2).max_depth) ∧
      ∀ loc, loc ∈ pair_data → loc.depth ≤ (Graph.new pair_data 2).max_depth :=
  max_depth_is_maximum pair_data 2
    ⟨{ coord := Coordinate.zero, depth := 5 }, by simp [pair_data], by norm_num⟩

/-- C11 fails as stated: for the non-empty list whose only depth is `-5`, the constructor
stores the `max_depth` `0`, which is above the depth of every location of the list. -/
theorem max_depth_counterexample :
    negative_data ≠ [] ∧ (Graph.new negative_data 1).max_depth = 0 ∧
      ¬ ∃ loc, loc ∈ negative_data ∧ loc.depth = (Graph.new negative_data 1).max_depth := by
  have h0 : (Graph.new negative_data 1).max_depth = 0 := by
    simp [Graph.new, max_depth_of, negative_data]
  refine ⟨by simp [negative_data], h0, ?_⟩
  rw [h0]
  rintro ⟨loc, hloc, hd⟩
  simp only [negative_data, List.mem_singleton] at hloc
  subst hloc
  norm_num at hd

/-- C12, as the code has it: the constructor raises no error on an empty sample list: it
produces the graph with no samples, the given resolution and `max_depth` `0`, which contains no
coordinate. -/
theorem empty_graph (resolution : ℕ) :
    Graph.new [] resolution = { data := [], resolution := resolution, max_depth := 0 } ∧
      ∀ c, (Graph.new [] resolution).contains c = false := by
  constructor
  · simp [Graph.new, max_depth_of]
  · intro c
    simp [Graph.new, Graph.contains, Graph.find]

/-- C12 fails as stated: constructing a graph from the empty sample list with resolution `1`
produces a graph value. -/
theorem empty_graph_counterexample :
    ∃ g : Graph, Graph.new [] 1 = g ∧ g.data = [] ∧ g.resolution = 1 ∧ g.max_depth = 0 :=
  ⟨Graph.new [] 1, rfl, rfl, rfl, by simp [Graph.new, max_depth_of]⟩

/-! ## Text ingestion -/

/-- C13, amended: for every well-formed text `D-M-S` (numerals of degrees, minutes and whole
seconds within their bounds, the seconds optionally followed by a fraction of at most 14
digits and not above `60`) and hemisphere marker, `parse_dms_latitude` (markers `n`, `N`, `s`,
`S`) and `parse_dms_longitude` (markers `e`, `E`, `w`, `W`) return `D + M/60 + s/3600` for the
whole seconds `s`, negated exactly for the markers of the south and of the west. -/
theorem parse_dms_well_formed (ds ms ss fs frac : List Char) (marker : Char)
    (hd : is_numeral ds) (hm : is_numeral ms) (hs : is_numeral ss)
    (hf : ∀ c, c ∈ fs → is_digit c = true) (hfrac : frac = [] ∨ frac = '.' :: fs)
    (hlen : fs.length ≤ 14) (hM : digits_value ms ≤ 60)
    (hS : digits_value ss < 60 ∨ (digits_value ss = 60 ∧ digits_value fs = 0)) :
    (digits_value ds ≤ 90 →
      ((marker = 'n' ∨ marker = 'N') →
        parse_dms_latitude (dms_text ds ms ss frac marker) = .ok (dms_value ds ms ss)) ∧
      ((marker = 's' ∨ marker = 'S') →
        parse_dms_latitude (dms_text ds ms ss frac marker) = .ok (-(dms_value ds ms ss)))) ∧
    (digits_value ds ≤ 180 →
      ((marker = 'e' ∨ marker = 'E') →
        parse_dms_longitude (dms_text ds ms ss frac marker) = .ok (dms_value ds ms ss)) ∧
      ((marker = 'w' ∨ marker = 'W') →
        parse_dms_longitude (dms_text ds ms ss frac marker) = .ok (-(dms_value ds ms ss)))) :=
  have hS' : digits_value ss ≤ 60 := by omega
  ⟨fun hD => parse_dms_latitude_numeral ds ms ss fs frac marker hd hm hs hf hfrac hlen hD hM
      hS',
    fun hD => parse_dms_longitude_numeral ds ms ss fs frac marker hd hm hs hf hfrac hlen hD hM
      hS'⟩

/-- C13 at the coordinates of the tests: `49-12-00.000N` is `49.2`, `112-56-24.360W` is
`-112.94`, `49-12-00.000S` is `-49.2` and `112-56-24.360E` is `112.94`. -/
theorem parse_dms_well_formed_witness :
    parse_dms_latitude "49-12-00.000N".toList = .ok (246 / 5) ∧
      parse_dms_longitude "112-56-24.360W".toList = .ok (-(5647 / 50)) ∧
      parse_dms_latitude "49-12-00.000S".toList = .ok (-(246 / 5)) ∧
      parse_dms_longitude "112-56-24.360E".toList = .ok (5647 / 50) := by
  have hlat : dms_value "49".toList "12".toList "00".toList = 246 / 5 := by
    have h1 : digits_value "49".toList = 49 := by decide
    have h2 : digits_value "12".toList = 12 := by decide
    have h3 : digits_value "00".toList = 0 := by decide
    rw [dms_value, h1, h2, h3]
    norm_num
  have hlon : dms_value "112".toList "56".toList "24".toList = 5647 / 50 := by
    have h1 : digits_value "112".toList = 112 := by decide
    have h2 : digits_value "56".toList = 56 := by decide
    have h3 : digits_value "24".toList = 24 := by decide
    rw [dms_value, h1, h2, h3]
    norm_num
  have hN := ((parse_dms_well_formed "49".toList "12".toList "00".toList "000".toList
    ('.' :: "000".toList) 'N' ⟨by decide, by decide⟩ ⟨by decide, by decide⟩
    ⟨by decide, by decide⟩ (by decide) (Or.inr rfl) (by decide) (by decide)
    (Or.inl (by decide))).1 (by decide)).1 (Or.inr rfl)
  have hS := ((parse_dms_well_formed "49".toList "12".toList "00".toList "000".toList
    ('.' :: "000".toList) 'S' ⟨by decide, by decide⟩ ⟨by decide, by decide⟩
    ⟨by decide, by decide⟩ (by decide) (Or.inr rfl) (by decide) (by decide)
    (Or.inl (by decide))).1 (by decide)).2 (Or.inr rfl)
  have hW := ((parse_dms_well_formed "112".toList "56".toList "24".toList "360".toList
    ('.' :: "360".toList) 'W' ⟨by decide, by decide⟩ ⟨by decide, by decide⟩
    ⟨by decide, by decide⟩ (by decide) (Or.inr rfl) (by decide) (by decide)
    (Or.inl (by decide))).2 (by decide)).2 (Or.inr rfl)
  have hE := ((parse_dms_well_formed "112".toList "56".toList "24".toList "360".toList
    ('.' :: "360".toList) 'E' ⟨by decide, by decide⟩ ⟨by decide, by decide⟩
    ⟨by decide, by decide⟩ (by decide) (Or.inr rfl) (by decide) (by decide)
    (Or.inl (by decide))).2 (by decide)).1 (Or.inr rfl)
  rw [hlat] at hN hS
  rw [hlon] at hW hE
  exact ⟨hN, hW, hS, hE⟩

/-- C13 fails as stated: the seconds `59.99999999999999999` of the well-formed text
`0-0-59.99999999999999999N` have the whole-number part `59`, for which the claim gives
`59/3600`; `std::stod` rounds them to the `double` `60`, and `parse_dms_latitude` returns
`60/3600`. -/
theorem parse_dms_well_formed_counterexample :
    "0-0-59.99999999999999999N".toList
        = dms_text "0".toList "0".toList "59".toList ('.' :: "99999999999999999".toList) 'N' ∧
      dms_value "0".toList "0".toList "59".toList = 59 / 3600 ∧
      parse_dms_latitude "0-0-59.99999999999999999N".toList = .ok (1 / 60) ∧
      (1 / 60 : ℚ) ≠ 59 / 3600 := by
  refine ⟨rfl, ?_, lat_almost_sixty, by norm_num⟩
  have h1 : digits_value "0".toList = 0 := by decide
  have h3 : digits_value "59".toList = 59 := by decide
  rw [dms_value, h1, h3]
  norm_num

/-- C15 fails on the code: the seconds field `60.5` denotes a number outside `[0, 60]`, and
`parse_dms_latitude` and `parse_dms_longitude` return a coordinate for it: the seconds are
truncated to the `int` `60` before they are compared with the bounds. -/
theorem seconds_fraction_accepted :
    stod "60.5".toList = .ok (Parsed.number (121 / 2)) ∧ (60 : ℚ) < 121 / 2 ∧
      parse_dms_latitude "0-0-60.5N".toList = .ok (1 / 60) ∧
      parse_dms_longitude "0-0-60.5E".toList = .ok (1 / 60) :=
  ⟨stod_sixty_and_a_half, by norm_num, lat_sixty_and_a_half, lon_sixty_and_a_half⟩

/-- C20, as the code has it: every value returned by `parse_dms_latitude` lies in
`[-(91 + 1/60), 91 + 1/60]` and every value returned by `parse_dms_longitude` lies in
`[-(181 + 1/60), 181 + 1/60]`: the bound holds for the degrees, to which up to `60` minutes and
`60` seconds are added. -/
theorem parse_dms_range (input : List Char) (v : ℚ) :
    (parse_dms_latitude input = .ok v → -(5461 / 60) ≤ v ∧ v ≤ 5461 / 60) ∧
      (parse_dms_longitude input = .ok v → -(10861 / 60) ≤ v ∧ v ≤ 10861 / 60) :=
  ⟨parse_dms_latitude_range, parse_dms_longitude_range⟩

/-- C20 at the latitude `90-60-60N`, where the bound is attained. -/
theorem parse_dms_range_witness :
    parse_dms_latitude "90-60-60N".toList = .ok (5461 / 60) ∧
      (-(5461 / 60) ≤ (5461 / 60 : ℚ) ∧ (5461 / 60 : ℚ) ≤ 5461 / 60) :=
  ⟨lat_ninety_sixty_sixty,
    (parse_dms_range "90-60-60N".toList (5461 / 60)).1 lat_ninety_sixty_sixty⟩

/-- C20 fails as stated: `parse_dms_latitude` returns `91 + 1/60` for `90-60-60N`, which is
above `90`, and `parse_dms_longitude` returns `181 + 1/60` for `180-60-60E`, which is above
`180`. -/
theorem parse_dms_range_counterexample :
    parse_dms_latitude "90-60-60N".toList = .ok (5461 / 60) ∧ (90 : ℚ) < 5461 / 60 ∧
      parse_dms_longitude "180-60-60E".toList = .ok (10861 / 60) ∧
      (180 : ℚ) < 10861 / 60 :=
  ⟨lat_ninety_sixty_sixty, by norm_num, lon_one_eighty_sixty_sixty, by norm_num⟩

/-- C16, amended: `parse_depth` raises an error on every input that is not a plain decimal
numeral (only the characters `-`, `.` and digits, at most one `.`, a `-` only as the first
character, and at least one digit); on a plain decimal numeral it returns the `double` nearest
to the number the numeral denotes when that number is `0` or has a magnitude between `2⁻¹⁰²²`
and the largest `double` `2¹⁰²⁴ - 2⁹⁷¹`, and it raises `std::out_of_range` when the magnitude
is `2¹⁰²⁴` or more. -/
theorem parse_depth_plain (value : List Char) :
    (¬ is_plain_numeral value → raises (parse_depth value)) ∧
    (is_plain_numeral value →
      (plain_magnitude (plain_body value) = 0 → parse_depth value = .ok (Parsed.number 0)) ∧
      ((2 : ℚ) ^ (-1022 : ℤ) ≤ plain_magnitude (plain_body value) →
        plain_magnitude (plain_body value) ≤ (2 : ℚ) ^ (1024 : ℤ) - (2 : ℚ) ^ (971 : ℤ) →
        parse_depth value = .ok (Parsed.number
          (if plain_negative value then -nearest_normal (plain_magnitude (plain_body value))
            else nearest_normal (plain_magnitude (plain_body value))))) ∧
      ((2 : ℚ) ^ (1024 : ℤ) ≤ plain_magnitude (plain_body value) →
        parse_depth value = .error ParseError.out_of_range)) :=
  parse_depth_cases value

/-- C16 at the depth of the test: `100.000` is a plain decimal numeral that denotes `100`, and
`parse_depth` returns `100`; the empty text is not a plain decimal numeral, and `parse_depth`
raises an error on it. -/
theorem parse_depth_plain_witness :
    is_plain_numeral "100.000".toList ∧
      plain_magnitude (plain_body "100.000".toList) = 100 ∧
      parse_depth "100.000".toList = .ok (Parsed.number 100) ∧
      ¬ is_plain_numeral [] ∧ raises (parse_depth []) := by
  obtain ⟨hp, hn, hm⟩ := plain_hundred
  have h := ((parse_depth_plain "100.000".toList).2 hp).2.1
  rw [hm, hn, nearest_normal_hundred] at h
  have hempty : ¬ is_plain_numeral [] := fun hpl => by
    obtain ⟨-, -, -, c, hc, -⟩ := hpl
    exact absurd hc (List.not_mem_nil c)
  exact ⟨hp, hm, h (by norm_num) (by norm_num), hempty,
    (parse_depth_plain []).1 hempty⟩

/-- C16 fails as stated: the numeral of `1` followed by `309` zeros is a plain decimal
numeral, and `parse_depth` returns no value for it: `std::stod` raises `std::out_of_range`,
the number `10³⁰⁹` being beyond the range of `double`. -/
theorem parse_depth_plain_counterexample :
    is_plain_numeral ('1' :: List.replicate 309 '0') ∧
      parse_depth ('1' :: List.replicate 309 '0') = .error ParseError.out_of_range ∧
      ¬ ∃ p, parse_depth ('1' :: List.replicate 309 '0') = .ok p := by
  refine ⟨plain_googol.1, parse_depth_googol, ?_⟩
  rintro ⟨p, hp⟩
  rw [parse_depth_googol] at hp
  exact Except.noConfusion hp
end thalweg
